import Mathlib

/-!
Shallow embedding of the `recipe_grid` Python library, together with
theorems settling the specification claims about it.

Modelling conventions used throughout this file:

* Python numbers (`int`, `float` and `Fraction`) are modelled as exact
  rationals `ℚ`.  Arithmetic stated over `ℚ` is exact; where the Python
  code performs floating point arithmetic the rational semantics is the
  idealised one (`math.isclose` is modelled by its documented formula
  with `rel_tol = 1e-9` and `abs_tol = 0`).  Where a claim is *about*
  which Python numeric type is produced (the number parser), a dedicated
  sum type distinguishes the three cases.
* Python strings are modelled as Lean `String` restricted to their ASCII
  behaviour (`str.lower`, `str.strip` and friends act characterwise).
* Python exceptions are modelled with `Except`/`Option` results; code
  raising an exception is code returning an `error` value.
* Python `list`/`tuple` become `List`; insertion-ordered `dict`s become
  association lists; `set`s become lists used only through membership.
-/

/-! ### Small helpers shared by several modules -/

/-- Python `math.isclose(a, b)` with the default tolerances
(`rel_tol = 1e-9`, `abs_tol = 0.0`), on the exact rational semantics:
`abs(a-b) <= max(rel_tol * max(abs(a), abs(b)), abs_tol)`. -/
def pyIsClose (a b : ℚ) : Bool :=
  decide (|a - b| ≤ max ((1 / 1000000000) * max |a| |b|) 0)

/-- Characters stripped by Python `str.strip()` and friends (ASCII). -/
def isPySpace (c : Char) : Bool :=
  c = ' ' || c = '\t' || c = '\n' || c = '\r' || c = '\x0b' || c = '\x0c'

/-- Python `str.lower` (ASCII behaviour). -/
def pyLower (s : String) : String :=
  (s.toList.map Char.toLower).asString

/-- Python `str.upper` (ASCII behaviour). -/
def pyUpper (s : String) : String :=
  (s.toList.map Char.toUpper).asString

/-- Python `str.lstrip()` with no argument (strip leading whitespace). -/
def pyLstrip (s : String) : String :=
  (s.toList.dropWhile isPySpace).asString

/-- Python `str.rstrip()` with no argument (strip trailing whitespace). -/
def pyRstrip (s : String) : String :=
  ((s.toList.reverse.dropWhile isPySpace).reverse).asString

/-! ### `recipe_grid.scaled_value_string` -/

/-- One entry of the tuple held by a `ScaledValueString`: either a plain
text fragment or an embedded (scalable) numeric value. -/
inductive StringPart
  | str (s : String)
  | num (value : ℚ)
deriving DecidableEq

/-- The merging stage of `ScaledValueString.__init__`: adjacent string
parts are concatenated. -/
def svsMerge : List StringPart → List StringPart
  | [] => []
  | .num q :: rest => .num q :: svsMerge rest
  | .str s :: rest =>
    match svsMerge rest with
    | .str s2 :: tail => .str (s ++ s2) :: tail
    | other => .str s :: other

/-- The filtering stage of `ScaledValueString.__init__`: parts equal to
the empty string are dropped (`part != ""` keeps every numeric part). -/
def svsFilterEmpty : List StringPart → List StringPart
  | [] => []
  | .str s :: rest => if s = "" then svsFilterEmpty rest else .str s :: svsFilterEmpty rest
  | .num q :: rest => .num q :: svsFilterEmpty rest

/-- Normalisation performed by `ScaledValueString.__init__`. -/
def svsNormalise (l : List StringPart) : List StringPart :=
  svsFilterEmpty (svsMerge l)

/-- Every part is a non-empty string or a number. -/
def svsPartsOK : List StringPart → Bool
  | [] => true
  | .str s :: rest => !(s == "") && svsPartsOK rest
  | .num _ :: rest => svsPartsOK rest

/-- No two adjacent string parts. -/
def svsAdjOK : List StringPart → Bool
  | .str _ :: .str _ :: _ => false
  | _ :: rest => svsAdjOK rest
  | [] => true

/-- The invariant established by `ScaledValueString.__init__`. -/
def svsNormOK (l : List StringPart) : Bool :=
  svsPartsOK l && svsAdjOK l

theorem svsAdjOK_str_any (a b : String) (l : List StringPart) :
    svsAdjOK (.str a :: l) = svsAdjOK (.str b :: l) := by
  cases l with
  | nil => rfl
  | cons q rest => cases q <;> rfl

theorem svsMerge_adjOK (l : List StringPart) : svsAdjOK (svsMerge l) = true := by
  induction l with
  | nil => rfl
  | cons p rest ih =>
    cases p with
    | num q =>
      simp only [svsMerge]
      cases h : svsMerge rest with
      | nil => rfl
      | cons q2 tail => rw [h] at ih; exact ih
    | str s =>
      simp only [svsMerge]
      cases h : svsMerge rest with
      | nil => rfl
      | cons q2 tail =>
        rw [h] at ih
        cases q2 with
        | str s2 => rw [svsAdjOK_str_any (s ++ s2) s2]; exact ih
        | num v => simpa [svsAdjOK] using ih

theorem svsAdjOK_of_cons {p : StringPart} {l : List StringPart}
    (h : svsAdjOK (p :: l) = true) : svsAdjOK l = true := by
  cases p with
  | num q => simpa [svsAdjOK] using h
  | str s =>
    cases l with
    | nil => rfl
    | cons q rest =>
      cases q with
      | str s2 => simp [svsAdjOK] at h
      | num v => simpa [svsAdjOK] using h

theorem svsFilterEmpty_adjOK (l : List StringPart) (h : svsAdjOK l = true) :
    svsAdjOK (svsFilterEmpty l) = true := by
  induction l with
  | nil => rfl
  | cons p rest ih =>
    have hrest := ih (svsAdjOK_of_cons h)
    cases p with
    | num q =>
      simp only [svsFilterEmpty]
      cases h2 : svsFilterEmpty rest with
      | nil => rfl
      | cons q2 tail => rw [h2] at hrest; exact hrest
    | str s =>
      by_cases hs : s = ""
      · simpa [svsFilterEmpty, hs] using hrest
      · -- the kept string part is followed by kept parts whose head is not a
        -- string: the unfiltered tail began with a non-string part
        cases rest with
        | nil => simp [svsFilterEmpty, hs, svsAdjOK]
        | cons q rest2 =>
          cases q with
          | str s2 => simp [svsAdjOK] at h
          | num v =>
            simp only [svsFilterEmpty, hs, if_false]
            simp only [svsFilterEmpty] at hrest
            simpa [svsAdjOK] using hrest

theorem svsFilterEmpty_partsOK (l : List StringPart) :
    svsPartsOK (svsFilterEmpty l) = true := by
  induction l with
  | nil => rfl
  | cons p rest ih =>
    cases p with
    | num q => simpa [svsFilterEmpty, svsPartsOK] using ih
    | str s =>
      by_cases hs : s = ""
      · simpa [svsFilterEmpty, hs] using ih
      · simp [svsFilterEmpty, hs, svsPartsOK, ih]

theorem svsNormalise_normOK (l : List StringPart) :
    svsNormOK (svsNormalise l) = true := by
  have h1 := svsFilterEmpty_partsOK (svsMerge l)
  have h2 := svsFilterEmpty_adjOK (svsMerge l) (svsMerge_adjOK l)
  simp [svsNormOK, svsNormalise, h1, h2]

theorem svsMerge_of_normOK (l : List StringPart) (h : svsNormOK l = true) :
    svsMerge l = l := by
  induction l with
  | nil => rfl
  | cons p rest ih =>
    have hadj : svsAdjOK (p :: rest) = true := by
      simp only [svsNormOK, Bool.and_eq_true] at h
      exact h.2
    have hrest : svsNormOK rest = true := by
      simp only [svsNormOK, Bool.and_eq_true] at h ⊢
      refine ⟨?_, svsAdjOK_of_cons hadj⟩
      cases p with
      | num q => simpa [svsPartsOK] using h.1
      | str s =>
        have := h.1
        simp only [svsPartsOK, Bool.and_eq_true] at this
        exact this.2
    cases p with
    | num q => simp [svsMerge, ih hrest]
    | str s =>
      cases rest with
      | nil => simp [svsMerge]
      | cons q rest2 =>
        cases q with
        | str s2 => simp [svsAdjOK] at hadj
        | num v =>
          have h2 := ih hrest
          simp only [svsMerge] at h2 ⊢
          exact congrArg (List.cons (.str s)) h2

theorem svsFilterEmpty_of_partsOK (l : List StringPart)
    (h : svsPartsOK l = true) : svsFilterEmpty l = l := by
  induction l with
  | nil => rfl
  | cons p rest ih =>
    cases p with
    | num q =>
      simp only [svsPartsOK] at h
      simp [svsFilterEmpty, ih h]
    | str s =>
      simp only [svsPartsOK, Bool.and_eq_true] at h
      have hs : s ≠ "" := by simpa using h.1
      simp [svsFilterEmpty, hs, ih h.2]

theorem svsNormalise_of_normOK (l : List StringPart) (h : svsNormOK l = true) :
    svsNormalise l = l := by
  have h1 : svsPartsOK l = true := by
    simp only [svsNormOK, Bool.and_eq_true] at h; exact h.1
  rw [svsNormalise, svsMerge_of_normOK l h, svsFilterEmpty_of_partsOK l h1]

/-- A string which contains some numerical values which may be re-scaled
by a fixed factor.  The normalisation performed by the Python
`__init__` is carried as an invariant on the part list. -/
def ScaledValueString : Type :=
  { l : List StringPart // svsNormOK l = true }

instance : DecidableEq ScaledValueString := fun a b =>
  if h : a.val = b.val then .isTrue (Subtype.ext h)
  else .isFalse (fun e => h (congrArg Subtype.val e))

/-- Construct a `ScaledValueString` from raw parts, normalising exactly
as `ScaledValueString.__init__` does. -/
def svsMk (l : List StringPart) : ScaledValueString :=
  ⟨svsNormalise l, svsNormalise_normOK l⟩

/-- The part tuple of a `ScaledValueString` (`_string` in the source). -/
def ScaledValueString.parts (s : ScaledValueString) : List StringPart :=
  s.val

theorem svsMk_parts (l : List StringPart) :
    (svsMk l).parts = svsNormalise l := rfl

theorem svsMk_parts_of_normOK (l : List StringPart) (h : svsNormOK l = true) :
    (svsMk l).parts = l := svsNormalise_of_normOK l h

theorem ScaledValueString.parts_inj {a b : ScaledValueString}
    (h : a.parts = b.parts) : a = b := Subtype.ext h

/-- Pointwise action of `ScaledValueString.scale` on one part. -/
def partScale (multiplier : ℚ) : StringPart → StringPart
  | .str s => .str s
  | .num v => .num (v * multiplier)

/-- The `scale` method: multiply every numeric part, leave text parts
unchanged (the result is passed through `__init__` again). -/
def ScaledValueString.scale (s : ScaledValueString) (multiplier : ℚ) :
    ScaledValueString :=
  svsMk (s.parts.map (partScale multiplier))

/-- Pointwise action of `ScaledValueString.lower` on one part. -/
def partLower : StringPart → StringPart
  | .str s => .str (pyLower s)
  | .num v => .num v

/-- Pointwise action of `ScaledValueString.upper` on one part. -/
def partUpper : StringPart → StringPart
  | .str s => .str (pyUpper s)
  | .num v => .num v

/-- The `lower` method: `part.lower()` for every string part. -/
def ScaledValueString.lower (s : ScaledValueString) : ScaledValueString :=
  svsMk (s.parts.map partLower)

/-- The `upper` method: `part.upper()` for every string part. -/
def ScaledValueString.upper (s : ScaledValueString) : ScaledValueString :=
  svsMk (s.parts.map partUpper)

/-- Python `enumerate` followed by a per-index transformation, as used by
the comprehensions in `lstrip` and `rstrip`. -/
def mapWithIndex (f : ℕ → StringPart → StringPart) :
    ℕ → List StringPart → List StringPart
  | _, [] => []
  | i, p :: rest => f i p :: mapWithIndex f (i + 1) rest

/-- The `lstrip` method: `part.lstrip()` when the part is a string and
its index is 0, every other part kept as is. -/
def ScaledValueString.lstrip (s : ScaledValueString) : ScaledValueString :=
  svsMk (mapWithIndex
    (fun i p =>
      match p with
      | .str t => if i = 0 then .str (pyLstrip t) else .str t
      | .num v => .num v)
    0 s.parts)

/-- The `rstrip` method: `part.rstrip()` when the part is a string and
its index is the last index, every other part kept as is. -/
def ScaledValueString.rstrip (s : ScaledValueString) : ScaledValueString :=
  svsMk (mapWithIndex
    (fun i p =>
      match p with
      | .str t => if i = s.parts.length - 1 then .str (pyRstrip t) else .str t
      | .num v => .num v)
    0 s.parts)

/-- The `strip` method: `self.lstrip().rstrip()`. -/
def ScaledValueString.strip (s : ScaledValueString) : ScaledValueString :=
  s.lstrip.rstrip

/-! ### Normalisation facts about the `ScaledValueString` operations -/

theorem svsAdjOK_map (f : StringPart → StringPart)
    (hstr : ∀ s, ∃ t, f (.str s) = .str t)
    (hnum : ∀ v, ∃ w, f (.num v) = .num w) :
    ∀ l : List StringPart, svsAdjOK (l.map f) = svsAdjOK l := by
  intro l
  induction l with
  | nil => rfl
  | cons p rest ih =>
    cases rest with
    | nil =>
      cases p with
      | str s => obtain ⟨t, ht⟩ := hstr s; simp [ht, svsAdjOK]
      | num v => obtain ⟨w, hw⟩ := hnum v; simp [hw, svsAdjOK]
    | cons q rest2 =>
      cases p with
      | str s =>
        obtain ⟨t, ht⟩ := hstr s
        cases q with
        | str s2 =>
          obtain ⟨t2, ht2⟩ := hstr s2
          simp [ht, ht2, svsAdjOK]
        | num v2 =>
          obtain ⟨w2, hw2⟩ := hnum v2
          simp only [List.map_cons, ht, hw2, svsAdjOK]
          simpa [hw2] using ih
      | num v =>
        obtain ⟨w, hw⟩ := hnum v
        simp only [List.map_cons, hw, svsAdjOK]
        simpa using ih

theorem svsPartsOK_map (f : StringPart → StringPart)
    (hstr : ∀ s, ∃ t, f (.str s) = .str t ∧ (t = "" ↔ s = ""))
    (hnum : ∀ v, ∃ w, f (.num v) = .num w) :
    ∀ l : List StringPart, svsPartsOK (l.map f) = svsPartsOK l := by
  intro l
  induction l with
  | nil => rfl
  | cons p rest ih =>
    cases p with
    | str s =>
      obtain ⟨t, ht, hts⟩ := hstr s
      simp only [List.map_cons, ht, svsPartsOK, ih]
      by_cases hs : s = ""
      · simp [hs, hts.2 hs]
      · have hts2 : t ≠ "" := fun h => hs (hts.1 h)
        rw [beq_eq_false_iff_ne.mpr hts2, beq_eq_false_iff_ne.mpr hs]
    | num v =>
      obtain ⟨w, hw⟩ := hnum v
      simp only [List.map_cons, hw, svsPartsOK, ih]

theorem svsNormOK_map (f : StringPart → StringPart)
    (hstr : ∀ s, ∃ t, f (.str s) = .str t ∧ (t = "" ↔ s = ""))
    (hnum : ∀ v, ∃ w, f (.num v) = .num w)
    (l : List StringPart) (h : svsNormOK l = true) :
    svsNormOK (l.map f) = true := by
  have h1 := svsPartsOK_map f hstr hnum l
  have h2 := svsAdjOK_map f (fun s => (hstr s).imp fun t ht => ht.1) hnum l
  simp only [svsNormOK, Bool.and_eq_true] at h ⊢
  exact ⟨h1.trans h.1, h2.trans h.2⟩

theorem svsNormalise_map (f : StringPart → StringPart)
    (hstr : ∀ s, ∃ t, f (.str s) = .str t ∧ (t = "" ↔ s = ""))
    (hnum : ∀ v, ∃ w, f (.num v) = .num w)
    (l : List StringPart) (h : svsNormOK l = true) :
    svsNormalise (l.map f) = l.map f :=
  svsNormalise_of_normOK _ (svsNormOK_map f hstr hnum l h)

theorem pyLower_empty_iff (s : String) : pyLower s = "" ↔ s = "" := by
  constructor
  · intro h
    have : (s.toList.map Char.toLower) = [] := congrArg String.toList h
    have : s.toList = [] := by simpa using this
    exact String.ext this
  · intro h; rw [h]; rfl

theorem pyUpper_empty_iff (s : String) : pyUpper s = "" ↔ s = "" := by
  constructor
  · intro h
    have : (s.toList.map Char.toUpper) = [] := congrArg String.toList h
    have : s.toList = [] := by simpa using this
    exact String.ext this
  · intro h; rw [h]; rfl

theorem ScaledValueString.lower_parts (s : ScaledValueString) :
    s.lower.parts = s.parts.map partLower := by
  refine svsNormalise_map partLower ?_ ?_ s.parts s.property
  · intro t; exact ⟨pyLower t, rfl, pyLower_empty_iff t⟩
  · intro v; exact ⟨v, rfl⟩

theorem ScaledValueString.upper_parts (s : ScaledValueString) :
    s.upper.parts = s.parts.map partUpper := by
  refine svsNormalise_map partUpper ?_ ?_ s.parts s.property
  · intro t; exact ⟨pyUpper t, rfl, pyUpper_empty_iff t⟩
  · intro v; exact ⟨v, rfl⟩

theorem ScaledValueString.scale_parts (s : ScaledValueString) (m : ℚ) :
    (s.scale m).parts = s.parts.map (partScale m) := by
  refine svsNormalise_map (partScale m) ?_ ?_ s.parts s.property
  · intro t; exact ⟨t, rfl, Iff.rfl⟩
  · intro v; exact ⟨v * m, rfl⟩

theorem partScale_one (p : StringPart) : partScale 1 p = p := by
  cases p with
  | str s => rfl
  | num v => simp [partScale]

theorem partScale_partScale (a b : ℚ) (p : StringPart) :
    partScale b (partScale a p) = partScale (a * b) p := by
  cases p with
  | str s => rfl
  | num v => simp [partScale, mul_assoc]

theorem ScaledValueString.scale_one (s : ScaledValueString) : s.scale 1 = s := by
  apply ScaledValueString.parts_inj
  rw [s.scale_parts 1]
  have h1 : s.parts.map (partScale 1) = s.parts.map id :=
    List.map_congr_left fun p _ => partScale_one p
  rw [h1, List.map_id]

theorem ScaledValueString.scale_scale (s : ScaledValueString) (a b : ℚ) :
    (s.scale a).scale b = s.scale (a * b) := by
  apply ScaledValueString.parts_inj
  rw [(s.scale a).scale_parts b, s.scale_parts a, s.scale_parts (a * b),
    List.map_map]
  exact List.map_congr_left fun p _ => partScale_partScale a b p

/-! ### Descriptions of the trim operations -/

/-- Whether the head of a part list is a string part. -/
def headIsStr : List StringPart → Bool
  | .str _ :: _ => true
  | _ => false

theorem svsNormOK_of_cons {p : StringPart} {l : List StringPart}
    (h : svsNormOK (p :: l) = true) : svsNormOK l = true := by
  simp only [svsNormOK, Bool.and_eq_true] at h ⊢
  refine ⟨?_, svsAdjOK_of_cons h.2⟩
  cases p with
  | num q => simpa [svsPartsOK] using h.1
  | str s =>
    have := h.1
    simp only [svsPartsOK, Bool.and_eq_true] at this
    exact this.2

theorem svsMerge_headIsStr (l : List StringPart) :
    headIsStr (svsMerge l) = headIsStr l := by
  cases l with
  | nil => rfl
  | cons p rest =>
    cases p with
    | num q => rfl
    | str s =>
      simp only [svsMerge]
      cases svsMerge rest with
      | nil => rfl
      | cons q tail => cases q <;> rfl

theorem svsMerge_cons_str_of_head_not_str (s : String) (l : List StringPart)
    (h : headIsStr l = false) :
    svsMerge (.str s :: l) = .str s :: svsMerge l := by
  have h2 : headIsStr (svsMerge l) = false := (svsMerge_headIsStr l).trans h
  simp only [svsMerge]
  cases hm : svsMerge l with
  | nil => rfl
  | cons q tail =>
    cases q with
    | str s2 => rw [hm] at h2; simp [headIsStr] at h2
    | num v => rfl

theorem svsNormalise_cons_num (v : ℚ) (l : List StringPart) :
    svsNormalise (.num v :: l) = .num v :: svsNormalise l := by
  simp [svsNormalise, svsMerge, svsFilterEmpty]

theorem svsNormalise_cons_str_of_head_not_str (s : String) (l : List StringPart)
    (h : headIsStr l = false) :
    svsNormalise (.str s :: l) =
      if s = "" then svsNormalise l else .str s :: svsNormalise l := by
  rw [svsNormalise, svsMerge_cons_str_of_head_not_str s l h]
  by_cases hs : s = "" <;> simp [svsFilterEmpty, hs, svsNormalise]

/-- Result of the `lstrip` comprehension as the specification describes
it: the leading part is left-stripped when it is text (and dropped
entirely when nothing remains of it); every other part is unchanged. -/
def lstripSpec : List StringPart → List StringPart
  | .str s0 :: rest =>
    if pyLstrip s0 = "" then rest else .str (pyLstrip s0) :: rest
  | other => other

/-- Result of the `rstrip` comprehension as the specification describes
it: the final part is right-stripped when it is text (and dropped
entirely when nothing remains of it); every other part is unchanged. -/
def rstripSpec : List StringPart → List StringPart
  | [] => []
  | [.str t] => if pyRstrip t = "" then [] else [.str (pyRstrip t)]
  | [p] => [p]
  | p :: rest => p :: rstripSpec rest

/-- Plain transformation of the last part of a list (the comprehension
in `rstrip` before re-normalisation). -/
def rstripMapLast (g : String → String) : List StringPart → List StringPart
  | [] => []
  | [.str t] => [.str (g t)]
  | [p] => [p]
  | p :: rest => p :: rstripMapLast g rest

theorem mapWithIndex_id_of_ne_zero
    (g : String → String) :
    ∀ (l : List StringPart) (i : ℕ), i ≠ 0 →
      mapWithIndex
        (fun j p =>
          match p with
          | .str t => if j = 0 then .str (g t) else .str t
          | .num v => .num v)
        i l = l := by
  intro l
  induction l with
  | nil => intro i _; rfl
  | cons p rest ih =>
    intro i hi
    simp only [mapWithIndex]
    rw [ih (i + 1) (Nat.succ_ne_zero i)]
    cases p with
    | str t => simp [hi]
    | num v => rfl

theorem mapWithIndex_last (g : String → String) :
    ∀ (l : List StringPart) (i n : ℕ), i + l.length = n + 1 →
      mapWithIndex
        (fun j p =>
          match p with
          | .str t => if j = n then .str (g t) else .str t
          | .num v => .num v)
        i l = rstripMapLast g l := by
  intro l
  induction l with
  | nil => intro i n _; rfl
  | cons p rest ih =>
    intro i n hlen
    cases rest with
    | nil =>
      have hin : i = n := by simpa using hlen
      cases p with
      | str t => simp [mapWithIndex, rstripMapLast, hin]
      | num v => simp [mapWithIndex, rstripMapLast]
    | cons q rest2 =>
      have hlt : i < n := by
        simp only [List.length_cons] at hlen
        omega
      have hne : ¬(i = n) := Nat.ne_of_lt hlt
      have hrec := ih (i + 1) n (by simp only [List.length_cons] at hlen ⊢; omega)
      cases p with
      | str t =>
        have hgoal : rstripMapLast g (.str t :: q :: rest2) =
            .str t :: rstripMapLast g (q :: rest2) := rfl
        rw [hgoal, ← hrec]
        simp only [mapWithIndex, hne, if_false]
      | num v =>
        have hgoal : rstripMapLast g (.num v :: q :: rest2) =
            .num v :: rstripMapLast g (q :: rest2) := rfl
        rw [hgoal, ← hrec]
        simp only [mapWithIndex]

theorem svsNormalise_rstripMapLast (l : List StringPart)
    (h : svsNormOK l = true) :
    svsNormalise (rstripMapLast pyRstrip l) = rstripSpec l := by
  induction l with
  | nil => rfl
  | cons p rest ih =>
    have hrest := svsNormOK_of_cons h
    cases rest with
    | nil =>
      cases p with
      | str t =>
        by_cases ht : pyRstrip t = "" <;>
          simp [rstripMapLast, rstripSpec, svsNormalise, svsMerge,
            svsFilterEmpty, ht]
      | num v => rfl
    | cons q rest2 =>
      have ihq := ih hrest
      cases p with
      | num v =>
        have : rstripMapLast pyRstrip (.num v :: q :: rest2) =
            .num v :: rstripMapLast pyRstrip (q :: rest2) := rfl
        rw [this, svsNormalise_cons_num, ihq]
        rfl
      | str s =>
        -- the part after a string part is numeric, by the adjacency invariant
        have hq : headIsStr (q :: rest2) = false := by
          cases q with
          | str s2 =>
            exfalso
            simp only [svsNormOK, Bool.and_eq_true] at h
            simp [svsAdjOK] at h
          | num v2 => rfl
        have hs : s ≠ "" := by
          simp only [svsNormOK, Bool.and_eq_true, svsPartsOK] at h
          simpa using h.1.1
        have hq2 : headIsStr (rstripMapLast pyRstrip (q :: rest2)) = false := by
          cases q with
          | str s2 => simp [headIsStr] at hq
          | num v2 => cases rest2 <;> rfl
        have : rstripMapLast pyRstrip (.str s :: q :: rest2) =
            .str s :: rstripMapLast pyRstrip (q :: rest2) := rfl
        rw [this, svsNormalise_cons_str_of_head_not_str s _ hq2, if_neg hs, ihq]
        rfl

theorem ScaledValueString.lstrip_parts (s : ScaledValueString) :
    s.lstrip.parts = lstripSpec s.parts := by
  show (svsMk _).parts = _
  rw [svsMk_parts]
  cases hp : s.parts with
  | nil => rfl
  | cons p rest =>
    have hOK : svsNormOK (p :: rest) = true := hp ▸ s.property
    have hrest : svsNormOK rest = true := svsNormOK_of_cons hOK
    cases p with
    | num v =>
      simp only [mapWithIndex]
      rw [mapWithIndex_id_of_ne_zero pyLstrip rest 1 (Nat.succ_ne_zero 0)]
      show svsNormalise (.num v :: rest) = lstripSpec (.num v :: rest)
      rw [svsNormalise_cons_num, svsNormalise_of_normOK rest hrest]
      rfl
    | str s0 =>
      simp only [mapWithIndex, if_true]
      rw [mapWithIndex_id_of_ne_zero pyLstrip rest 1 (Nat.succ_ne_zero 0)]
      have hhd : headIsStr rest = false := by
        cases rest with
        | nil => rfl
        | cons q rest2 =>
          cases q with
          | str s2 =>
            exfalso
            simp only [svsNormOK, Bool.and_eq_true] at hOK
            simp [svsAdjOK] at hOK
          | num v2 => rfl
      rw [svsNormalise_cons_str_of_head_not_str _ _ hhd,
        svsNormalise_of_normOK rest hrest]
      rfl

theorem ScaledValueString.rstrip_parts (s : ScaledValueString) :
    s.rstrip.parts = rstripSpec s.parts := by
  show (svsMk _).parts = _
  rw [svsMk_parts]
  cases hp : s.parts with
  | nil => rfl
  | cons p rest =>
    have hOK : svsNormOK (p :: rest) = true := hp ▸ s.property
    have hlen : 0 + (p :: rest).length = ((p :: rest).length - 1) + 1 := by
      simp only [List.length_cons]
      omega
    rw [mapWithIndex_last pyRstrip (p :: rest) 0 ((p :: rest).length - 1) hlen]
    exact svsNormalise_rstripMapLast (p :: rest) hOK

/-! ### Claim C8 -/

/-- Concrete `ScaledValueString` with text parts on both sides of a
numeric part. -/
def svsCexC8 : ScaledValueString :=
  ⟨[.str "A", .num 1, .str "B"], by decide⟩

/-- C8 counterexample: the claim states that the case operations modify
only the first part of the part sequence, but `lower` rewrites the
trailing text part `"B"` to `"b"` as well. -/
theorem claim_C8_counterexample :
    svsCexC8.lower.parts.get? 2 = some (.str "b")
    ∧ svsCexC8.parts.get? 2 = some (.str "B")
    ∧ StringPart.str "b" ≠ StringPart.str "B" := by
  refine ⟨?_, by decide, by decide⟩
  rw [ScaledValueString.lower_parts]
  decide

/-- C8 (amended): `lower` and `upper` apply to every text part of the
part sequence (not only the first), `scale` multiplies every numeric
part, and the trim operations act only on the first (`lstrip`) or last
(`rstrip`) part, and only when that part is text, dropping it if it
strips to nothing; `strip` is `lstrip` followed by `rstrip`; numeric
parts are never affected by the case or trim operations. -/
theorem claim_C8_amended (s : ScaledValueString) (m : ℚ) :
    s.lower.parts = s.parts.map partLower
    ∧ s.upper.parts = s.parts.map partUpper
    ∧ (s.scale m).parts = s.parts.map (partScale m)
    ∧ s.lstrip.parts = lstripSpec s.parts
    ∧ s.rstrip.parts = rstripSpec s.parts
    ∧ s.strip.parts = rstripSpec (lstripSpec s.parts) :=
  ⟨s.lower_parts, s.upper_parts, s.scale_parts m, s.lstrip_parts,
    s.rstrip_parts, by
      show s.lstrip.rstrip.parts = _
      rw [s.lstrip.rstrip_parts, s.lstrip_parts]⟩

/-! ### `recipe_grid.units`

The unit system is a forest of unit definitions.  `convert_between`
walks the tree of related units breadth-first accumulating the
multiplicative factor along each edge; since the related units form a
tree, the factor found for a target unit is the product along the unique
path, i.e. the ratio of the two factors-to-the-base-unit.  The table
below lists every alias together with its kind and its factor to the
base unit of its kind; a `KeyError` (unknown name or unrelated kinds)
becomes `none`. -/

def unitTable : List (String × String × ℚ) :=
  [ ("g", "mass", 1), ("gram", "mass", 1), ("grams", "mass", 1),
    ("kg", "mass", 1000), ("kilo", "mass", 1000), ("kilos", "mass", 1000),
    ("kilogram", "mass", 1000), ("kilograms", "mass", 1000),
    ("lb", "mass", 45359237 / 100000), ("lbs", "mass", 45359237 / 100000),
    ("pound", "mass", 45359237 / 100000), ("pounds", "mass", 45359237 / 100000),
    ("oz", "mass", (45359237 / 100000) / 16),
    ("ozs", "mass", (45359237 / 100000) / 16),
    ("ounce", "mass", (45359237 / 100000) / 16),
    ("ounces", "mass", (45359237 / 100000) / 16),
    ("l", "volume", 1), ("litre", "volume", 1),
    ("ml", "volume", 1 / 1000), ("mill", "volume", 1 / 1000),
    ("mills", "volume", 1 / 1000), ("milliliter", "volume", 1 / 1000),
    ("milliliters", "volume", 1 / 1000),
    ("tsp", "volume", 5 / 1000), ("tsps", "volume", 5 / 1000),
    ("teaspoons", "volume", 5 / 1000), ("teaspoon", "volume", 5 / 1000),
    ("tea spoon", "volume", 5 / 1000), ("tea spoons", "volume", 5 / 1000),
    ("tbsp", "volume", 15 / 1000), ("tbsps", "volume", 15 / 1000),
    ("tablespoon", "volume", 15 / 1000), ("tablespoons", "volume", 15 / 1000),
    ("table spoon", "volume", 15 / 1000), ("table spoons", "volume", 15 / 1000),
    ("cup", "volume", (23658824 / 100000) * (1 / 1000)),
    ("cups", "volume", (23658824 / 100000) * (1 / 1000)),
    ("pint", "volume", (568261 / 1000) * (1 / 1000)),
    ("pints", "volume", (568261 / 1000) * (1 / 1000)),
    ("clove", "clove", 1), ("cloves", "clove", 1),
    ("bulb", "bulb", 1), ("bulbs", "bulb", 1),
    ("can", "can", 1), ("cans", "can", 1), ("tin", "can", 1), ("tins", "can", 1),
    ("pinch", "pinch", 1), ("pinches", "pinch", 1),
    ("knob", "knob", 1), ("knobs", "knob", 1),
    ("packet", "packet", 1), ("packets", "packet", 1),
    ("pack", "packet", 1), ("packs", "packet", 1),
    ("box", "box", 1), ("boxes", "box", 1), ("boxen", "box", 1),
    ("bag", "bag", 1), ("bags", "bag", 1),
    ("sack", "sack", 1), ("sacks", "sack", 1),
    ("sachet", "sachet", 1), ("sachets", "sachet", 1),
    ("rasher", "rasher", 1), ("rashers", "rasher", 1),
    ("strip", "strip", 1), ("strips", "strip", 1) ]

/-- Look a unit name up in the unit system, returning its kind and its
factor to the base unit of that kind. -/
def unitLookup (name : String) : Option (String × ℚ) :=
  unitTable.lookup name

/-- `UNIT_SYSTEM.convert_between(from_unit, to_unit)`: the multiplicative
factor converting a value in `fromUnit` into `toUnit`; `none` models the
`KeyError` raised for unknown names or units of unrelated kinds. -/
def convert_between (fromUnit toUnit : String) : Option ℚ :=
  match unitLookup fromUnit, unitLookup toUnit with
  | some (k1, f1), some (k2, f2) => if k1 = k2 then some (f1 / f2) else none
  | _, _ => none

/-! ### `recipe_grid.recipe` data structures -/

/-- The invariant-violation exceptions raised by the recipe data
structure constructors. -/
inductive RecipeError
  | multiOutputSubRecipeUsedAsNonRootNode
  | outputIndexError
  | zeroOutputSubRecipe
  | referenceToInvalidSubRecipe
deriving DecidableEq

/-- An absolute quantity. -/
structure Quantity where
  value : ℚ
  unit : Option String := none
  value_unit_spacing : String := ""
  preposition : String := ""
deriving DecidableEq

/-- `Quantity.has_equal_value_to`: compare two quantities up to float
tolerance, converting between units where a conversion is known; a
failed conversion lookup falls back to comparing the lower-cased unit
names directly. -/
def Quantity.has_equal_value_to (self other : Quantity) : Bool :=
  match self.unit, other.unit with
  | none, none => pyIsClose self.value (other.value * 1)
  | none, some _ => false
  | some _, none => false
  | some su, some ou =>
    match convert_between (pyLower ou) (pyLower su) with
    | some other_to_self_scale => pyIsClose self.value (other.value * other_to_self_scale)
    | none =>
      if pyLower su = pyLower ou then pyIsClose self.value (other.value * 1)
      else false

/-- `Quantity.scale`: multiply the value, keeping all other fields. -/
def Quantity.scale (q : Quantity) (factor : ℚ) : Quantity :=
  { q with value := q.value * factor }

/-- A relative proportion. -/
structure Proportion where
  value : Option ℚ := none
  percentage : Option Bool := none
  remainder_wording : Option String := none
  preposition : String := ""
deriving DecidableEq

/-- The `__post_init__` defaulting of `Proportion`: `percentage` becomes
`False` when a value is given, and `remainder_wording` becomes
`"remaining"` when no value is given. -/
def Proportion.make (value : Option ℚ) (percentage : Option Bool)
    (remainder_wording : Option String) (preposition : String) : Proportion :=
  { value := value
    percentage := if value.isSome ∧ percentage.isNone then some false else percentage
    remainder_wording :=
      if value.isNone ∧ remainder_wording.isNone then some "remaining"
      else remainder_wording
    preposition := preposition }

/-- `Proportion.scale` rescales nothing. -/
def Proportion.scale (p : Proportion) (_factor : ℚ) : Proportion :=
  p

/-- The amount field of a `Reference`: a `Quantity` or a `Proportion`. -/
inductive Amount
  | quantity (q : Quantity)
  | proportion (p : Proportion)
deriving DecidableEq

/-- The default `Reference` amount, `Proportion(1.0)` ("all of it"). -/
def defaultRefAmount : Amount :=
  .proportion (Proportion.make (some 1) none none "")

/-- `Amount.scale` dispatches to `Quantity.scale` or `Proportion.scale`. -/
def Amount.scale (a : Amount) (factor : ℚ) : Amount :=
  match a with
  | .quantity q => .quantity (q.scale factor)
  | .proportion p => .proportion (p.scale factor)

/-- Recipe tree nodes.  `reference` holds its target `SubRecipe` node
inline (the `sub_recipe` field), `subRecipe` holds the sub tree, the
output names and the `show_output_names` flag. -/
inductive RecipeTreeNode
  | ingredient (description : ScaledValueString) (quantity : Option Quantity)
  | step (description : ScaledValueString) (inputs : List RecipeTreeNode)
  | reference (sub_recipe : RecipeTreeNode) (output_index : ℤ) (amount : Amount)
  | subRecipe (sub_tree : RecipeTreeNode) (output_names : List ScaledValueString)
      (show_output_names : Bool)

mutual

def RecipeTreeNode.beq : RecipeTreeNode → RecipeTreeNode → Bool
  | .ingredient d q, .ingredient d2 q2 => d == d2 && q == q2
  | .step d i, .step d2 i2 => d == d2 && RecipeTreeNode.beqList i i2
  | .reference s oi a, .reference s2 oi2 a2 =>
    RecipeTreeNode.beq s s2 && oi == oi2 && a == a2
  | .subRecipe t ns sh, .subRecipe t2 ns2 sh2 =>
    RecipeTreeNode.beq t t2 && ns == ns2 && sh == sh2
  | _, _ => false

def RecipeTreeNode.beqList : List RecipeTreeNode → List RecipeTreeNode → Bool
  | [], [] => true
  | x :: xs, y :: ys => RecipeTreeNode.beq x y && RecipeTreeNode.beqList xs ys
  | _, _ => false

end

mutual

theorem RecipeTreeNode.beq_iff :
    ∀ a b : RecipeTreeNode, RecipeTreeNode.beq a b = true ↔ a = b
  | .ingredient d q, .ingredient d2 q2 => by
    simp [RecipeTreeNode.beq]
  | .ingredient _ _, .step _ _ => by simp [RecipeTreeNode.beq]
  | .ingredient _ _, .reference _ _ _ => by simp [RecipeTreeNode.beq]
  | .ingredient _ _, .subRecipe _ _ _ => by simp [RecipeTreeNode.beq]
  | .step _ _, .ingredient _ _ => by simp [RecipeTreeNode.beq]
  | .step d i, .step d2 i2 => by
    simp [RecipeTreeNode.beq, RecipeTreeNode.beqList_iff i i2]
  | .step _ _, .reference _ _ _ => by simp [RecipeTreeNode.beq]
  | .step _ _, .subRecipe _ _ _ => by simp [RecipeTreeNode.beq]
  | .reference _ _ _, .ingredient _ _ => by simp [RecipeTreeNode.beq]
  | .reference _ _ _, .step _ _ => by simp [RecipeTreeNode.beq]
  | .reference s oi a, .reference s2 oi2 a2 => by
    simp [RecipeTreeNode.beq, RecipeTreeNode.beq_iff s s2, and_assoc]
  | .reference _ _ _, .subRecipe _ _ _ => by simp [RecipeTreeNode.beq]
  | .subRecipe _ _ _, .ingredient _ _ => by simp [RecipeTreeNode.beq]
  | .subRecipe _ _ _, .step _ _ => by simp [RecipeTreeNode.beq]
  | .subRecipe _ _ _, .reference _ _ _ => by simp [RecipeTreeNode.beq]
  | .subRecipe t ns sh, .subRecipe t2 ns2 sh2 => by
    simp [RecipeTreeNode.beq, RecipeTreeNode.beq_iff t t2, and_assoc]

theorem RecipeTreeNode.beqList_iff :
    ∀ a b : List RecipeTreeNode, RecipeTreeNode.beqList a b = true ↔ a = b
  | [], [] => by simp [RecipeTreeNode.beqList]
  | [], _ :: _ => by simp [RecipeTreeNode.beqList]
  | _ :: _, [] => by simp [RecipeTreeNode.beqList]
  | x :: xs, y :: ys => by
    simp [RecipeTreeNode.beqList, RecipeTreeNode.beq_iff x y,
      RecipeTreeNode.beqList_iff xs ys]

end

instance : DecidableEq RecipeTreeNode := fun a b =>
  decidable_of_iff _ (RecipeTreeNode.beq_iff a b)

/-- The `output_names` attribute access used on `Reference.sub_recipe`.
In Python a non-`SubRecipe` argument would fail with `AttributeError`;
such nodes never occur as reference targets in compiled recipes, and the
empty list is used for them here. -/
def outputNamesOf : RecipeTreeNode → List ScaledValueString
  | .subRecipe _ ns _ => ns
  | _ => []

/-- The `sub_tree` attribute of a `SubRecipe` node (identity on other
nodes, which never occurs in checked code paths). -/
def subTreeOf : RecipeTreeNode → RecipeTreeNode
  | .subRecipe t _ _ => t
  | n => n

/-- `RecipeTreeNode.iter_children`: `Step` yields its inputs, `Reference`
yields its target `SubRecipe` node, and `Ingredient` and `SubRecipe` use
the base-class implementation yielding nothing. -/
def iterChildren : RecipeTreeNode → List RecipeTreeNode
  | .ingredient _ _ => []
  | .step _ inputs => inputs
  | .reference sub _ _ => [sub]
  | .subRecipe _ _ _ => []

/-- Whether a node is a `SubRecipe` (`isinstance(node, SubRecipe)`). -/
def isSubRecipeRoot : RecipeTreeNode → Bool
  | .subRecipe _ _ _ => true
  | _ => false

/-- `Reference.__post_init__`: building a `Reference` raises
`OutputIndexError` when `output_index >= len(sub_recipe.output_names)`. -/
def mkReference (sub_recipe : RecipeTreeNode) (output_index : ℤ)
    (amount : Amount) : Except RecipeError RecipeTreeNode :=
  if output_index ≥ (outputNamesOf sub_recipe).length then
    .error .outputIndexError
  else
    .ok (.reference sub_recipe output_index amount)

mutual

def RecipeTreeNode.scale (factor : ℚ) : RecipeTreeNode → RecipeTreeNode
  | .ingredient d q =>
    .ingredient (d.scale factor) (q.map fun qq => qq.scale factor)
  | .step d inputs => .step (d.scale factor) (RecipeTreeNode.scaleList factor inputs)
  | .reference sub oi a =>
    .reference (RecipeTreeNode.scale factor sub) oi (a.scale factor)
  | .subRecipe t ns sh =>
    .subRecipe (RecipeTreeNode.scale factor t)
      (ns.map fun n => n.scale factor) sh

def RecipeTreeNode.scaleList (factor : ℚ) :
    List RecipeTreeNode → List RecipeTreeNode
  | [] => []
  | x :: xs => RecipeTreeNode.scale factor x :: RecipeTreeNode.scaleList factor xs

end

mutual

def RecipeTreeNode.substitute (old new : RecipeTreeNode) :
    RecipeTreeNode → RecipeTreeNode
  | .ingredient d q =>
    if RecipeTreeNode.ingredient d q = old then new else .ingredient d q
  | .step d inputs =>
    if RecipeTreeNode.step d inputs = old then new
    else .step d (RecipeTreeNode.substituteList old new inputs)
  | .reference sub oi a =>
    if RecipeTreeNode.reference sub oi a = old then new
    else .reference (RecipeTreeNode.substitute old new sub) oi a
  | .subRecipe t ns sh =>
    if RecipeTreeNode.subRecipe t ns sh = old then new
    else .subRecipe (RecipeTreeNode.substitute old new t) ns sh

def RecipeTreeNode.substituteList (old new : RecipeTreeNode) :
    List RecipeTreeNode → List RecipeTreeNode
  | [] => []
  | x :: xs =>
    RecipeTreeNode.substitute old new x ::
      RecipeTreeNode.substituteList old new xs

end

/-- A recipe: a series of recipe trees plus an optional preceding
recipe block (`follows`). -/
inductive Recipe
  | mk (recipe_trees : List RecipeTreeNode) (follows : Option Recipe)

def Recipe.recipe_trees : Recipe → List RecipeTreeNode
  | .mk trees _ => trees

def Recipe.follows : Recipe → Option Recipe
  | .mk _ f => f

/-- The `SubRecipe` roots collected from the transitive `follows` chain
in `Recipe.__post_init__`. -/
def chainRoots : Option Recipe → List RecipeTreeNode
  | none => []
  | some (.mk trees follows) => trees.filter isSubRecipeRoot ++ chainRoots follows

mutual

/-- The reference check of `Recipe.__post_init__` for one recipe tree:
the worklist traversal visits every node reachable through
`iter_children` and demands that each `Reference` point at a sub recipe
in the accumulated root set.  The Boolean outcome of the worklist loop
is equivalent to this structural recursion. -/
def refsOK (roots : List RecipeTreeNode) : RecipeTreeNode → Bool
  | .ingredient _ _ => true
  | .step _ inputs => refsOKList roots inputs
  | .reference sub _ _ => decide (sub ∈ roots) && refsOK roots sub
  | .subRecipe _ _ _ => true

def refsOKList (roots : List RecipeTreeNode) : List RecipeTreeNode → Bool
  | [] => true
  | x :: xs => refsOK roots x && refsOKList roots xs

end

/-- The per-tree loop of `Recipe.__post_init__`: each tree is checked
against the roots accumulated so far, and `SubRecipe` roots are added
after their tree is checked. -/
def checkTrees (roots : List RecipeTreeNode) : List RecipeTreeNode → Bool
  | [] => true
  | t :: rest =>
    refsOK roots t &&
      checkTrees (if isSubRecipeRoot t then roots ++ [t] else roots) rest

/-- Constructing a `Recipe` runs `__post_init__`; a failed reference
check raises `ReferenceToInvalidSubRecipeError`. -/
def mkRecipe (recipe_trees : List RecipeTreeNode) (follows : Option Recipe) :
    Except RecipeError Recipe :=
  if checkTrees (chainRoots follows) recipe_trees then
    .ok (.mk recipe_trees follows)
  else
    .error .referenceToInvalidSubRecipe

mutual

/-- `Recipe.scale`: scale every recipe tree and the whole `follows`
chain. -/
def Recipe.scale (factor : ℚ) : Recipe → Recipe
  | .mk trees follows =>
    .mk (RecipeTreeNode.scaleList factor trees) (Recipe.scaleFollows factor follows)

def Recipe.scaleFollows (factor : ℚ) : Option Recipe → Option Recipe
  | none => none
  | some r => some (Recipe.scale factor r)

end

/-! ### Claim C2 -/

mutual

/-- All nodes reachable from a node through `iter_children` (including
the node itself).  Note that `SubRecipe` nodes contribute no children,
so the contents of a `Reference` target are not descended into. -/
def reachableNodes : RecipeTreeNode → List RecipeTreeNode
  | .ingredient d q => [.ingredient d q]
  | .step d inputs => .step d inputs :: reachableNodesList inputs
  | .reference sub oi a => .reference sub oi a :: reachableNodes sub
  | .subRecipe t ns sh => [.subRecipe t ns sh]

def reachableNodesList : List RecipeTreeNode → List RecipeTreeNode
  | [] => []
  | x :: xs => reachableNodes x ++ reachableNodesList xs

end

/-- The sub recipes a `Reference` in tree number `i` may legally point
at: root-level `SubRecipe` trees of the transitive `follows` chain plus
root-level `SubRecipe` trees preceding tree `i` in this recipe. -/
def precedingRoots (trees : List RecipeTreeNode) (follows : Option Recipe)
    (i : ℕ) : List RecipeTreeNode :=
  chainRoots follows ++ (trees.take i).filter isSubRecipeRoot

/-- The claimed invariant: every `Reference` reachable in the trees
points to a `SubRecipe` that is a root-level tree appearing earlier
(in this recipe or in the transitive `follows` chain). -/
def ValidReferences (trees : List RecipeTreeNode) (follows : Option Recipe) :
    Prop :=
  ∀ i (h : i < trees.length) sub oi a,
    RecipeTreeNode.reference sub oi a ∈ reachableNodes (trees.get ⟨i, h⟩) →
      sub ∈ precedingRoots trees follows i

mutual

theorem refsOK_iff (roots : List RecipeTreeNode) :
    ∀ n : RecipeTreeNode,
      refsOK roots n = true ↔
        (∀ sub oi a, RecipeTreeNode.reference sub oi a ∈ reachableNodes n →
          sub ∈ roots)
  | .ingredient d q => by
    simp [refsOK, reachableNodes]
  | .step d inputs => by
    rw [refsOK]
    rw [refsOKList_iff roots inputs]
    constructor
    · intro h sub oi a hmem
      rw [reachableNodes] at hmem
      rcases List.mem_cons.mp hmem with h1 | h2
      · cases h1
      · exact h sub oi a h2
    · intro h sub oi a hmem
      exact h sub oi a (by rw [reachableNodes]; exact List.mem_cons_of_mem _ hmem)
  | .reference sub2 oi2 a2 => by
    rw [refsOK, Bool.and_eq_true, decide_eq_true_eq]
    rw [refsOK_iff roots sub2]
    constructor
    · intro h sub oi a hmem
      rw [reachableNodes] at hmem
      rcases List.mem_cons.mp hmem with h1 | h2
      · cases h1; exact h.1
      · exact h.2 sub oi a h2
    · intro h
      refine ⟨h sub2 oi2 a2 (by rw [reachableNodes]; exact List.mem_cons_self _ _), ?_⟩
      intro sub oi a hmem
      exact h sub oi a (by rw [reachableNodes]; exact List.mem_cons_of_mem _ hmem)
  | .subRecipe t ns sh => by
    simp [refsOK, reachableNodes]

theorem refsOKList_iff (roots : List RecipeTreeNode) :
    ∀ l : List RecipeTreeNode,
      refsOKList roots l = true ↔
        (∀ sub oi a, RecipeTreeNode.reference sub oi a ∈ reachableNodesList l →
          sub ∈ roots)
  | [] => by simp [refsOKList, reachableNodesList]
  | x :: xs => by
    rw [refsOKList, Bool.and_eq_true, refsOK_iff roots x, refsOKList_iff roots xs]
    constructor
    · intro h sub oi a hmem
      rw [reachableNodesList] at hmem
      rcases List.mem_append.mp hmem with h1 | h2
      · exact h.1 sub oi a h1
      · exact h.2 sub oi a h2
    · intro h
      constructor
      · intro sub oi a hmem
        exact h sub oi a
          (by rw [reachableNodesList]; exact List.mem_append_left _ hmem)
      · intro sub oi a hmem
        exact h sub oi a
          (by rw [reachableNodesList]; exact List.mem_append_right _ hmem)

end

theorem checkTrees_iff (trees : List RecipeTreeNode) :
    ∀ roots : List RecipeTreeNode,
      checkTrees roots trees = true ↔
        (∀ i (h : i < trees.length) sub oi a,
          RecipeTreeNode.reference sub oi a ∈ reachableNodes (trees.get ⟨i, h⟩) →
            sub ∈ roots ++ (trees.take i).filter isSubRecipeRoot) := by
  induction trees with
  | nil => intro roots; simp [checkTrees]
  | cons t rest ih =>
    intro roots
    rw [checkTrees, Bool.and_eq_true, refsOK_iff,
      ih (if isSubRecipeRoot t then roots ++ [t] else roots)]
    constructor
    · intro h i
      match i with
      | 0 =>
        intro _ sub oi a hmem
        simpa using h.1 sub oi a hmem
      | j + 1 =>
        intro hj sub oi a hmem
        have hj2 : j < rest.length := by simpa using hj
        have := h.2 j hj2 sub oi a hmem
        rcases List.mem_append.mp this with h1 | h2
        · by_cases hsub : isSubRecipeRoot t = true
          · rw [if_pos hsub] at h1
            rcases List.mem_append.mp h1 with h3 | h4
            · exact List.mem_append_left _ h3
            · refine List.mem_append_right _ ?_
              simp only [List.take_succ_cons, List.filter_cons, hsub]
              have hst : sub = t := by simpa using h4
              rw [hst]
              exact List.mem_cons_self _ _
          · rw [if_neg hsub] at h1
            exact List.mem_append_left _ h1
        · refine List.mem_append_right _ ?_
          simp only [List.take_succ_cons, List.filter_cons]
          by_cases hsub : isSubRecipeRoot t = true
          · simp only [hsub]
            exact List.mem_cons_of_mem _ h2
          · simp only [Bool.not_eq_true] at hsub
            simp only [hsub]
            exact h2
    · intro h
      constructor
      · intro sub oi a hmem
        simpa using h 0 (by simp) sub oi a hmem
      · intro j hj sub oi a hmem
        have := h (j + 1) (by simpa using hj) sub oi a hmem
        rcases List.mem_append.mp this with h1 | h2
        · refine List.mem_append_left _ ?_
          by_cases hsub : isSubRecipeRoot t = true
          · rw [if_pos hsub]; exact List.mem_append_left _ h1
          · rw [if_neg hsub]; exact h1
        · simp only [List.take_succ_cons, List.filter_cons] at h2
          by_cases hsub : isSubRecipeRoot t = true
          · simp only [hsub] at h2
            rcases List.mem_cons.mp h2 with h3 | h4
            · refine List.mem_append_left _ ?_
              rw [if_pos hsub]
              exact List.mem_append_right _ (by simp [h3])
            · exact List.mem_append_right _ h4
          · simp only [Bool.not_eq_true] at hsub
            simp only [hsub] at h2
            exact List.mem_append_right _ h2

/-- C2: the `Recipe` constructor succeeds exactly when every `Reference`
reachable through `iter_children` in the recipe trees points to a
`SubRecipe` that is a root-level tree appearing earlier — a preceding
tree of this `Recipe` or a root tree of some `Recipe` in the transitive
`follows` chain — and otherwise raises
`ReferenceToInvalidSubRecipeError` producing no `Recipe`. -/
theorem claim_C2 (trees : List RecipeTreeNode) (follows : Option Recipe) :
    (mkRecipe trees follows = .ok (.mk trees follows) ↔
      ValidReferences trees follows)
    ∧ (mkRecipe trees follows = .error .referenceToInvalidSubRecipe ↔
      ¬ ValidReferences trees follows) := by
  have hiff : checkTrees (chainRoots follows) trees = true ↔
      ValidReferences trees follows := by
    rw [checkTrees_iff trees (chainRoots follows)]
    unfold ValidReferences precedingRoots
    rfl
  constructor
  · rw [mkRecipe]
    by_cases hc : checkTrees (chainRoots follows) trees = true
    · simp only [hc, if_true]
      simp [hiff.mp hc]
    · simp only [hc, if_false]
      constructor
      · intro h; cases h
      · intro h; exact absurd (hiff.mpr h) hc
  · rw [mkRecipe]
    by_cases hc : checkTrees (chainRoots follows) trees = true
    · simp only [hc, if_true]
      constructor
      · intro h; cases h
      · intro h; exact absurd (hiff.mp hc) h
    · simp only [hc, if_false]
      constructor
      · intro _; intro h; exact hc (hiff.mpr h)
      · intro _; rfl

/-! ### Claim C3 -/

theorem Quantity.scale_scale_q (q : Quantity) (a b : ℚ) :
    (q.scale a).scale b = q.scale (a * b) := by
  simp [Quantity.scale, mul_assoc]

theorem Quantity.scale_one_q (q : Quantity) : q.scale 1 = q := by
  simp [Quantity.scale]

mutual

theorem RecipeTreeNode.scale_scale_node (a b : ℚ) :
    ∀ n : RecipeTreeNode,
      RecipeTreeNode.scale b (RecipeTreeNode.scale a n) =
        RecipeTreeNode.scale (a * b) n
  | .ingredient d q => by
    rw [RecipeTreeNode.scale, RecipeTreeNode.scale, RecipeTreeNode.scale]
    rw [d.scale_scale a b]
    congr 1
    cases q with
    | none => rfl
    | some qq => simp [Quantity.scale_scale_q]
  | .step d inputs => by
    rw [RecipeTreeNode.scale, RecipeTreeNode.scale, RecipeTreeNode.scale]
    rw [d.scale_scale a b, RecipeTreeNode.scaleList_scaleList a b inputs]
  | .reference sub oi am => by
    rw [RecipeTreeNode.scale, RecipeTreeNode.scale, RecipeTreeNode.scale]
    rw [RecipeTreeNode.scale_scale_node a b sub]
    congr 1
    cases am with
    | quantity qq => simp [Amount.scale, Quantity.scale_scale_q]
    | proportion p => rfl
  | .subRecipe t ns sh => by
    rw [RecipeTreeNode.scale, RecipeTreeNode.scale, RecipeTreeNode.scale]
    rw [RecipeTreeNode.scale_scale_node a b t]
    congr 1
    rw [List.map_map]
    exact List.map_congr_left fun n _ => (n.scale_scale a b).symm ▸ n.scale_scale a b

theorem RecipeTreeNode.scaleList_scaleList (a b : ℚ) :
    ∀ l : List RecipeTreeNode,
      RecipeTreeNode.scaleList b (RecipeTreeNode.scaleList a l) =
        RecipeTreeNode.scaleList (a * b) l
  | [] => rfl
  | x :: xs => by
    rw [RecipeTreeNode.scaleList, RecipeTreeNode.scaleList,
      RecipeTreeNode.scaleList]
    rw [RecipeTreeNode.scale_scale_node a b x,
      RecipeTreeNode.scaleList_scaleList a b xs]

end

mutual

theorem RecipeTreeNode.scale_one_node :
    ∀ n : RecipeTreeNode, RecipeTreeNode.scale 1 n = n
  | .ingredient d q => by
    rw [RecipeTreeNode.scale, d.scale_one]
    congr 1
    cases q with
    | none => rfl
    | some qq => simp [Quantity.scale_one_q]
  | .step d inputs => by
    rw [RecipeTreeNode.scale, d.scale_one, RecipeTreeNode.scaleList_one inputs]
  | .reference sub oi am => by
    rw [RecipeTreeNode.scale, RecipeTreeNode.scale_one_node sub]
    congr 1
    cases am with
    | quantity qq => simp [Amount.scale, Quantity.scale_one_q]
    | proportion p => rfl
  | .subRecipe t ns sh => by
    rw [RecipeTreeNode.scale, RecipeTreeNode.scale_one_node t]
    congr 1
    have h1 : ns.map (fun n => n.scale 1) = ns.map id :=
      List.map_congr_left fun n _ => n.scale_one
    rw [h1, List.map_id]

theorem RecipeTreeNode.scaleList_one :
    ∀ l : List RecipeTreeNode, RecipeTreeNode.scaleList 1 l = l
  | [] => rfl
  | x :: xs => by
    rw [RecipeTreeNode.scaleList, RecipeTreeNode.scale_one_node x,
      RecipeTreeNode.scaleList_one xs]

end

mutual

theorem Recipe.scale_scale_recipe (a b : ℚ) :
    ∀ r : Recipe, Recipe.scale b (Recipe.scale a r) = Recipe.scale (a * b) r
  | .mk trees follows => by
    rw [Recipe.scale, Recipe.scale, Recipe.scale]
    rw [RecipeTreeNode.scaleList_scaleList a b trees,
      Recipe.scaleFollows_scaleFollows a b follows]

theorem Recipe.scaleFollows_scaleFollows (a b : ℚ) :
    ∀ f : Option Recipe,
      Recipe.scaleFollows b (Recipe.scaleFollows a f) =
        Recipe.scaleFollows (a * b) f
  | none => rfl
  | some r => by
    rw [Recipe.scaleFollows, Recipe.scaleFollows, Recipe.scaleFollows,
      Recipe.scale_scale_recipe a b r]

end

mutual

theorem Recipe.scale_one_recipe : ∀ r : Recipe, Recipe.scale 1 r = r
  | .mk trees follows => by
    rw [Recipe.scale, RecipeTreeNode.scaleList_one trees,
      Recipe.scaleFollows_one follows]

theorem Recipe.scaleFollows_one :
    ∀ f : Option Recipe, Recipe.scaleFollows 1 f = f
  | none => rfl
  | some r => by
    rw [Recipe.scaleFollows, Recipe.scale_one_recipe r]

end

/-- C3: for positive factors, scaling a recipe by `a` and then by `b`
yields exactly the same recipe as scaling by `a * b` (on the exact
rational semantics of the quantity values, this holds with equality),
and scaling by 1 is the identity. -/
theorem claim_C3 (r : Recipe) (a b : ℚ) (_ha : 0 < a) (_hb : 0 < b) :
    Recipe.scale b (Recipe.scale a r) = Recipe.scale (a * b) r
    ∧ Recipe.scale 1 r = r :=
  ⟨Recipe.scale_scale_recipe a b r, Recipe.scale_one_recipe r⟩

/-- Small concrete recipe used by witnesses. -/
def witnessRecipe : Recipe :=
  .mk
    [ .subRecipe
        (.ingredient (svsMk [.str "spam"]) (some ⟨100, some "g", "", ""⟩))
        [svsMk [.str "spam"]] false ]
    none

/-- C3 witness: the theorem applied at a concrete recipe and concrete
positive factors. -/
theorem claim_C3_witness :
    (0 : ℚ) < 2
    ∧ (0 : ℚ) < 3
    ∧ (Recipe.scale 3 (Recipe.scale 2 witnessRecipe) =
        Recipe.scale (2 * 3) witnessRecipe
      ∧ Recipe.scale 1 witnessRecipe = witnessRecipe) :=
  ⟨by norm_num, by norm_num,
    claim_C3 witnessRecipe 2 3 (by norm_num) (by norm_num)⟩

/-! ### Claim C9 -/

/-- Concrete single-output `SubRecipe` node used in the C9
counterexample. -/
def subRecipeCexC9 : RecipeTreeNode :=
  .subRecipe (.ingredient (svsMk [.str "spam"]) none) [svsMk [.str "spam"]] true

/-- C9 counterexample: the claim states that `Reference` construction
succeeds exactly for indices valid for the output name tuple, but the
constructor only checks the upper bound: index `-5` into a single-output
sub recipe is accepted without error although it is not a valid index
(neither `0 <= -5 < 1` nor, with Python negative indexing,
`-1 <= -5`). -/
theorem claim_C9_counterexample :
    mkReference subRecipeCexC9 (-5) defaultRefAmount =
      .ok (.reference subRecipeCexC9 (-5) defaultRefAmount)
    ∧ (outputNamesOf subRecipeCexC9).length = 1
    ∧ ¬((0 : ℤ) ≤ -5 ∧ (-5 : ℤ) < 1)
    ∧ ¬((-1 : ℤ) ≤ -5) :=
  ⟨rfl, rfl, by decide, by decide⟩

/-- C9 (amended): for a `SubRecipe` with `n` output names, constructing
`Reference(sub_recipe, i)` succeeds if and only if `i < n` (so every
negative index is accepted), and raises `OutputIndexError` exactly when
`i >= n`. -/
theorem claim_C9_amended (t : RecipeTreeNode) (ns : List ScaledValueString)
    (sh : Bool) (i : ℤ) (a : Amount) :
    ((∃ r, mkReference (.subRecipe t ns sh) i a = .ok r) ↔ i < ns.length)
    ∧ (mkReference (.subRecipe t ns sh) i a = .error .outputIndexError ↔
      ¬ i < (ns.length : ℤ)) := by
  rw [mkReference]
  have hnames : outputNamesOf (.subRecipe t ns sh) = ns := rfl
  rw [hnames]
  by_cases h : i ≥ (ns.length : ℤ)
  · rw [if_pos h]
    constructor
    · constructor
      · intro hex
        obtain ⟨r, hr⟩ := hex
        cases hr
      · intro hlt
        exact absurd h (not_le.mpr hlt)
    · constructor
      · intro _; exact not_lt.mpr h
      · intro _; rfl
  · rw [if_neg h]
    constructor
    · constructor
      · intro _; exact lt_of_not_ge h
      · intro _; exact ⟨_, rfl⟩
    · constructor
      · intro hr; cases hr
      · intro hn; exact absurd (lt_of_not_ge h) hn

/-! ### Claim C10 -/

/-- C10: `has_equal_value_to` returns `False` whenever exactly one of
the two quantities has a unit, regardless of the numeric values, and
compares the values with `math.isclose` when neither has a unit. -/
theorem claim_C10 (q1 q2 : Quantity) :
    (q1.unit = none → q2.unit = none →
      q1.has_equal_value_to q2 = pyIsClose q1.value q2.value)
    ∧ (∀ u, q1.unit = some u → q2.unit = none →
      q1.has_equal_value_to q2 = false)
    ∧ (∀ u, q1.unit = none → q2.unit = some u →
      q1.has_equal_value_to q2 = false) := by
  refine ⟨?_, ?_, ?_⟩
  · intro h1 h2
    rw [Quantity.has_equal_value_to, h1, h2, mul_one]
  · intro u h1 h2
    rw [Quantity.has_equal_value_to, h1, h2]
  · intro u h1 h2
    rw [Quantity.has_equal_value_to, h1, h2]

/-- C10 witness: the theorem applied at concrete quantities. -/
theorem claim_C10_witness :
    Quantity.has_equal_value_to ⟨5, none, "", ""⟩ ⟨7, none, "", ""⟩ =
      pyIsClose 5 7
    ∧ Quantity.has_equal_value_to ⟨5, some "g", "", ""⟩ ⟨5, none, "", ""⟩ = false
    ∧ Quantity.has_equal_value_to ⟨5, none, "", ""⟩ ⟨5, some "g", "", ""⟩ = false :=
  ⟨(claim_C10 ⟨5, none, "", ""⟩ ⟨7, none, "", ""⟩).1 rfl rfl,
    (claim_C10 ⟨5, some "g", "", ""⟩ ⟨5, none, "", ""⟩).2.1 "g" rfl rfl,
    (claim_C10 ⟨5, none, "", ""⟩ ⟨5, some "g", "", ""⟩).2.2 "g" rfl rfl⟩

/-! ### `recipe_grid.compiler`: the inlining pass (claim C1) -/

/-- Python runtime errors surfacing from list operations in the
compiler (`IndexError` from indexing, `ValueError` from
`list.remove`). -/
inductive PyExecError
  | indexError
  | valueError
deriving DecidableEq

/-- `infer_quantity`: the quantity of the single ingredient of a tree
consisting of one ingredient chained through single-input steps (and
single-output sub recipes), otherwise `None`. -/
def infer_quantity : RecipeTreeNode → Option Quantity
  | .ingredient _ q => q
  | .step _ [input] => infer_quantity input
  | .subRecipe t ns _ => if ns.length = 1 then infer_quantity t else none
  | _ => none

/-- The `amount` attribute of a `Reference` node (`none` for other node
kinds, on which Python would raise `AttributeError`; such entries never
occur in the compiler's bookkeeping). -/
def refAmount : RecipeTreeNode → Option Amount
  | .reference _ _ a => some a
  | _ => none

/-- The compiler's bookkeeping record for one named `SubRecipe` output:
the defining block index, the `SubRecipe` node, and the `(Reference,
block index)` pairs referring to it. -/
structure NamedOutput where
  name : ScaledValueString
  definition_recipe_index : ℕ
  sub_recipe : RecipeTreeNode
  output_index : ℕ := 0
  references : List (RecipeTreeNode × ℕ) := []
  unwrap_subrecipe_when_inlined : Bool := true

/-- `NamedOutput.substitute`: apply a tree substitution to the recorded
sub recipe and to every recorded reference, keeping a reference
unchanged when it is itself the node being replaced. -/
def NamedOutput.substitute (no : NamedOutput) (old new : RecipeTreeNode) :
    NamedOutput :=
  { no with
    sub_recipe := no.sub_recipe.substitute old new
    references := no.references.map fun ri =>
      (if old ≠ ri.1 then ri.1.substitute old new else ri.1, ri.2) }

/-- `NamedOutput.can_be_inlined`: single output, single reference, the
reference in the defining block, and the reference consuming the whole
quantity (an unqualified or 1.0 proportion, or a quantity equal to the
inferred total quantity under unit-aware comparison). -/
def NamedOutput.can_be_inlined (no : NamedOutput) : Bool :=
  let inferred_quantity := infer_quantity no.sub_recipe
  decide ((outputNamesOf no.sub_recipe).length = 1)
  && decide (no.references.length = 1)
  && (match no.references.head? with
    | some (ref, idx) =>
      decide (idx = no.definition_recipe_index)
      && (match refAmount ref with
        | some (.proportion p) =>
          decide (p.value = none) || decide (p.value = some 1)
        | some (.quantity q) =>
          match inferred_quantity with
          | some iq => q.has_equal_value_to iq
          | none => false
        | none => false)
    | none => false)

/-- The action of the inlining loop body on an eligible `NamedOutput`:
unwrap the sub recipe if required, remove the definition from its
defining block, and substitute the reference by the inlined tree across
every block and every other `NamedOutput`. -/
def applyInline (no : NamedOutput) (blocks : List (List RecipeTreeNode))
    (others : List NamedOutput) :
    Except PyExecError (List (List RecipeTreeNode) × List NamedOutput) :=
  let tree_to_inline :=
    if no.unwrap_subrecipe_when_inlined then subTreeOf no.sub_recipe
    else no.sub_recipe
  let definition_to_remove := no.sub_recipe
  match no.references.head? with
  | none => .error .indexError
  | some (reference_to_replace, _) =>
    match blocks.get? no.definition_recipe_index with
    | none => .error .indexError
    | some trees =>
      if definition_to_remove ∈ trees then
        let blocks2 :=
          blocks.set no.definition_recipe_index (trees.erase definition_to_remove)
        .ok
          (blocks2.map fun ts =>
            ts.map fun t => t.substitute reference_to_replace tree_to_inline,
          others.map fun o => o.substitute reference_to_replace tree_to_inline)
      else .error .valueError

/-- One iteration of the inlining loop in `RecipeCompiler.compile`:
inline exactly when `can_be_inlined` holds. -/
def inlineStep (no : NamedOutput) (blocks : List (List RecipeTreeNode))
    (others : List NamedOutput) :
    Except PyExecError (List (List RecipeTreeNode) × List NamedOutput) :=
  if no.can_be_inlined then applyInline no blocks others
  else .ok (blocks, others)

/-- The whole inlining pass: iterate over the named outputs in
registration order, each substitution being visible to the later
iterations. -/
theorem inlineStep_others_length (no : NamedOutput)
    (blocks : List (List RecipeTreeNode)) (others : List NamedOutput)
    (blocks2 : List (List RecipeTreeNode)) (others2 : List NamedOutput)
    (h : inlineStep no blocks others = .ok (blocks2, others2)) :
    others2.length = others.length := by
  rw [inlineStep] at h
  by_cases hc : no.can_be_inlined = true
  · rw [if_pos hc] at h
    rw [applyInline] at h
    cases hh : no.references.head? with
    | none => rw [hh] at h; cases h
    | some ri =>
      obtain ⟨ref, idx⟩ := ri
      rw [hh] at h
      simp only at h
      cases hg : blocks.get? no.definition_recipe_index with
      | none => rw [hg] at h; cases h
      | some trees =>
        rw [hg] at h
        simp only at h
        by_cases hmem : no.sub_recipe ∈ trees
        · rw [if_pos hmem] at h
          cases h
          simp
        · rw [if_neg hmem] at h
          cases h
  · rw [if_neg hc] at h
    cases h
    rfl

def inlinePass :
    List NamedOutput → List (List RecipeTreeNode) →
      Except PyExecError (List (List RecipeTreeNode))
  | [], blocks => .ok blocks
  | no :: rest, blocks =>
    match hstep : inlineStep no blocks rest with
    | .error e => .error e
    | .ok (blocks2, rest2) => inlinePass rest2 blocks2
termination_by nos _ => nos.length
decreasing_by
  have := inlineStep_others_length no blocks rest blocks2 rest2 hstep
  simp [this]

/-- The claimed "consumes the entire quantity" condition: the reference
amount is a proportion with value `None` or `1.0`, or a quantity whose
value equals (by unit-aware comparison) the sub recipe's inferred total
quantity. -/
def ConsumesEntireQuantity (ref sr : RecipeTreeNode) : Prop :=
  (∃ p : Proportion, refAmount ref = some (.proportion p)
    ∧ (p.value = none ∨ p.value = some 1))
  ∨ (∃ q iq, refAmount ref = some (.quantity q)
    ∧ infer_quantity sr = some iq ∧ q.has_equal_value_to iq = true)

/-- The four claimed inlining conditions: exactly one output name,
exactly one reference, that reference in the defining source block, and
the reference consuming the entire quantity. -/
def InliningConditions (no : NamedOutput) : Prop :=
  (outputNamesOf no.sub_recipe).length = 1
  ∧ ∃ ref blk, no.references = [(ref, blk)]
    ∧ blk = no.definition_recipe_index
    ∧ ConsumesEntireQuantity ref no.sub_recipe

/-- C1: the inlining loop inlines a named output exactly when
`can_be_inlined` holds, and `can_be_inlined` holds exactly when the four
claimed conditions do: a single output name, a single referencing
place, that reference residing in the defining source block, and the
reference consuming the entire quantity (an unqualified/1.0 proportion
or a quantity equal, under unit-aware comparison, to the inferred total
quantity). -/
theorem claim_C1 (no : NamedOutput) (blocks : List (List RecipeTreeNode))
    (others : List NamedOutput) :
    (no.can_be_inlined = true ↔ InliningConditions no)
    ∧ inlineStep no blocks others =
      (if no.can_be_inlined then applyInline no blocks others
        else .ok (blocks, others)) := by
  refine ⟨?_, rfl⟩
  rw [NamedOutput.can_be_inlined, InliningConditions]
  cases href : no.references with
  | nil =>
    simp
  | cons ri rest =>
    cases rest with
    | cons ri2 rest2 =>
      constructor
      · intro h
        simp at h
      · intro h
        obtain ⟨_, ref, blk, habs, _⟩ := h
        simp at habs
    | nil =>
      obtain ⟨ref, blk⟩ := ri
      simp only [List.length_cons, List.length_nil, List.head?_cons,
        Bool.and_eq_true, decide_eq_true_eq]
      constructor
      · intro h
        obtain ⟨⟨hnames, -⟩, hblk, hamt⟩ := h
        refine ⟨hnames, ref, blk, rfl, hblk, ?_⟩
        rw [ConsumesEntireQuantity]
        cases hra : refAmount ref with
        | none => rw [hra] at hamt; cases hamt
        | some am =>
          cases am with
          | proportion p =>
            rw [hra] at hamt
            left
            refine ⟨p, rfl, ?_⟩
            simpa using hamt
          | quantity q =>
            rw [hra] at hamt
            right
            cases hiq : infer_quantity no.sub_recipe with
            | none => rw [hiq] at hamt; cases hamt
            | some iq =>
              rw [hiq] at hamt
              exact ⟨q, iq, rfl, rfl, hamt⟩
      · intro h
        obtain ⟨hnames, ref2, blk2, heq, hblk, hcons⟩ := h
        have hpair : ref = ref2 ∧ blk = blk2 := by simpa using heq
        obtain ⟨hr1, hr2⟩ := hpair
        subst hr1
        subst hr2
        refine ⟨⟨hnames, trivial⟩, hblk, ?_⟩
        rw [ConsumesEntireQuantity] at hcons
        rcases hcons with ⟨p, hra, hval⟩ | ⟨q, iq, hra, hiq, heqv⟩
        · rw [hra]
          rcases hval with h1 | h2
          · simp [h1]
          · simp [h2]
        · rw [hra, hiq]
          exact heqv

/-! ### `recipe_grid.number_parser` (claim C6) -/

/-- A Python float value: finite (exact rational semantics), infinite
or not-a-number. -/
inductive PyFloat
  | finite (q : ℚ)
  | inf (neg : Bool)
  | nan
deriving DecidableEq

/-- The result type of `number`: `int`, `float` or `Fraction`. -/
inductive PyNumber
  | int (z : ℤ)
  | float (f : PyFloat)
  | fraction (q : ℚ)
deriving DecidableEq

/-- The exceptions `number` can raise. -/
inductive NumParseError
  | valueError
  | zeroDivisionError
deriving DecidableEq

/-- Numeric value of a digit string (most significant digit first). -/
def digitsVal (l : List Char) : ℕ :=
  l.foldl (fun acc c => acc * 10 + (c.toNat - 48)) 0

/-- The whitespace admitted inside the fraction pattern (`[ \t]`). -/
def isFracWS (c : Char) : Bool :=
  c = ' ' || c = '\t'

/-- Tail of the fraction pattern after the numerator digits:
`[ \t]* / [ \t]* [0-9]+` anchored to the end of the string.  Returns
the numerator (of the given digits) and denominator values. -/
def parseFracTail (numDigits : List Char) (r : List Char) : Option (ℕ × ℕ) :=
  match r.dropWhile isFracWS with
  | c :: r2 =>
    if c = '/' then
      let r3 := r2.dropWhile isFracWS
      let den := r3.takeWhile Char.isDigit
      if den.isEmpty = false ∧ r3.dropWhile Char.isDigit = [] then
        some (digitsVal numDigits, digitsVal den)
      else none
    else none
  | [] => none

/-- Full match of `fraction_pattern`:
`((?P<integer>[0-9]+)[ \t]+)?(?P<numerator>[0-9]+)[ \t]*/[ \t]*(?P<denominator>[0-9]+)`.
Returns `(integer, numerator, denominator)` with `integer = 0` when the
optional group is absent. -/
def parseFrac (l : List Char) : Option (ℕ × ℕ × ℕ) :=
  if (l.takeWhile Char.isDigit).isEmpty then none
  else
    match ((l.dropWhile Char.isDigit).dropWhile isFracWS).head? with
    | none => none
    | some c =>
      if c.isDigit then
        -- an integer group (the leading digits) followed by the numerator
        match
          parseFracTail
            (((l.dropWhile Char.isDigit).dropWhile isFracWS).takeWhile Char.isDigit)
            (((l.dropWhile Char.isDigit).dropWhile isFracWS).dropWhile Char.isDigit)
        with
        | some (n, den) => some (digitsVal (l.takeWhile Char.isDigit), n, den)
        | none => none
      else
        -- no integer group: the leading digits are the numerator
        match parseFracTail (l.takeWhile Char.isDigit) (l.dropWhile Char.isDigit) with
        | some (n, den) => some (0, n, den)
        | none => none

/-- Strip leading and trailing Python whitespace. -/
def stripPyWS (l : List Char) : List Char :=
  ((l.dropWhile isPySpace).reverse.dropWhile isPySpace).reverse

/-- Digit run continuation allowing single underscores between digits. -/
def digitsUnders : List Char → Bool
  | [] => true
  | '_' :: rest =>
    match rest with
    | c :: rest2 => c.isDigit && digitsUnders rest2
    | [] => false
  | c :: rest => c.isDigit && digitsUnders rest

/-- A non-empty digit run with single underscores between digits, as
accepted inside Python `int()` and `float()` literals. -/
def intDigitsOK : List Char → Bool
  | [] => false
  | c :: rest => c.isDigit && digitsUnders rest

/-- Digits of a run with the underscores removed. -/
def digitsNoUnders (l : List Char) : List Char :=
  l.filter fun c => c ≠ '_'

/-- Python `int(str)`: optional surrounding whitespace, an optional
sign, then digits with single underscores between them. -/
def pyParseInt (l : List Char) : Option ℤ :=
  match stripPyWS l with
  | '+' :: r =>
    if intDigitsOK r then some ((digitsVal (digitsNoUnders r) : ℤ)) else none
  | '-' :: r =>
    if intDigitsOK r then some (-(digitsVal (digitsNoUnders r) : ℤ)) else none
  | r =>
    if intDigitsOK r then some ((digitsVal (digitsNoUnders r) : ℤ)) else none

/-- Split a character list at the first character satisfying `p`,
returning the prefix and (when found) the remainder after it. -/
def splitOnChar (p : Char → Bool) : List Char → (List Char × Option (List Char))
  | [] => ([], none)
  | c :: rest =>
    if p c then ([], some rest)
    else
      let (a, b) := splitOnChar p rest
      (c :: a, b)

/-- Validity of a float mantissa: `D`, `D.`, `D.D` or `.D` where `D` is
a digit run with underscores. -/
def mantissaOK (m : List Char) : Bool :=
  match splitOnChar (fun c => c = '.') m with
  | (before, none) => intDigitsOK before
  | (before, some after) =>
    (intDigitsOK before && (after.isEmpty || intDigitsOK after))
    || (before.isEmpty && intDigitsOK after)

/-- Value of a valid float mantissa. -/
def mantissaVal (m : List Char) : ℚ :=
  match splitOnChar (fun c => c = '.') m with
  | (before, none) => (digitsVal (digitsNoUnders before) : ℚ)
  | (before, some after) =>
    (digitsVal (digitsNoUnders before) : ℚ)
    + (digitsVal (digitsNoUnders after) : ℚ)
      / ((10 : ℚ) ^ (digitsNoUnders after).length)

/-- Validity of a float exponent: optional sign then a digit run. -/
def expOK (e : List Char) : Bool :=
  match e with
  | '+' :: r => intDigitsOK r
  | '-' :: r => intDigitsOK r
  | r => intDigitsOK r

/-- Value of a valid float exponent. -/
def expVal (e : List Char) : ℤ :=
  match e with
  | '+' :: r => (digitsVal (digitsNoUnders r) : ℤ)
  | '-' :: r => -(digitsVal (digitsNoUnders r) : ℤ)
  | r => (digitsVal (digitsNoUnders r) : ℤ)

/-- Python `float(str)`: optional surrounding whitespace, optional sign,
then `inf`, `infinity`, `nan` (case-insensitive) or a decimal mantissa
with an optional exponent. -/
def pyParseFloat (l : List Char) : Option PyFloat :=
  let stripped := stripPyWS l
  let signAndBody : Bool × List Char :=
    match stripped with
    | '+' :: r => (false, r)
    | '-' :: r => (true, r)
    | r => (false, r)
  let neg := signAndBody.1
  let body := signAndBody.2
  let lowerBody := body.map Char.toLower
  if lowerBody = [ 'i', 'n', 'f'] || lowerBody = [ 'i', 'n', 'f', 'i', 'n', 'i', 't', 'y'] then
    some (.inf neg)
  else if lowerBody = [ 'n', 'a', 'n'] then
    some .nan
  else
    match splitOnChar (fun c => c = 'e' || c = 'E') body with
    | (m, none) =>
      if mantissaOK m then
        some (.finite (if neg then -(mantissaVal m) else mantissaVal m))
      else none
    | (m, some e) =>
      if mantissaOK m && expOK e then
        some (.finite
          (if neg then -(mantissaVal m * (10 : ℚ) ^ expVal e)
            else mantissaVal m * (10 : ℚ) ^ expVal e))
      else none

/-- `recipe_grid.number_parser.number`: try the fraction pattern, then
`int()`, then `float()`; `Fraction(n, 0)` raises `ZeroDivisionError`
and a string matching none of the forms raises `ValueError`. -/
def number (value : String) : Except NumParseError PyNumber :=
  match parseFrac value.toList with
  | some (i, n, d) =>
    if d = 0 then .error .zeroDivisionError
    else .ok (.fraction ((i : ℚ) + (n : ℚ) / (d : ℚ)))
  | none =>
    match pyParseInt value.toList with
    | some z => .ok (.int z)
    | none =>
      match pyParseFloat value.toList with
      | some f => .ok (.float f)
      | none => .error .valueError

/-! ### Grammar-level characterisation of the fraction pattern -/

/-- A non-empty run of ASCII digits. -/
def IsDigitRun (l : List Char) : Prop :=
  l ≠ [] ∧ ∀ c ∈ l, c.isDigit = true

/-- A (possibly empty) run of the pattern's whitespace characters. -/
def IsWsRun (l : List Char) : Prop :=
  ∀ c ∈ l, isFracWS c = true

/-- The language of `fraction_pattern`, spelled out as the claim reads:
either `"<num> [ws]/ [ws] <den>"` or `"<int> <ws> <num> [ws]/ [ws] <den>"`,
together with the values of the three groups (`integer` being 0 when
the optional group is absent). -/
def FracDecompL (l : List Char) (i n d : ℕ) : Prop :=
  (∃ ln w2 w3 ld, l = ln ++ (w2 ++ '/' :: (w3 ++ ld))
    ∧ IsDigitRun ln ∧ IsWsRun w2 ∧ IsWsRun w3 ∧ IsDigitRun ld
    ∧ i = 0 ∧ n = digitsVal ln ∧ d = digitsVal ld)
  ∨ (∃ li w1 ln w2 w3 ld, l = li ++ (w1 ++ (ln ++ (w2 ++ '/' :: (w3 ++ ld))))
    ∧ IsDigitRun li ∧ IsWsRun w1 ∧ w1 ≠ [] ∧ IsDigitRun ln ∧ IsWsRun w2
    ∧ IsWsRun w3 ∧ IsDigitRun ld
    ∧ i = digitsVal li ∧ n = digitsVal ln ∧ d = digitsVal ld)

/-- The fraction pattern on strings. -/
def FracDecomp (s : String) (i n d : ℕ) : Prop :=
  FracDecompL s.toList i n d

theorem dropWhile_head_false (p : Char → Bool) :
    ∀ (l : List Char) (c : Char) (rest : List Char),
      l.dropWhile p = c :: rest → p c = false := by
  intro l
  induction l with
  | nil => intro c rest h; cases h
  | cons c0 t ih =>
    intro c rest h
    rw [List.dropWhile_cons] at h
    by_cases hp : p c0 = true
    · rw [if_pos hp] at h
      exact ih c rest h
    · rw [if_neg hp] at h
      cases h
      simpa using hp

theorem takeWhile_block (p : Char → Bool) (a b : List Char)
    (ha : ∀ c ∈ a, p c = true)
    (hb : ∀ c rest, b = c :: rest → p c = false) :
    (a ++ b).takeWhile p = a ∧ (a ++ b).dropWhile p = b := by
  induction a with
  | nil =>
    simp only [List.nil_append]
    cases b with
    | nil => exact ⟨rfl, rfl⟩
    | cons c rest =>
      have hc : p c = false := hb c rest rfl
      rw [List.takeWhile_cons, List.dropWhile_cons, if_neg (by simp [hc]),
        if_neg (by simp [hc])]
      exact ⟨rfl, rfl⟩
  | cons c0 t ih =>
    have hc0 : p c0 = true := ha c0 (List.mem_cons_self c0 t)
    have iht := ih fun c hc => ha c (List.mem_cons_of_mem c0 hc)
    constructor
    · simp only [List.cons_append, List.takeWhile_cons, hc0, if_true]
      rw [iht.1]
    · simp only [List.cons_append, List.dropWhile_cons, hc0, if_true]
      exact iht.2

theorem ws_not_digit (c : Char) (h : isFracWS c = true) : c.isDigit = false := by
  have h2 : c = ' ' ∨ c = '\t' := by
    rcases Bool.or_eq_true _ _ ▸ h with h1 | h1
    · exact Or.inl (by simpa using h1)
    · exact Or.inr (by simpa using h1)
  rcases h2 with h1 | h1 <;> subst h1 <;> decide

theorem parseFracTail_eq_some_iff (nd r : List Char) (n den : ℕ) :
    parseFracTail nd r = some (n, den) ↔
      ∃ w2 w3 ld, r = w2 ++ '/' :: (w3 ++ ld)
        ∧ IsWsRun w2 ∧ IsWsRun w3 ∧ IsDigitRun ld
        ∧ n = digitsVal nd ∧ den = digitsVal ld := by
  constructor
  · intro h
    rw [parseFracTail] at h
    cases hdw : r.dropWhile isFracWS with
    | nil => rw [hdw] at h; cases h
    | cons c r2 =>
      rw [hdw] at h
      simp only at h
      by_cases hc : c = '/'
      · rw [if_pos hc] at h
        subst hc
        by_cases hcond : ((r2.dropWhile isFracWS).takeWhile Char.isDigit).isEmpty = false
            ∧ (r2.dropWhile isFracWS).dropWhile Char.isDigit = []
        · rw [if_pos hcond] at h
          have hpair := Option.some.inj h
          have hn : digitsVal nd = n := congrArg Prod.fst hpair
          have hd : digitsVal ((r2.dropWhile isFracWS).takeWhile Char.isDigit) = den :=
            congrArg Prod.snd hpair
          have hA : r.takeWhile isFracWS ++ ('/' :: r2) = r := by
            rw [← hdw]; exact List.takeWhile_append_dropWhile isFracWS r
          have hB : r2.takeWhile isFracWS ++ r2.dropWhile isFracWS = r2 :=
            List.takeWhile_append_dropWhile isFracWS r2
          have hC : (r2.dropWhile isFracWS).takeWhile Char.isDigit = r2.dropWhile isFracWS := by
            have := List.takeWhile_append_dropWhile Char.isDigit (r2.dropWhile isFracWS)
            rw [hcond.2, List.append_nil] at this
            exact this
          refine ⟨r.takeWhile isFracWS, r2.takeWhile isFracWS,
            (r2.dropWhile isFracWS).takeWhile Char.isDigit, ?_, ?_, ?_, ?_, hn.symm, hd.symm⟩
          · rw [hC, hB, hA]
          · intro x hx; exact List.mem_takeWhile_imp hx
          · intro x hx; exact List.mem_takeWhile_imp hx
          · refine ⟨?_, fun c hc => List.mem_takeWhile_imp hc⟩
            intro habs
            rw [habs] at hcond
            simp at hcond
        · rw [if_neg hcond] at h; cases h
      · rw [if_neg hc] at h; cases h
  · intro h
    obtain ⟨w2, w3, ld, hr, hw2, hw3, hld, hn, hden⟩ := h
    have hldhead : ∀ c rest, ld = c :: rest → isFracWS c = false := by
      intro c rest he
      have hcd : c.isDigit = true := hld.2 c (by rw [he]; exact List.mem_cons_self _ _)
      by_cases hwc : isFracWS c = true
      · rw [ws_not_digit c hwc] at hcd; cases hcd
      · simpa using hwc
    have hslash : ∀ c rest, ('/' :: (w3 ++ ld)) = c :: rest → isFracWS c = false := by
      intro c rest he
      cases he
      decide
    have hblock := takeWhile_block isFracWS w2 ('/' :: (w3 ++ ld)) hw2 hslash
    have hblock2 := takeWhile_block isFracWS w3 ld hw3 hldhead
    have hldall := takeWhile_block Char.isDigit ld [] (fun c hc => hld.2 c hc)
      (fun c rest he => by cases he)
    rw [List.append_nil] at hldall
    rw [parseFracTail, hr, hblock.2]
    simp only [if_pos rfl]
    rw [hblock2.2, hldall.1, hldall.2]
    have hne : ld.isEmpty = false := by
      cases ld with
      | nil => exact absurd rfl hld.1
      | cons c t => rfl
    rw [hn, hden]
    simp [hne]

theorem digit_not_ws (c : Char) (h : c.isDigit = true) : isFracWS c = false := by
  by_cases hw : isFracWS c = true
  · rw [ws_not_digit c hw] at h; cases h
  · simpa using hw

theorem head_not_digit_wsSlash (w tail : List Char) (hw : IsWsRun w) :
    ∀ c rest, (w ++ '/' :: tail) = c :: rest → c.isDigit = false := by
  intro c rest he
  cases w with
  | nil =>
    simp only [List.nil_append] at he
    cases he
    decide
  | cons c0 w2 =>
    simp only [List.cons_append] at he
    cases he
    exact ws_not_digit c (hw c (List.mem_cons_self _ _))

theorem head_digit_of_digitRun (l : List Char) (h : IsDigitRun l) :
    ∀ c rest, l = c :: rest → c.isDigit = true := by
  intro c rest he
  exact h.2 c (by rw [he]; exact List.mem_cons_self _ _)

theorem isEmpty_false_of_ne_nil {l : List Char} (h : l ≠ []) :
    l.isEmpty = false := by
  cases l with
  | nil => exact absurd rfl h
  | cons c t => rfl

theorem parseFrac_eq_some_iff (l : List Char) (i n d : ℕ) :
    parseFrac l = some (i, n, d) ↔ FracDecompL l i n d := by
  constructor
  · intro h
    rw [parseFrac] at h
    by_cases hne : (l.takeWhile Char.isDigit).isEmpty = true
    · rw [if_pos hne] at h; cases h
    · rw [if_neg hne] at h
      have hA : IsDigitRun (l.takeWhile Char.isDigit) := by
        refine ⟨?_, fun c hc => List.mem_takeWhile_imp hc⟩
        intro habs
        rw [habs] at hne
        exact hne rfl
      cases hh : ((l.dropWhile Char.isDigit).dropWhile isFracWS).head? with
      | none => rw [hh] at h; cases h
      | some c =>
        rw [hh] at h
        simp only at h
        by_cases hcd : c.isDigit = true
        · -- integer-group branch
          rw [if_pos hcd] at h
          cases htail :
              parseFracTail
                (((l.dropWhile Char.isDigit).dropWhile isFracWS).takeWhile Char.isDigit)
                (((l.dropWhile Char.isDigit).dropWhile isFracWS).dropWhile Char.isDigit) with
          | none => rw [htail] at h; cases h
          | some pair =>
            obtain ⟨nv, den⟩ := pair
            rw [htail] at h
            have hpair := Option.some.inj h
            obtain ⟨hC, hrest⟩ : ∃ rest,
                (l.dropWhile Char.isDigit).dropWhile isFracWS = c :: rest := by
              cases hcc : (l.dropWhile Char.isDigit).dropWhile isFracWS with
              | nil => rw [hcc] at hh; cases hh
              | cons c2 t =>
                rw [hcc] at hh
                exact ⟨t, by rw [Option.some.inj hh]⟩
            obtain ⟨w2, w3, ld, hdec, hw2, hw3, hld, hnv, hden⟩ :=
              (parseFracTail_eq_some_iff _ _ nv den).mp htail
            refine Or.inr ⟨l.takeWhile Char.isDigit,
              (l.dropWhile Char.isDigit).takeWhile isFracWS,
              ((l.dropWhile Char.isDigit).dropWhile isFracWS).takeWhile Char.isDigit,
              w2, w3, ld, ?_, hA, ?_, ?_, ?_, hw2, hw3, hld, ?_, ?_, ?_⟩
            · rw [← hdec,
                List.takeWhile_append_dropWhile Char.isDigit
                  ((l.dropWhile Char.isDigit).dropWhile isFracWS),
                List.takeWhile_append_dropWhile isFracWS (l.dropWhile Char.isDigit),
                List.takeWhile_append_dropWhile Char.isDigit l]
            · intro x hx; exact List.mem_takeWhile_imp hx
            · intro habs
              have hCB : (l.dropWhile Char.isDigit) = c :: hC := by
                have := List.takeWhile_append_dropWhile isFracWS
                  (l.dropWhile Char.isDigit)
                rw [habs, List.nil_append] at this
                rw [← this, hrest]
              have := dropWhile_head_false Char.isDigit l c hC hCB
              rw [hcd] at this
              cases this
            · refine ⟨?_, fun x hx => List.mem_takeWhile_imp hx⟩
              intro habs
              rw [hrest] at habs
              rw [List.takeWhile_cons, if_pos hcd] at habs
              cases habs
            · exact (congrArg (fun p => p.1) hpair).symm
            · exact (congrArg (fun p => p.2.1) hpair).symm.trans hnv
            · exact (congrArg (fun p => p.2.2) hpair).symm.trans hden
        · -- no integer group
          rw [if_neg hcd] at h
          cases htail : parseFracTail (l.takeWhile Char.isDigit)
              (l.dropWhile Char.isDigit) with
          | none => rw [htail] at h; cases h
          | some pair =>
            obtain ⟨nv, den⟩ := pair
            rw [htail] at h
            have hpair := Option.some.inj h
            obtain ⟨w2, w3, ld, hdec, hw2, hw3, hld, hnv, hden⟩ :=
              (parseFracTail_eq_some_iff _ _ nv den).mp htail
            refine Or.inl ⟨l.takeWhile Char.isDigit, w2, w3, ld, ?_, hA, hw2, hw3,
              hld, ?_, ?_, ?_⟩
            · rw [← hdec, List.takeWhile_append_dropWhile Char.isDigit l]
            · exact (congrArg (fun p => p.1) hpair).symm
            · exact (congrArg (fun p => p.2.1) hpair).symm.trans hnv
            · exact (congrArg (fun p => p.2.2) hpair).symm.trans hden
  · intro h
    rcases h with ⟨ln, w2, w3, ld, heq, hln, hw2, hw3, hld, hi, hn, hd⟩ |
      ⟨li, w1, ln, w2, w3, ld, heq, hli, hw1, hw1ne, hln, hw2, hw3, hld, hi, hn, hd⟩
    · -- no integer group
      have hb1 := takeWhile_block Char.isDigit ln (w2 ++ '/' :: (w3 ++ ld)) hln.2
        (head_not_digit_wsSlash w2 (w3 ++ ld) hw2)
      have hb2 := takeWhile_block isFracWS w2 ('/' :: (w3 ++ ld)) hw2
        (fun c rest he => by cases he; decide)
      rw [parseFrac, heq, hb1.1, hb1.2, hb2.2]
      rw [if_neg (by simpa using isEmpty_false_of_ne_nil hln.1)]
      simp only [List.head?_cons]
      rw [if_neg (by decide)]
      rw [(parseFracTail_eq_some_iff ln (w2 ++ '/' :: (w3 ++ ld)) (digitsVal ln)
        (digitsVal ld)).mpr ⟨w2, w3, ld, rfl, hw2, hw3, hld, rfl, rfl⟩]
      rw [hi, hn, hd]
    · -- integer group present
      have hlnhead : ∀ c rest, (ln ++ (w2 ++ '/' :: (w3 ++ ld))) = c :: rest →
          isFracWS c = false := by
        intro c rest he
        cases hc : ln with
        | nil => exact absurd hc hln.1
        | cons c0 t =>
          rw [hc, List.cons_append] at he
          cases he
          exact digit_not_ws c (hln.2 c (by rw [hc]; exact List.mem_cons_self _ _))
      have hb1 := takeWhile_block Char.isDigit li
        (w1 ++ (ln ++ (w2 ++ '/' :: (w3 ++ ld)))) hli.2
        (by
          intro c rest he
          cases hw : w1 with
          | nil => exact absurd hw hw1ne
          | cons c0 t =>
            rw [hw, List.cons_append] at he
            cases he
            exact ws_not_digit c (hw1 c (by rw [hw]; exact List.mem_cons_self _ _)))
      have hb2 := takeWhile_block isFracWS w1 (ln ++ (w2 ++ '/' :: (w3 ++ ld))) hw1
        hlnhead
      have hb3 := takeWhile_block Char.isDigit ln (w2 ++ '/' :: (w3 ++ ld)) hln.2
        (head_not_digit_wsSlash w2 (w3 ++ ld) hw2)
      obtain ⟨c0, lt, hc0⟩ : ∃ c t, ln = c :: t := by
        cases hc : ln with
        | nil => exact absurd hc hln.1
        | cons c0 t => exact ⟨c0, t, rfl⟩
      rw [parseFrac, heq, hb1.1, hb1.2, hb2.2]
      rw [if_neg (by simpa using isEmpty_false_of_ne_nil hli.1)]
      rw [hc0, List.cons_append]
      simp only [List.head?_cons]
      have hc0d : c0.isDigit = true :=
        hln.2 c0 (by rw [hc0]; exact List.mem_cons_self _ _)
      rw [if_pos hc0d]
      rw [← List.cons_append, ← hc0, hb3.1, hb3.2]
      rw [(parseFracTail_eq_some_iff ln (w2 ++ '/' :: (w3 ++ ld)) (digitsVal ln)
        (digitsVal ld)).mpr ⟨w2, w3, ld, rfl, hw2, hw3, hld, rfl, rfl⟩]
      rw [hi, hn, hd]

instance {ε α : Type} [DecidableEq ε] [DecidableEq α] :
    DecidableEq (Except ε α) := fun a b =>
  match a, b with
  | .ok x, .ok y =>
    if h : x = y then .isTrue (by rw [h]) else .isFalse (fun e => h (by cases e; rfl))
  | .error x, .error y =>
    if h : x = y then .isTrue (by rw [h]) else .isFalse (fun e => h (by cases e; rfl))
  | .ok _, .error _ => .isFalse (fun e => by cases e)
  | .error _, .ok _ => .isFalse (fun e => by cases e)

/-- C6 counterexample: the claim states that every string of the form
`"<num>/<den>"` yields a Fraction value and that every string of none of
the four forms raises `ValueError`; but `"1/0"` is of that form and
raises `ZeroDivisionError` instead (from `Fraction(1, 0)`), and
`"inf"`, which is of none of the four forms, is accepted by the
`float()` fallback rather than raising `ValueError`. -/
theorem claim_C6_counterexample :
    number "1/0" = .error .zeroDivisionError
    ∧ NumParseError.zeroDivisionError ≠ NumParseError.valueError
    ∧ number "inf" = .ok (.float (.inf false)) := by
  refine ⟨by decide, by decide, by decide⟩

/-- C6 (amended): `number` recognises the fraction grammar
(`"<int> <num>/<den>"` or `"<num>/<den>"`, characterised by
`FracDecomp`), returning the exact mixed-number value when the
denominator is non-zero and raising `ZeroDivisionError` when it is
zero; on strings not matching the fraction grammar it falls back to
Python `int()` parsing (returning an `int`), then Python `float()`
parsing (returning a `float`, which also accepts exponent notation,
infinities and NaN), and raises `ValueError` exactly when all three
fail. -/
theorem claim_C6_amended (s : String) :
    (∀ i n d, parseFrac s.toList = some (i, n, d) ↔ FracDecomp s i n d)
    ∧ (∀ i n d, FracDecomp s i n d →
        (d ≠ 0 → number s = .ok (.fraction ((i : ℚ) + (n : ℚ) / (d : ℚ))))
        ∧ (d = 0 → number s = .error .zeroDivisionError))
    ∧ ((∀ i n d, ¬ FracDecomp s i n d) →
        (∀ z, pyParseInt s.toList = some z → number s = .ok (.int z))
        ∧ (∀ f, pyParseInt s.toList = none → pyParseFloat s.toList = some f →
            number s = .ok (.float f))
        ∧ (pyParseInt s.toList = none → pyParseFloat s.toList = none →
            number s = .error .valueError)) := by
  refine ⟨fun i n d => parseFrac_eq_some_iff s.toList i n d, ?_, ?_⟩
  · intro i n d hdec
    have hsome : parseFrac s.toList = some (i, n, d) :=
      (parseFrac_eq_some_iff s.toList i n d).mpr hdec
    constructor
    · intro hd
      rw [number, hsome]
      simp only [if_neg hd]
    · intro hd
      rw [number, hsome]
      simp only [if_pos hd]
  · intro hnone
    have hpf : parseFrac s.toList = none := by
      cases hp : parseFrac s.toList with
      | none => rfl
      | some t =>
        obtain ⟨i, n, d⟩ := t
        exact absurd ((parseFrac_eq_some_iff s.toList i n d).mp hp)
          (hnone i n d)
    refine ⟨?_, ?_, ?_⟩
    · intro z hz
      rw [number, hpf, hz]
    · intro f hi hf
      rw [number, hpf, hi, hf]
    · intro hi hf
      rw [number, hpf, hi, hf]

/-- C6 witness: the amended theorem applied at the concrete inputs
`"9 3/4"` (fraction form, non-zero denominator) and `"abc"` (no form at
all). -/
theorem claim_C6_witness :
    number "9 3/4" = .ok (.fraction ((9 : ℚ) + (3 : ℚ) / (4 : ℚ)))
    ∧ number "abc" = .error .valueError :=
  ⟨((claim_C6_amended "9 3/4").2.1 9 3 4
      (((claim_C6_amended "9 3/4").1 9 3 4).mp (by decide))).1 (by decide),
    ((claim_C6_amended "abc").2.2
      (fun i n d hdec =>
        by
          have h1 := ((claim_C6_amended "abc").1 i n d).mpr hdec
          have h2 : parseFrac "abc".toList = none := by decide
          rw [h2] at h1
          cases h1)).2.2 (by decide) (by decide)⟩

/-! ### `recipe_grid.number_formatting` (claim C7) -/

/-- The ASCII digit character for a value below ten. -/
def digitChar (n : ℕ) : Char :=
  Char.ofNat (48 + n)

/-- Decimal digits of a natural number, most significant first
(fuel-based recursion on repeated division by ten). -/
def natReprAux : ℕ → ℕ → List Char
  | 0, _ => []
  | fuel + 1, n =>
    if n < 10 then [digitChar n]
    else natReprAux fuel (n / 10) ++ [digitChar (n % 10)]

/-- Python `str` of a natural number. -/
def natRepr (n : ℕ) : List Char :=
  natReprAux (n + 1) n

/-- Python `str` of an integer. -/
def intRepr (z : ℤ) : List Char :=
  if z < 0 then '-' :: natRepr z.natAbs else natRepr z.natAbs

/-- Floor of the absolute value of a rational, as a natural number. -/
def natFloorAbs (q : ℚ) : ℕ :=
  |q|.num.toNat / |q|.den

/-- The integer-part string produced through `math.modf` and
`f"{integer:.0f}"`: a sign (preserved even for `-0`) followed by the
digits of the truncated absolute value. -/
def intStrChars (q : ℚ) : List Char :=
  (if q < 0 then ['-'] else []) ++ natRepr (natFloorAbs q)

/-- The fractional part of `math.modf`, in absolute value. -/
def fracAbs (q : ℚ) : ℚ :=
  |q| - (natFloorAbs q : ℚ)

/-- Round-half-even of a non-negative rational to a natural number (the
rounding Python applies when formatting with a fixed number of decimal
places). -/
def roundHalfEvenNat (x : ℚ) : ℕ :=
  let f := x.num.toNat / x.den
  let r := x - (f : ℚ)
  if r < 1 / 2 then f
  else if 1 / 2 < r then f + 1
  else if f % 2 = 0 then f else f + 1

/-- Python `round()` on a rational: round-half-even to an integer. -/
def roundHalfEvenInt (q : ℚ) : ℤ :=
  let f := q.num.ediv q.den
  let r := q - (f : ℚ)
  if r < 1 / 2 then f
  else if 1 / 2 < r then f + 1
  else if f % 2 = 0 then f else f + 1

/-- Left-pad a digit string with zeros to the requested width (the
fixed-width decimal places of `f"{x:.{k}f}"`). -/
def zeroPad (k n : ℕ) : List Char :=
  List.replicate (k - (natRepr n).length) '0' ++ natRepr n

/-- Strip trailing zero characters (`.rstrip("0")`). -/
def stripTrailingZeros (l : List Char) : List Char :=
  (l.reverse.dropWhile fun c => c = '0').reverse

/-- `format_float`: show up to `significant_figures` digits after the
decimal point, fewer for each significant digit of the integer part;
trailing zeros and a trailing point are dropped, scientific notation is
never used and integer digits are never dropped. -/
def format_float (q : ℚ) (significant_figures : ℕ := 3) : String :=
  let integer_str := intStrChars q
  let integer_digits :=
    (integer_str.dropWhile fun c => c = '-' || c = '0').length
  let fractional_digits := significant_figures - integer_digits
  let m := roundHalfEvenNat (fracAbs q * (10 : ℚ) ^ fractional_digits)
  let fractional_str :=
    stripTrailingZeros (zeroPad fractional_digits (m % 10 ^ fractional_digits))
  if fractional_str.length = 0 then (intRepr (roundHalfEvenInt q)).asString
  else (integer_str ++ '.' :: fractional_str).asString

/-- The denominators rendered as fractions by `format_fraction`. -/
def allowedDenominators : List ℕ :=
  [2, 3, 4, 5, 6, 7, 8, 12, 16]

/-- `format_fraction`: integers as plain integers, unusual denominators
through the float formatter, improper fractions as mixed numbers. -/
def format_fraction (q : ℚ) : String :=
  if q.den = 1 then (intRepr q.num).asString
  else if q.den ∉ allowedDenominators then format_float q
  else if q.den < q.num.natAbs then
    -- improper fraction: sign, integer part and remainder
    (intRepr ((if q.num < 0 then (-1 : ℤ) else 1) * (q.num.natAbs / q.den))
      ++ ' ' :: (natRepr (q.num.natAbs % q.den) ++ '/' :: natRepr q.den)).asString
  else (intRepr q.num ++ '/' :: natRepr q.den).asString

/-- `format_number`: floats through `format_float`, everything else
(ints and Fractions, both carrying `numerator`/`denominator`) through
`format_fraction`; a non-finite float would raise inside `format_float`
(`round()` of an infinity overflows), modelled as `none`. -/
def format_number : PyNumber → Option String
  | .int z => some (format_fraction (z : ℚ))
  | .fraction q => some (format_fraction q)
  | .float (.finite q) => some (format_float q)
  | .float _ => none

/-- Count of digits shown after the decimal point of a rendered number. -/
def digitsAfterPoint (s : String) : ℕ :=
  ((s.toList.dropWhile fun c => c != '.').drop 1).length

/-- Count of significant digits of a rendered decimal numeral: its
digits with leading zeros dropped. -/
def sigDigitCount (s : String) : ℕ :=
  ((s.toList.filter Char.isDigit).dropWhile fun c => c = '0').length

/-! ### Properties of the float formatter -/

/-- The `integer_digits` quantity of `format_float` (with the default
three significant figures). -/
def intDigitCount (q : ℚ) : ℕ :=
  ((intStrChars q).dropWhile fun c => c = '-' || c = '0').length

/-- The `fractional_digits` quantity of `format_float`. -/
def fracDigitsOf (q : ℚ) : ℕ :=
  3 - intDigitCount q

/-- The `fractional_str` quantity of `format_float`. -/
def fracStrOf (q : ℚ) : List Char :=
  stripTrailingZeros
    (zeroPad (fracDigitsOf q)
      (roundHalfEvenNat (fracAbs q * (10 : ℚ) ^ fracDigitsOf q)
        % 10 ^ fracDigitsOf q))

theorem format_float_eq (q : ℚ) :
    format_float q =
      if (fracStrOf q).length = 0 then (intRepr (roundHalfEvenInt q)).asString
      else (intStrChars q ++ '.' :: fracStrOf q).asString := rfl

theorem digitChar_isDigit (n : ℕ) (h : n < 10) : (digitChar n).isDigit = true := by
  interval_cases n <;> decide

theorem natReprAux_digits :
    ∀ (fuel n : ℕ) (c : Char), c ∈ natReprAux fuel n → c.isDigit = true := by
  intro fuel
  induction fuel with
  | zero => intro n c hc; cases hc
  | succ fuel ih =>
    intro n c hc
    rw [natReprAux] at hc
    by_cases hn : n < 10
    · rw [if_pos hn] at hc
      rcases List.mem_singleton.mp hc with h
      rw [h]
      exact digitChar_isDigit n hn
    · rw [if_neg hn] at hc
      rcases List.mem_append.mp hc with h1 | h2
      · exact ih (n / 10) c h1
      · rw [List.mem_singleton.mp h2]
        exact digitChar_isDigit (n % 10) (Nat.mod_lt n (by norm_num))

theorem natRepr_digits (n : ℕ) (c : Char) (hc : c ∈ natRepr n) :
    c.isDigit = true :=
  natReprAux_digits (n + 1) n c hc

theorem intRepr_chars (z : ℤ) (c : Char) (hc : c ∈ intRepr z) :
    c = '-' ∨ c.isDigit = true := by
  rw [intRepr] at hc
  by_cases hz : z < 0
  · rw [if_pos hz] at hc
    rcases List.mem_cons.mp hc with h1 | h2
    · exact Or.inl h1
    · exact Or.inr (natRepr_digits z.natAbs c h2)
  · rw [if_neg hz] at hc
    exact Or.inr (natRepr_digits z.natAbs c hc)

theorem intStrChars_chars (q : ℚ) (c : Char) (hc : c ∈ intStrChars q) :
    c = '-' ∨ c.isDigit = true := by
  rw [intStrChars] at hc
  rcases List.mem_append.mp hc with h1 | h2
  · by_cases hq : q < 0
    · rw [if_pos hq] at h1
      exact Or.inl (List.mem_singleton.mp h1)
    · rw [if_neg hq] at h1
      cases h1
  · exact Or.inr (natRepr_digits _ c h2)

theorem fracStrOf_chars (q : ℚ) (c : Char) (hc : c ∈ fracStrOf q) :
    c.isDigit = true := by
  rw [fracStrOf, stripTrailingZeros] at hc
  have h2 := List.mem_reverse.mp hc
  have h3 := (List.dropWhile_sublist _).subset h2
  have h1 := List.mem_reverse.mp h3
  rw [zeroPad] at h1
  rcases List.mem_append.mp h1 with h2 | h3
  · rw [List.eq_of_mem_replicate h2]
    decide
  · exact natRepr_digits _ c h3

theorem dropWhile_all_eq_nil (p : Char → Bool) (l : List Char)
    (h : ∀ c ∈ l, p c = true) : l.dropWhile p = [] := by
  have := (takeWhile_block p l [] h (fun c rest he => by cases he)).2
  rwa [List.append_nil] at this

theorem natReprAux_length_le :
    ∀ (fuel n k : ℕ), 0 < k → n < 10 ^ k → n < fuel →
      (natReprAux fuel n).length ≤ k := by
  intro fuel
  induction fuel with
  | zero => intro n k _ _ hf; cases hf
  | succ fuel ih =>
    intro n k hk hnk hf
    rw [natReprAux]
    by_cases hn : n < 10
    · rw [if_pos hn]
      simpa using hk
    · rw [if_neg hn]
      rw [List.length_append]
      have hk2 : 2 ≤ k := by
        by_contra hlt
        have hk1 : k = 1 := by omega
        rw [hk1] at hnk
        simp at hnk
        omega
      have hdiv : n / 10 < 10 ^ (k - 1) := by
        rw [Nat.div_lt_iff_lt_mul (by norm_num)]
        have : 10 ^ (k - 1) * 10 = 10 ^ k := by
          rw [← pow_succ]
          congr 1
          omega
        rw [this]
        exact hnk
      have hfd : n / 10 < fuel := by
        have h1 : n / 10 < n := Nat.div_lt_self (by omega) (by norm_num)
        omega
      have := ih (n / 10) (k - 1) (by omega) hdiv hfd
      simp only [List.length_singleton]
      omega

theorem natRepr_length_le (n k : ℕ) (hk : 0 < k) (h : n < 10 ^ k) :
    (natRepr n).length ≤ k :=
  natReprAux_length_le (n + 1) n k hk h (Nat.lt_succ_self n)

theorem fracDigitsOf_zero_imp (q : ℚ) (h : fracDigitsOf q = 0) :
    fracStrOf q = [] := by
  rw [fracStrOf, h]
  have hm : roundHalfEvenNat (fracAbs q * (10 : ℚ) ^ (0 : ℕ)) % 10 ^ (0 : ℕ) = 0 := by
    simp [Nat.mod_one]
  rw [hm]
  rfl

theorem fracStrOf_length_le (q : ℚ) :
    (fracStrOf q).length ≤ fracDigitsOf q ∨ fracStrOf q = [] := by
  by_cases hk : fracDigitsOf q = 0
  · exact Or.inr (fracDigitsOf_zero_imp q hk)
  · left
    rw [fracStrOf, stripTrailingZeros]
    have h1 : ((zeroPad (fracDigitsOf q)
        (roundHalfEvenNat (fracAbs q * (10 : ℚ) ^ fracDigitsOf q)
          % 10 ^ fracDigitsOf q)).reverse.dropWhile fun c => c = '0').length
        ≤ (zeroPad (fracDigitsOf q) _).reverse.length :=
      (List.dropWhile_sublist _).length_le
    rw [List.length_reverse] at h1
    rw [List.length_reverse]
    refine h1.trans ?_
    rw [zeroPad, List.length_append, List.length_replicate]
    have h2 : (natRepr (roundHalfEvenNat (fracAbs q * (10 : ℚ) ^ fracDigitsOf q)
        % 10 ^ fracDigitsOf q)).length ≤ fracDigitsOf q :=
      natRepr_length_le _ _ (by omega)
        (Nat.mod_lt _ (Nat.pos_pow_of_pos _ (by norm_num)))
    omega

theorem takeWhile_all_eq_self (p : Char → Bool) (l : List Char)
    (h : ∀ c ∈ l, p c = true) : l.takeWhile p = l := by
  have := (takeWhile_block p l [] h (fun c rest he => by cases he)).1
  rwa [List.append_nil] at this

theorem stripTrailingZeros_all_zero (l : List Char)
    (h : ∀ c ∈ l, c = '0') : stripTrailingZeros l = [] := by
  rw [stripTrailingZeros]
  rw [dropWhile_all_eq_nil _ _ (fun c hc => by
    rw [h c (List.mem_reverse.mp hc)]
    rfl)]
  rfl

theorem roundHalfEvenNat_zero : roundHalfEvenNat 0 = 0 := by
  rw [roundHalfEvenNat]
  norm_num

theorem format_float_int (q : ℚ) (h : q.den = 1) :
    format_float q = (intRepr q.num).asString := by
  have hqeq : (q.num : ℚ) = q := by
    have := Rat.num_div_den q
    rw [h] at this
    simpa using this
  have habsden : |q|.den = 1 := by
    rcases le_or_lt 0 q with hq | hq
    · rw [abs_of_nonneg hq, h]
    · rw [abs_of_neg hq, Rat.neg_den, h]
  have habseq : (|q|.num : ℚ) = |q| := by
    have := Rat.num_div_den |q|
    rw [habsden] at this
    simpa using this
  have habsnum : 0 ≤ |q|.num := Rat.num_nonneg.mpr (abs_nonneg q)
  have hfloor : natFloorAbs q = |q|.num.toNat := by
    rw [natFloorAbs, habsden, Nat.div_one]
  have hfrac : fracAbs q = 0 := by
    rw [fracAbs, hfloor]
    rw [show ((|q|.num.toNat : ℕ) : ℚ) = ((|q|.num.toNat : ℤ) : ℚ) by push_cast; ring]
    rw [Int.toNat_of_nonneg habsnum, habseq]
    ring
  have hround : roundHalfEvenInt q = q.num := by
    rw [roundHalfEvenInt, h]
    have he : q.num.ediv ((1 : ℕ) : ℤ) = q.num := by
      rw [Nat.cast_one]
      exact Int.ediv_one q.num
    rw [he, hqeq]
    norm_num
  have hm : roundHalfEvenNat (fracAbs q * (10 : ℚ) ^ fracDigitsOf q) = 0 := by
    rw [hfrac, zero_mul, roundHalfEvenNat_zero]
  have hfs : fracStrOf q = [] := by
    rw [fracStrOf, hm, Nat.zero_mod]
    refine stripTrailingZeros_all_zero _ ?_
    intro c hc
    rw [zeroPad] at hc
    rcases List.mem_append.mp hc with h1 | h2
    · exact List.eq_of_mem_replicate h1
    · rcases List.mem_singleton.mp h2 with h3
      rw [h3]
      decide
  rw [format_float_eq, if_pos (by rw [hfs]; rfl), hround]

theorem format_fraction_fallback (q : ℚ) (h : q.den ∉ allowedDenominators) :
    format_fraction q = format_float q := by
  by_cases h1 : q.den = 1
  · rw [format_fraction, if_pos h1, format_float_int q h1]
  · rw [format_fraction, if_neg h1, if_pos h]

theorem format_float_digitsAfterPoint (q : ℚ) :
    digitsAfterPoint (format_float q) ≤ 3 - intDigitCount q := by
  rw [format_float_eq]
  by_cases hfs : (fracStrOf q).length = 0
  · rw [if_pos hfs, digitsAfterPoint]
    have hlist : (intRepr (roundHalfEvenInt q)).asString.toList =
        intRepr (roundHalfEvenInt q) := rfl
    rw [hlist]
    rw [dropWhile_all_eq_nil _ _ (fun c hc => by
      rcases intRepr_chars _ c hc with h1 | h2
      · rw [h1]; rfl
      · simp only [bne_iff_ne, ne_eq, decide_eq_true_eq]
        intro he
        rw [he] at h2
        exact absurd h2 (by decide))]
    simp
  · rw [if_neg hfs, digitsAfterPoint]
    have hlist : ((intStrChars q ++ '.' :: fracStrOf q).asString).toList =
        intStrChars q ++ '.' :: fracStrOf q := rfl
    rw [hlist]
    have hblock := takeWhile_block (fun c => c != '.') (intStrChars q)
      ('.' :: fracStrOf q)
      (fun c hc => by
        rcases intStrChars_chars q c hc with h1 | h2
        · rw [h1]; rfl
        · simp only [bne_iff_ne, ne_eq, decide_eq_true_eq]
          intro he
          rw [he] at h2
          exact absurd h2 (by decide))
      (fun c rest he => by cases he; rfl)
    rw [hblock.2]
    simp only [List.drop_succ_cons, List.drop_zero]
    rcases fracStrOf_length_le q with h1 | h2
    · exact h1.trans_eq rfl
    · rw [h2] at hfs
      exact absurd rfl hfs

theorem format_float_chars (q : ℚ) (c : Char)
    (hc : c ∈ (format_float q).toList) :
    c = '-' ∨ c = '.' ∨ c.isDigit = true := by
  rw [format_float_eq] at hc
  by_cases hfs : (fracStrOf q).length = 0
  · rw [if_pos hfs] at hc
    rcases intRepr_chars _ c hc with h1 | h2
    · exact Or.inl h1
    · exact Or.inr (Or.inr h2)
  · rw [if_neg hfs] at hc
    have hc2 : c ∈ intStrChars q ++ '.' :: fracStrOf q := hc
    rcases List.mem_append.mp hc2 with h1 | h2
    · rcases intStrChars_chars q c h1 with h3 | h4
      · exact Or.inl h3
      · exact Or.inr (Or.inr h4)
    · rcases List.mem_cons.mp h2 with h3 | h4
      · exact Or.inr (Or.inl h3)
      · exact Or.inr (Or.inr (fracStrOf_chars q c h4))

theorem format_float_no_sci (q : ℚ) :
    'e' ∉ (format_float q).toList ∧ 'E' ∉ (format_float q).toList := by
  constructor
  · intro hc
    rcases format_float_chars q 'e' hc with h | h | h <;> exact absurd h (by decide)
  · intro hc
    rcases format_float_chars q 'E' hc with h | h | h <;> exact absurd h (by decide)

theorem format_float_beforePoint (q : ℚ) :
    (format_float q).toList.takeWhile (fun c => c != '.') = intStrChars q
    ∨ (format_float q).toList.takeWhile (fun c => c != '.') =
        intRepr (roundHalfEvenInt q) := by
  rw [format_float_eq]
  by_cases hfs : (fracStrOf q).length = 0
  · rw [if_pos hfs]
    right
    refine takeWhile_all_eq_self _ _ ?_
    intro c hc
    rcases intRepr_chars _ c hc with h1 | h2
    · rw [h1]; rfl
    · simp only [bne_iff_ne, ne_eq, decide_eq_true_eq]
      intro he
      rw [he] at h2
      exact absurd h2 (by decide)
  · rw [if_neg hfs]
    left
    have hblock := takeWhile_block (fun c => c != '.') (intStrChars q)
      ('.' :: fracStrOf q)
      (fun c hc => by
        rcases intStrChars_chars q c hc with h1 | h2
        · rw [h1]; rfl
        · simp only [bne_iff_ne, ne_eq, decide_eq_true_eq]
          intro he
          rw [he] at h2
          exact absurd h2 (by decide))
      (fun c rest he => by cases he; rfl)
    exact hblock.1

/-- C7 counterexample: the claim states that float formatting shows at
most 3 significant digits for every float input, but `1234.5` is
rendered as `"1234"`, which has four significant digits (integer digits
are never dropped, so the two requirements conflict). -/
theorem claim_C7_counterexample :
    format_float (2469 / 2) = "1234"
    ∧ sigDigitCount "1234" = 4
    ∧ ¬(4 ≤ 3) := by
  refine ⟨by with_unfolding_all decide, by decide, by decide⟩

/-- C7 (amended): the concrete renderings hold
(`format_number(Fraction(4,3)) = "1 1/3"`,
`format_float(0.12345) = "0.123"`, `format_float(123.45) = "123"`);
float formatting shows at most `3 - d` digits after the decimal point
where `d` counts the significant integer digits, never uses scientific
notation, never drops digits before the decimal point (the characters
before the point are exactly the integer-part string, or the rounded
integer when no fractional digits survive), and fractions whose
denominator is not in `{2,3,4,5,6,7,8,12,16}` render exactly as the
float formatter renders them.  The claim's "at most 3 significant
digits in total" is dropped: it fails for four-digit integer parts. -/
theorem claim_C7_amended :
    format_number (.fraction (4 / 3)) = some "1 1/3"
    ∧ format_float (12345 / 100000) = "0.123"
    ∧ format_float (12345 / 100) = "123"
    ∧ (∀ q : ℚ, digitsAfterPoint (format_float q) ≤ 3 - intDigitCount q)
    ∧ (∀ q : ℚ, 'e' ∉ (format_float q).toList ∧ 'E' ∉ (format_float q).toList)
    ∧ (∀ q : ℚ,
        (format_float q).toList.takeWhile (fun c => c != '.') = intStrChars q
        ∨ (format_float q).toList.takeWhile (fun c => c != '.') =
            intRepr (roundHalfEvenInt q))
    ∧ (∀ q : ℚ, q.den ∉ allowedDenominators →
        format_fraction q = format_float q) :=
  ⟨by with_unfolding_all decide, by with_unfolding_all decide,
    by with_unfolding_all decide, format_float_digitsAfterPoint,
    format_float_no_sci, format_float_beforePoint,
    fun q h => format_fraction_fallback q h⟩

/-- C7 witness: the amended theorem applied at `1/10`, whose denominator
is not an allowed fraction denominator. -/
theorem claim_C7_witness :
    ((1 : ℚ) / 10).den ∉ allowedDenominators
    ∧ format_fraction (1 / 10) = format_float (1 / 10) :=
  ⟨by with_unfolding_all decide,
    claim_C7_amended.2.2.2.2.2.2 (1 / 10) (by with_unfolding_all decide)⟩

/-! ### `recipe_grid.lint` (claim C5) -/

/-- Kinds of lint. -/
inductive LintKind
  | unused_ingredient
  | sub_recipe_quantity_unknown
  | sub_recipe_reference_incompatible_units
  | sub_recipe_reference_non_positive_remainder
  | sub_recipe_not_used_up
  | sub_recipe_used_too_much
deriving DecidableEq

/-- A description of a piece of lint found in a recipe. -/
structure Lint where
  kind : LintKind
  description : String
deriving DecidableEq

/-- Python runtime errors the lint checks can hit while iterating
(divide by zero, sequence indexing, missing attributes). -/
inductive LintExecError
  | zeroDivisionError
  | indexError
  | attributeError
deriving DecidableEq

instance : Inhabited ScaledValueString :=
  ⟨⟨[], rfl⟩⟩

/-- Python `str()` of a `ScaledValueString`: concatenate the parts,
formatting numeric parts with `format_number` (numeric parts are exact
rationals here, rendered through `format_fraction`). -/
def ScaledValueString.render (s : ScaledValueString) : String :=
  s.parts.foldl
    (fun acc p =>
      acc ++ match p with
      | .str t => t
      | .num q => format_fraction q)
    ""

/-- Python `str()` of an amount value (ints and Fractions; exact
rational semantics). -/
def ratStr (q : ℚ) : String :=
  if q.den = 1 then (intRepr q.num).asString
  else ((intRepr q.num) ++ '/' :: natRepr q.den).asString

/-- Python `str()` of an optional unit (`str(None) = "None"`). -/
def unitStr : Option String → String
  | none => "None"
  | some u => u

/-- Python `int()` truncation of a rational toward zero. -/
def ratTrunc (q : ℚ) : ℤ :=
  if q < 0 then -(natFloorAbs q : ℤ) else (natFloorAbs q : ℤ)

/-- Code-point lexicographic comparison of character lists (Python
string `<`). -/
def charListLt : List Char → List Char → Bool
  | [], [] => false
  | [], _ :: _ => true
  | _ :: _, [] => false
  | a :: as, b :: bs =>
    if a.val < b.val then true
    else if b.val < a.val then false
    else charListLt as bs

/-- Python string `<`. -/
def strLtB (a b : String) : Bool :=
  charListLt a.toList b.toList

/-- Stable insertion into a key-sorted list (ascending). -/
def insertByKey (key : RecipeTreeNode → String) (x : RecipeTreeNode) :
    List RecipeTreeNode → List RecipeTreeNode
  | [] => [x]
  | y :: ys =>
    if strLtB (key x) (key y) then x :: y :: ys else y :: insertByKey key x ys

/-- Python `sorted` with a key function (stable ascending sort). -/
def sortByKey (key : RecipeTreeNode → String) :
    List RecipeTreeNode → List RecipeTreeNode
  | [] => []
  | x :: xs => insertByKey key x (sortByKey key xs)

/-- Keep the first occurrence of each element (Python set contents in
first-insertion order). -/
def dedupKeepFirst (seen : List RecipeTreeNode) :
    List RecipeTreeNode → List RecipeTreeNode
  | [] => []
  | x :: xs =>
    if x ∈ seen then dedupKeepFirst seen xs
    else x :: dedupKeepFirst (x :: seen) xs

mutual

/-- The traversal of `check_for_unused_ingredients`: returns the
implicit single-ingredient sub recipes and the referenced sub recipes.
References are not recursed into, and `SubRecipe` nodes contribute no
children through `iter_children`. -/
def collectUnused : RecipeTreeNode → List RecipeTreeNode × List RecipeTreeNode
  | .reference sub _ _ => ([], [sub])
  | .subRecipe t ns sh =>
    (if ns.length = 1 ∧ sh = false then [.subRecipe t ns sh] else [], [])
  | .step _ inputs => collectUnusedList inputs
  | .ingredient _ _ => ([], [])

def collectUnusedList :
    List RecipeTreeNode → List RecipeTreeNode × List RecipeTreeNode
  | [] => ([], [])
  | x :: xs =>
    let a := collectUnused x
    let b := collectUnusedList xs
    (a.1 ++ b.1, a.2 ++ b.2)

end

/-- `check_for_unused_ingredients`. -/
def check_for_unused_ingredients (recipe_blocks : List Recipe) : List Lint :=
  let pairs := collectUnusedList (recipe_blocks.flatMap Recipe.recipe_trees)
  let implicit := dedupKeepFirst [] pairs.1
  let unused := implicit.filter fun n => decide (n ∉ pairs.2)
  let sorted := sortByKey (fun n => ((outputNamesOf n).headD default).render) unused
  sorted.map fun n =>
    Lint.mk .unused_ingredient
      ("Ingredient \x27" ++ ((outputNamesOf n).headD default).render
        ++ "\x27 was defined but never used.")

mutual

/-- The traversal of `check_sub_recipe_references_sum_to_whole`:
collect every `Reference` node in order (references themselves are not
recursed into). -/
def collectRefNodes : RecipeTreeNode → List RecipeTreeNode
  | .reference sub oi a => [.reference sub oi a]
  | .step _ inputs => collectRefNodesList inputs
  | .ingredient _ _ => []
  | .subRecipe _ _ _ => []

def collectRefNodesList : List RecipeTreeNode → List RecipeTreeNode
  | [] => []
  | x :: xs => collectRefNodes x ++ collectRefNodesList xs

end

/-- Add one reference to the nested insertion-ordered mapping
`sub_recipe_references[sub_recipe][output_index]`. -/
def addRefEntry
    (acc : List (RecipeTreeNode × List (ℤ × List RecipeTreeNode)))
    (sub : RecipeTreeNode) (oi : ℤ) (r : RecipeTreeNode) :
    List (RecipeTreeNode × List (ℤ × List RecipeTreeNode)) :=
  match acc with
  | [] => [(sub, [(oi, [r])])]
  | (s, m) :: rest =>
    if s = sub then
      let m2 :=
        match m.lookup oi with
        | some rs => m.map fun e => if e.1 = oi then (e.1, rs ++ [r]) else e
        | none => m ++ [(oi, [r])]
      (s, m2) :: rest
    else (s, m) :: addRefEntry rest sub oi r

/-- Build the nested reference mapping from the collected references. -/
def buildRefMap (refs : List RecipeTreeNode) :
    List (RecipeTreeNode × List (ℤ × List RecipeTreeNode)) :=
  refs.foldl
    (fun acc r =>
      match r with
      | .reference sub oi a => addRefEntry acc sub oi (.reference sub oi a)
      | _ => acc)
    []

/-- Python sequence indexing (negative indices count from the end; out
of range raises `IndexError`). -/
def pyIndex (l : List ScaledValueString) (i : ℤ) : Option ScaledValueString :=
  if 0 ≤ i ∧ i < l.length then l.get? i.toNat
  else if -(l.length : ℤ) ≤ i ∧ i < 0 then l.get? (l.length - (-i).toNat)
  else none

/-- The single-chain peeling of the sum-to-whole check: follow
single-input steps down to the underlying node. -/
def peelSteps : RecipeTreeNode → RecipeTreeNode
  | .step _ [input] => peelSteps input
  | n => n

/-- One reference of the sum-to-whole loop: updates the
`(problem_encountered, used_proportion, lints)` state, raising
`ZeroDivisionError` when the known total quantity value is zero. -/
def processReference (total_quantity : Option Quantity) (output_name : String)
    (st : Bool × ℚ × List Lint) (ref : RecipeTreeNode) :
    Except LintExecError (Bool × ℚ × List Lint) :=
  let problem := st.1
  let used := st.2.1
  let lints := st.2.2
  match refAmount ref with
  | some (.quantity amt) =>
    match total_quantity with
    | none =>
      .ok (true, used, lints ++
        [⟨.sub_recipe_quantity_unknown,
          "A quantity (" ++ ratStr amt.value ++ " " ++ unitStr amt.unit
            ++ ") of " ++ output_name
            ++ " was referenced but the total amount is not known so cannot be checked."⟩])
    | some tq =>
      let conversion : Option ℚ :=
        match amt.unit, tq.unit with
        | some au, some tu => convert_between (pyLower au) (pyLower tu)
        | none, none => some 1
        | _, _ => none
      match conversion with
      | none =>
        .ok (true, used, lints ++
          [⟨.sub_recipe_reference_incompatible_units,
            "A reference to sub recipe " ++ output_name
              ++ " is given using Incompatible units: " ++ unitStr amt.unit⟩])
      | some conv =>
        if tq.value = 0 then .error .zeroDivisionError
        else .ok (problem, used + (amt.value * conv) / tq.value, lints)
  | some (.proportion p) =>
    match p.value with
    | none =>
      if used ≥ 1 then
        .ok (true, max 1 used, lints ++
          [⟨.sub_recipe_reference_non_positive_remainder,
            "A reference to the remainder of recipe " ++ output_name
              ++ " was made while none remains unused."⟩])
      else .ok (problem, max 1 used, lints)
    | some v => .ok (problem, used + v, lints)
  | none => .error .attributeError

/-- The closing classification of one output of the sum-to-whole check. -/
def classifyUsage (output_name : String) (problem : Bool) (used : ℚ) :
    List Lint :=
  if problem then []
  else
    let perc := ratTrunc (used * 100)
    if |used - 1| ≤ max ((2 / 100) * max |used| 1) 0 then []
    else if used < 1 then
      [⟨.sub_recipe_not_used_up,
        "Not all of " ++ output_name ++ " was used (about "
          ++ (intRepr (100 - perc)).asString ++ "% remains unused)."⟩]
    else
      [⟨.sub_recipe_used_too_much,
        "More of " ++ output_name ++ " was used than is available (about "
          ++ (intRepr perc).asString ++ "% of the total amount used)."⟩]

/-- The per-output body of `check_sub_recipe_references_sum_to_whole`. -/
def checkOneOutput (sub : RecipeTreeNode) (oi : ℤ)
    (refs : List RecipeTreeNode) : Except LintExecError (List Lint) := do
  let output_name ←
    match pyIndex (outputNamesOf sub) oi with
    | some sv => pure sv.render
    | none => throw .indexError
  let node := peelSteps (subTreeOf sub)
  let total_quantity :=
    match node with
    | .ingredient _ q => if (outputNamesOf sub).length = 1 then q else none
    | _ => none
  let st ← refs.foldlM (processReference total_quantity output_name) (false, 0, [])
  pure (st.2.2 ++ classifyUsage output_name st.1 st.2.1)

/-- `check_sub_recipe_references_sum_to_whole`. -/
def check_sub_recipe_references_sum_to_whole (recipe_blocks : List Recipe) :
    Except LintExecError (List Lint) := do
  let refMap := buildRefMap
    (collectRefNodesList (recipe_blocks.flatMap Recipe.recipe_trees))
  let lints ← refMap.foldlM
    (fun acc e => do
      let inner ← e.2.foldlM
        (fun acc2 oe => do
          let ls ← checkOneOutput e.1 oe.1 oe.2
          pure (acc2 ++ ls))
        []
      pure (acc ++ inner))
    []
  pure lints

/-- The lint entry point `check`: run both checks in order. -/
def check (recipe_blocks : List Recipe) : Except LintExecError (List Lint) := do
  let unused := check_for_unused_ingredients recipe_blocks
  let sums ← check_sub_recipe_references_sum_to_whole recipe_blocks
  pure (unused ++ sums)

mutual

def Recipe.beq : Recipe → Recipe → Bool
  | .mk t1 f1, .mk t2 f2 => t1 == t2 && Recipe.beqFollows f1 f2

def Recipe.beqFollows : Option Recipe → Option Recipe → Bool
  | none, none => true
  | some a, some b => Recipe.beq a b
  | _, _ => false

end

mutual

theorem Recipe.beq_iff_recipe : ∀ a b : Recipe, Recipe.beq a b = true ↔ a = b
  | .mk t1 f1, .mk t2 f2 => by
    rw [Recipe.beq, Bool.and_eq_true]
    rw [Recipe.beqFollows_iff f1 f2]
    simp

theorem Recipe.beqFollows_iff :
    ∀ a b : Option Recipe, Recipe.beqFollows a b = true ↔ a = b
  | none, none => by simp [Recipe.beqFollows]
  | none, some _ => by simp [Recipe.beqFollows]
  | some _, none => by simp [Recipe.beqFollows]
  | some a, some b => by
    rw [Recipe.beqFollows, Recipe.beq_iff_recipe a b]
    simp

end

instance : DecidableEq Recipe := fun a b =>
  decidable_of_iff _ (Recipe.beq_iff_recipe a b)

/-- A valid recipe whose sub recipe has a zero total quantity (0g of
spam) and is referenced with an absolute quantity (5g). -/
def srSpamZero : RecipeTreeNode :=
  .subRecipe (.ingredient (svsMk [.str "spam"]) (some ⟨0, some "g", "", ""⟩))
    [svsMk [.str "spam"]] true

/-- Reference consuming 5g of the zero-quantity sub recipe. -/
def refSpamFive : RecipeTreeNode :=
  .reference srSpamZero 0 (.quantity ⟨5, some "g", "", ""⟩)

/-- The failing lint input: a recipe the `Recipe` constructor accepts. -/
def lintFailingRecipe : Recipe :=
  .mk [srSpamZero, refSpamFive] none

/-- C5: the lint entry point is claimed never to raise on valid
recipes, and in particular to tolerate a referenced sub recipe whose
total quantity value is zero; but on the accepted recipe
`0g spam; Reference(5g of spam)` the sum-to-whole check divides by the
zero total (`quantity_used / total_quantity.value`) and raises
`ZeroDivisionError`. -/
theorem claim_C5_bug :
    mkRecipe [srSpamZero, refSpamFive] none = .ok lintFailingRecipe
    ∧ check [lintFailingRecipe] = .error .zeroDivisionError := by
  constructor
  · with_unfolding_all decide
  · with_unfolding_all decide

/-! ### `recipe_grid.renderer.table` (claim C4) -/

/-- Border styles of a cell (`BorderType`). -/
inductive BorderType
  | none
  | normal
  | sub_recipe
deriving DecidableEq

/-- A table cell spanning `rows × columns` grid positions (`Cell`).
Python `int` fields are modelled as `ℤ`. -/
structure Cell (α : Type) where
  value : α
  rows : ℤ
  columns : ℤ
  border_left : BorderType
  border_right : BorderType
  border_top : BorderType
  border_bottom : BorderType
deriving DecidableEq

/-- An entry of the 2D cell array: either a `Cell` or an `ExtendedCell`
(a dummy entry recording the covering cell and the coordinate delta to
it). -/
inductive TableCell (α : Type)
  | cell (c : Cell α)
  | extended (cell : Cell α) (drow : ℤ) (dcolumn : ℤ)
deriving DecidableEq

/-- The exceptions escaping `Table.__post_init__` and `Table.from_dict`
(exception arguments are omitted).  `valueError` is the uncaught Python
`ValueError` from `list.remove`, `indexError` the uncaught Python
`IndexError` from the list assignments in `from_dict`. -/
inductive TableError
  | emptyTable
  | missingCell
  | cellExpected
  | extendedCellExpected
  | extendedCellReference
  | extendedCellCoordinate
  | valueError
  | indexError
deriving DecidableEq

/-- Python sequence read `l[i]` (negative indices count from the end;
out of range is `IndexError`, modelled as `none`). -/
def pyGet {β : Type} (l : List β) (i : ℤ) : Option β :=
  if 0 ≤ i ∧ i < l.length then l.get? i.toNat
  else if -(l.length : ℤ) ≤ i ∧ i < 0 then l.get? (l.length - (-i).toNat)
  else none

/-- Python sequence write `l[i] = v` (negative indices count from the
end; out of range is `IndexError`, modelled as `none`). -/
def pySet {β : Type} (l : List β) (i : ℤ) (v : β) : Option (List β) :=
  if 0 ≤ i ∧ i < l.length then some (l.set i.toNat v)
  else if -(l.length : ℤ) ≤ i ∧ i < 0 then some (l.set (l.length - (-i).toNat) v)
  else none

/-- `self[row, column]`, i.e. `self.cells[row][column]`. -/
def tblGet {β : Type} (g : List (List β)) (r c : ℤ) : Option β :=
  match pyGet g r with
  | Option.none => Option.none
  | some row => pyGet row c

/-- `cells[row][column] = v`: read the row, update it, and store the
updated row back. -/
def tblSet {β : Type} (g : List (List β)) (r c : ℤ) (v : β) :
    Option (List (List β)) :=
  match pyGet g r with
  | Option.none => Option.none
  | some row =>
    match pySet row c v with
    | Option.none => Option.none
    | some row2 => pySet g r row2

/-- Python `range(lo, hi)` over integers. -/
def rangeZ (lo hi : ℤ) : List ℤ :=
  List.map (fun k : ℕ => lo + (k : ℤ)) (List.range (hi - lo).toNat)

/-- The positions spanned by a cell anchored at `(r, c)` extending over
`rows × cols` positions, in the iteration order of the nested `range`
loops. -/
def spanPositions (r c rows cols : ℤ) : List (ℤ × ℤ) :=
  (rangeZ r (r + rows)).flatMap
    (fun er => (rangeZ c (c + cols)).map (fun ec => (er, ec)))

/-- `[(r, c), (r, c+1), ..., (r, c+n-1)]`: one row of grid positions. -/
def colPositions (r c : ℤ) : ℕ → List (ℤ × ℤ)
  | 0 => []
  | n + 1 => (r, c) :: colPositions r (c + 1) n

/-- `[(row, column) for row in range(nrows) for column in
range(ncols)]`, rows starting at `r`. -/
def gridPositions (r : ℤ) (ncols : ℕ) : ℕ → List (ℤ × ℤ)
  | 0 => []
  | n + 1 => colPositions r 0 ncols ++ gridPositions (r + 1) ncols n

/-- The positions of the entries actually present in one row of the
cell array. -/
def rowPositions {β : Type} (r : ℤ) (c : ℤ) : List β → List (ℤ × ℤ)
  | [] => []
  | _ :: xs => (r, c) :: rowPositions r (c + 1) xs

/-- `[(row, column) for (row, column), _cell in self]`: the positions
of the entries actually present in the cell array. -/
def presentPositions {β : Type} (r : ℤ) : List (List β) → List (ℤ × ℤ)
  | [] => []
  | row :: rest => rowPositions r 0 row ++ presentPositions (r + 1) rest

theorem mem_rangeZ {a lo hi : ℤ} : a ∈ rangeZ lo hi ↔ lo ≤ a ∧ a < hi := by
  rw [rangeZ]
  constructor
  · intro h
    obtain ⟨k, hk, hak⟩ := List.mem_map.mp h
    rw [List.mem_range] at hk
    omega
  · intro ⟨h1, h2⟩
    refine List.mem_map.mpr ⟨(a - lo).toNat, ?_, by omega⟩
    rw [List.mem_range]
    omega

theorem mem_spanPositions {er ec r c rows cols : ℤ} :
    (er, ec) ∈ spanPositions r c rows cols ↔
      (r ≤ er ∧ er < r + rows) ∧ (c ≤ ec ∧ ec < c + cols) := by
  rw [spanPositions]
  constructor
  · intro h
    obtain ⟨x, hx, hmem⟩ := List.mem_flatMap.mp h
    obtain ⟨y, hy, hxy⟩ := List.mem_map.mp hmem
    obtain ⟨h1, h2⟩ := Prod.mk.injEq .. ▸ hxy
    subst h1; subst h2
    exact ⟨mem_rangeZ.mp hx, mem_rangeZ.mp hy⟩
  · intro ⟨h1, h2⟩
    exact List.mem_flatMap.mpr ⟨er, mem_rangeZ.mpr h1,
      List.mem_map.mpr ⟨ec, mem_rangeZ.mpr h2, rfl⟩⟩

theorem mem_colPositions {p : ℤ × ℤ} {r c : ℤ} :
    ∀ {n : ℕ}, p ∈ colPositions r c n ↔ p.1 = r ∧ c ≤ p.2 ∧ p.2 < c + n := by
  intro n
  induction n generalizing c with
  | zero =>
    simp only [colPositions, List.not_mem_nil, false_iff]
    omega
  | succ m ih =>
    rw [colPositions, List.mem_cons, ih]
    constructor
    · intro h
      rcases h with h | h
      · subst h; omega
      · omega
    · intro ⟨h1, h2, h3⟩
      by_cases hc : p.2 = c
      · left
        obtain ⟨a, b⟩ := p
        simp only at h1 hc
        rw [h1, hc]
      · right; omega

theorem mem_gridPositions {p : ℤ × ℤ} {r : ℤ} {ncols : ℕ} :
    ∀ {n : ℕ}, p ∈ gridPositions r ncols n ↔
      r ≤ p.1 ∧ p.1 < r + n ∧ 0 ≤ p.2 ∧ p.2 < ncols := by
  intro n
  induction n generalizing r with
  | zero =>
    simp only [gridPositions, List.not_mem_nil, false_iff]
    omega
  | succ m ih =>
    rw [gridPositions, List.mem_append, ih, mem_colPositions]
    omega

/-- The inner loop of `Table.__post_init__` checking the extended cells
of a multi-row/column cell anchored at `(r, c)`: each spanned position
other than the anchor must hold an `ExtendedCell` referencing an equal
cell with the right coordinate deltas, and is then removed from the
`to_check` list (`list.remove` raises `ValueError` when absent). -/
def spanCheck {α : Type} [DecidableEq α] (cells : List (List (TableCell α)))
    (cl : Cell α) (r c : ℤ) :
    List (ℤ × ℤ) → List (ℤ × ℤ) → Except TableError (List (ℤ × ℤ))
  | [], tc => .ok tc
  | (er, ec) :: ps, tc =>
    if er = r ∧ ec = c then spanCheck cells cl r c ps tc
    else
      match tblGet cells er ec with
      | Option.none => .error .missingCell
      | some (.cell _) => .error .extendedCellExpected
      | some (.extended ecl dr dc) =>
        if ecl ≠ cl then .error .extendedCellReference
        else if dr ≠ er - r ∨ dc ≠ ec - c then .error .extendedCellCoordinate
        else if (er, ec) ∈ tc then spanCheck cells cl r c ps (tc.erase (er, ec))
        else .error .valueError

/-- The `while to_check:` loop of `Table.__post_init__`.  The loop pops
the head of `to_check`, which must hold a `Cell`, and for cells
spanning more than one position verifies and removes the spanned
positions.  `fuel` bounds the number of iterations; since every
iteration strictly shrinks the list, `fuel = to_check.length` always
suffices and the `0` case is unreachable. -/
def checkLoop {α : Type} [DecidableEq α] (cells : List (List (TableCell α))) :
    ℕ → List (ℤ × ℤ) → Except TableError Unit
  | _, [] => .ok ()
  | 0, _ :: _ => .error .valueError
  | fuel + 1, (r, c) :: rest =>
    match tblGet cells r c with
    | Option.none => .error .missingCell
    | some (.extended _ _ _) => .error .cellExpected
    | some (.cell cl) =>
      if cl.columns ≠ 1 ∨ cl.rows ≠ 1 then
        match spanCheck cells cl r c
            (spanPositions r c cl.rows cl.columns) rest with
        | .error e => .error e
        | .ok rest2 => checkLoop cells fuel rest2
      else checkLoop cells fuel rest

/-- `Table.__post_init__`: an empty table is rejected, the present
positions must be exactly the `rows × columns` grid in raster order
(the error's coordinate payload is omitted), and the span consistency
loop must pass. -/
def tableCheck {α : Type} [DecidableEq α] (cells : List (List (TableCell α))) :
    Except TableError Unit :=
  if cells.length = 0 ∨ (cells.headD []).length = 0 then .error .emptyTable
  else
    let to_check := gridPositions 0 (cells.headD []).length cells.length
    if presentPositions 0 cells ≠ to_check then .error .missingCell
    else checkLoop cells to_check.length to_check

/-- Constructing `Table(cells)`: run `__post_init__` and return the
validated cell array. -/
def mkTable {α : Type} [DecidableEq α] (cells : List (List (TableCell α))) :
    Except TableError (List (List (TableCell α))) :=
  match tableCheck cells with
  | .error e => .error e
  | .ok _ => .ok cells

/-- One row of `Table.to_dict`: keep the `Cell` entries with their
positions. -/
def toDictRow {α : Type} (r c : ℤ) :
    List (TableCell α) → List ((ℤ × ℤ) × Cell α)
  | [] => []
  | .cell cl :: xs => ((r, c), cl) :: toDictRow r (c + 1) xs
  | .extended _ _ _ :: xs => toDictRow r (c + 1) xs

/-- `Table.to_dict` over the rows starting at row index `r`. -/
def toDictFrom {α : Type} (r : ℤ) :
    List (List (TableCell α)) → List ((ℤ × ℤ) × Cell α)
  | [] => []
  | row :: rest => toDictRow r 0 row ++ toDictFrom (r + 1) rest

/-- `Table.to_dict`: the mapping from `(row, column)` to the `Cell`
entries (omitting `ExtendedCell`s), in raster order. -/
def to_dict {α : Type} (cells : List (List (TableCell α))) :
    List ((ℤ × ℤ) × Cell α) :=
  toDictFrom 0 cells

/-- Python `max` over a list of integers (the `[]` value is irrelevant:
the empty case raises `ValueError`, handled separately at the call
site). -/
def maxZ : List ℤ → ℤ
  | [] => 0
  | x :: xs => xs.foldl max x

/-- The extended-cell fill loops of `Table.from_dict` for one cell
anchored at `(r, c)`: write an `ExtendedCell` at every spanned delta
other than `(0, 0)`. -/
def fillSpan {α : Type} (r c : ℤ) (cl : Cell α) :
    List (List (Option (TableCell α))) → List (ℤ × ℤ) →
      Option (List (List (Option (TableCell α))))
  | g, [] => some g
  | g, (dr, dc) :: rest =>
    if dr = 0 ∧ dc = 0 then fillSpan r c cl g rest
    else
      match tblSet g (r + dr) (c + dc) (some (.extended cl dr dc)) with
      | Option.none => Option.none
      | some g2 => fillSpan r c cl g2 rest

/-- Processing one `table_dict` item in `Table.from_dict`: write the
`Cell` at its position, then fill its extended cells. -/
def fillEntry {α : Type} (g : List (List (Option (TableCell α))))
    (r c : ℤ) (cl : Cell α) : Option (List (List (Option (TableCell α)))) :=
  match tblSet g r c (some (.cell cl)) with
  | Option.none => Option.none
  | some g2 => fillSpan r c cl g2 (spanPositions 0 0 cl.rows cl.columns)

/-- The population loop of `Table.from_dict` over all items. -/
def fillAll {α : Type} :
    List (List (Option (TableCell α))) → List ((ℤ × ℤ) × Cell α) →
      Option (List (List (Option (TableCell α))))
  | g, [] => some g
  | g, ((r, c), cl) :: rest =>
    match fillEntry g r c cl with
    | Option.none => Option.none
    | some g2 => fillAll g2 rest

/-- The missing-cell scan and cast at the end of `Table.from_dict`: a
`None` entry is a `MissingCellError` (its coordinate payload is
omitted), otherwise the optional layer is stripped. -/
def unwrapGrid {β : Type} (g : List (List (Option β))) : Option (List (List β)) :=
  g.mapM (fun row => row.mapM id)

/-- `Table.from_dict`: compute the table dimensions (`max` on an empty
dict raises `ValueError`, re-raised as `EmptyTableError`), populate a
`rows × columns` grid of `None`s (an out-of-range write is an uncaught
Python `IndexError`), reject missing cells, and construct the `Table`
(running `__post_init__`). -/
def from_dict {α : Type} [DecidableEq α] (d : List ((ℤ × ℤ) × Cell α)) :
    Except TableError (List (List (TableCell α))) :=
  if d.isEmpty then .error .emptyTable
  else
    let rows := maxZ (d.map (fun e => e.1.1 + e.2.rows))
    let columns := maxZ (d.map (fun e => e.1.2 + e.2.columns))
    match fillAll (List.replicate rows.toNat
        (List.replicate columns.toNat Option.none)) d with
    | Option.none => .error .indexError
    | some g =>
      match unwrapGrid g with
      | Option.none => .error .missingCell
      | some cells => mkTable cells

/-- `q` is the anchor of a `Cell` of the table whose footprint covers
the grid position `(r, c)`. -/
def originCovers {α : Type} (cells : List (List (TableCell α)))
    (q : ℤ × ℤ) (r c : ℤ) : Prop :=
  0 ≤ q.1 ∧ 0 ≤ q.2 ∧
    ∃ cl : Cell α, tblGet cells q.1 q.2 = some (.cell cl) ∧
      q.1 ≤ r ∧ r < q.1 + cl.rows ∧ q.2 ≤ c ∧ c < q.2 + cl.columns

/-- All positions spanned by the cell `cl` anchored at `(r, c)`, other
than the anchor itself, hold matching `ExtendedCell` entries. -/
def OkSpan {α : Type} (cells : List (List (TableCell α)))
    (r c : ℤ) (cl : Cell α) : Prop :=
  ∀ er ec, (er, ec) ∈ spanPositions r c cl.rows cl.columns →
    ¬(er = r ∧ ec = c) →
    tblGet cells er ec = some (.extended cl (er - r) (ec - c))

/-- Whether a table entry is a `Cell` with a footprint of at least one
row and one column (`ExtendedCell` entries pass trivially). -/
def cellSpansPos {α : Type} : TableCell α → Bool
  | .cell cl => decide (1 ≤ cl.rows) && decide (1 ≤ cl.columns)
  | .extended _ _ _ => true

/-- A cell with a `0 × 0` footprint. -/
def zeroSpanCell : Cell ℕ :=
  ⟨0, 0, 0, .normal, .normal, .normal, .normal⟩

/-- A 1×1 table whose only entry is a cell with a `0 × 0` footprint. -/
def zeroSpanTable : List (List (TableCell ℕ)) :=
  [[.cell zeroSpanCell]]

/-- C4 is wrong on zero-span cells: `zeroSpanTable` is accepted by the
`Table` constructor, yet its single grid position is covered by no
cell footprint (the footprints sum to `0`, not `1`), and
`from_dict(to_dict(t))` raises an uncaught `IndexError` (the computed
dimensions are `0 × 0`, so the first list assignment is out of range)
instead of returning a table equal to `t`. -/
theorem claim_C4_counterexample :
    tableCheck zeroSpanTable = .ok ()
    ∧ ¬(∃ q : ℤ × ℤ, originCovers zeroSpanTable q 0 0)
    ∧ from_dict (to_dict zeroSpanTable) = .error .indexError := by
  refine ⟨by decide, ?_, by decide⟩
  intro ⟨⟨qr, qc⟩, hr, hc, cl, hget, h1, h2, h3, h4⟩
  have hqr : qr = 0 ∧ qc = 0 ∧ cl = zeroSpanCell := by
    rw [tblGet] at hget
    cases hg : pyGet zeroSpanTable qr with
    | none => rw [hg] at hget; cases hget
    | some row =>
      rw [hg] at hget
      simp only [pyGet] at hg
      by_cases hb : 0 ≤ qr ∧ qr < (zeroSpanTable : List _).length
      · rw [if_pos hb] at hg
        have hqr0 : qr = 0 := by
          have := hb.2
          simp only [zeroSpanTable, List.length_cons, List.length_nil] at this
          omega
        subst hqr0
        have hrow : row = [TableCell.cell zeroSpanCell] := by
          simpa [zeroSpanTable] using hg.symm
        subst hrow
        simp only [pyGet] at hget
        by_cases hb2 : 0 ≤ qc ∧ qc < ([TableCell.cell zeroSpanCell] : List _).length
        · rw [if_pos hb2] at hget
          have hqc0 : qc = 0 := by
            have := hb2.2
            simp only [List.length_cons, List.length_nil] at this
            omega
          subst hqc0
          refine ⟨rfl, rfl, ?_⟩
          have := hget
          simp at this
          exact this.symm
        · rw [if_neg hb2] at hget
          split at hget
          · exact absurd hget (by simp; omega)
          · cases hget
      · rw [if_neg hb] at hg
        split at hg
        · exact absurd hg (by
            have : (zeroSpanTable : List _).length = 1 := rfl
            simp
            omega)
        · cases hg
  obtain ⟨hq1, hq2, hcl⟩ := hqr
  subst hq1; subst hq2; subst hcl
  simp only [zeroSpanCell] at h2
  omega

theorem pyGet_nonneg {β : Type} {l : List β} {i : ℤ} (h : 0 ≤ i) :
    pyGet l i = l.get? i.toNat := by
  rw [pyGet]
  by_cases hb : 0 ≤ i ∧ i < l.length
  · rw [if_pos hb]
  · rw [if_neg hb, if_neg (by omega)]
    have : l.length ≤ i.toNat := by omega
    rw [List.get?_eq_getElem?, List.getElem?_eq_none this]

theorem pyGet_some_lt {β : Type} {l : List β} {i : ℤ} {x : β}
    (h0 : 0 ≤ i) (h : pyGet l i = some x) : i < l.length := by
  rw [pyGet_nonneg h0, List.get?_eq_getElem?] at h
  obtain ⟨hlt, -⟩ := List.getElem?_eq_some_iff.mp h
  omega

theorem tblGet_nonneg {β : Type} {g : List (List β)} {r c : ℤ}
    (h0r : 0 ≤ r) :
    tblGet g r c = (g.get? r.toNat).bind (fun row => pyGet row c) := by
  rw [tblGet, pyGet_nonneg h0r]
  cases g.get? r.toNat with
  | none => rfl
  | some row => rfl

theorem tblGet_some_bounds {β : Type} {g : List (List β)} {a b : ℤ} {x : β}
    (h0a : 0 ≤ a) (h0b : 0 ≤ b) (h : tblGet g a b = some x) :
    a < g.length ∧
      ∃ row, g.get? a.toNat = some row ∧ b < row.length ∧
        row.get? b.toNat = some x := by
  rw [tblGet_nonneg h0a] at h
  cases hg : g.get? a.toNat with
  | none => rw [hg] at h; cases h
  | some row =>
    rw [hg] at h
    simp only [Option.some_bind] at h
    have hb := pyGet_some_lt h0b h
    rw [pyGet_nonneg h0b] at h
    refine ⟨?_, row, rfl, hb, h⟩
    obtain ⟨hlt, -⟩ := List.get?_eq_some.mp hg
    omega

theorem tblGet_mem {β : Type} {g : List (List β)} {a b : ℤ} {x : β}
    (h0a : 0 ≤ a) (h0b : 0 ≤ b) (h : tblGet g a b = some x) :
    ∃ row ∈ g, x ∈ row := by
  obtain ⟨-, row, hrow, -, hx⟩ := tblGet_some_bounds h0a h0b h
  exact ⟨row, List.get?_mem hrow, List.get?_mem hx⟩

theorem pySet_nonneg {β : Type} {l : List β} {i : ℤ} {v : β}
    (h0 : 0 ≤ i) (h1 : i < l.length) :
    pySet l i v = some (l.set i.toNat v) := by
  rw [pySet, if_pos ⟨h0, h1⟩]

theorem tblSet_eq {β : Type} {g : List (List β)} {r c : ℤ} {v : β} {row : List β}
    (h0r : 0 ≤ r) (h0c : 0 ≤ c) (hrow : g.get? r.toNat = some row)
    (hc : c < row.length) :
    tblSet g r c v = some (g.set r.toNat (row.set c.toNat v)) := by
  have hr : r < g.length := by
    obtain ⟨hlt, -⟩ := List.get?_eq_some.mp hrow
    omega
  simp only [tblSet, pyGet_nonneg h0r, hrow, pySet_nonneg h0c hc,
    pySet_nonneg h0r hr]

theorem get?_set_self {β : Type} {l : List β} {n : ℕ} {v : β} (h : n < l.length) :
    (l.set n v).get? n = some v := by
  rw [List.get?_eq_getElem?, List.getElem?_set_self', List.getElem?_eq_getElem h]
  rfl

theorem get?_set_ne {β : Type} {l : List β} {m n : ℕ} {v : β} (h : m ≠ n) :
    (l.set m v).get? n = l.get? n := by
  rw [List.get?_eq_getElem?, List.getElem?_set_ne h, List.get?_eq_getElem?]

theorem tblGet_set_same {β : Type} {g : List (List β)} {r c : ℤ} {v : β}
    {row : List β} (h0r : 0 ≤ r) (h0c : 0 ≤ c)
    (hrow : g.get? r.toNat = some row) (hc : c < row.length) :
    tblGet (g.set r.toNat (row.set c.toNat v)) r c = some v := by
  have hr : r.toNat < g.length := by
    obtain ⟨hlt, -⟩ := List.get?_eq_some.mp hrow
    omega
  rw [tblGet_nonneg h0r, get?_set_self hr]
  simp only [Option.some_bind]
  rw [pyGet_nonneg h0c]
  exact get?_set_self (by omega)

theorem tblGet_set_other {β : Type} {g : List (List β)} {r c a b : ℤ} {v : β}
    {row : List β} (h0r : 0 ≤ r) (h0c : 0 ≤ c) (h0a : 0 ≤ a) (h0b : 0 ≤ b)
    (hrow : g.get? r.toNat = some row) (hne : ¬(a = r ∧ b = c)) :
    tblGet (g.set r.toNat (row.set c.toNat v)) a b = tblGet g a b := by
  rw [tblGet_nonneg h0a, tblGet_nonneg h0a]
  by_cases har : a = r
  · subst har
    have hbc : b ≠ c := fun h => hne ⟨rfl, h⟩
    have hr : a.toNat < g.length := by
      obtain ⟨hlt, -⟩ := List.get?_eq_some.mp hrow
      omega
    rw [get?_set_self hr, hrow]
    simp only [Option.some_bind]
    rw [pyGet_nonneg h0b, pyGet_nonneg h0b]
    exact get?_set_ne (by omega)
  · rw [get?_set_ne (by omega)]

theorem tblSet_facts {β : Type} {g : List (List β)} {R C : ℕ}
    (hlen : g.length = R) (hrows : ∀ row ∈ g, row.length = C)
    {r c : ℤ} (h0r : 0 ≤ r) (hrR : r < (R : ℤ)) (h0c : 0 ≤ c)
    (hcC : c < (C : ℤ)) (v : β) :
    ∃ g', tblSet g r c v = some g' ∧ g'.length = R ∧
      (∀ row ∈ g', row.length = C) ∧
      tblGet g' r c = some v ∧
      (∀ a b : ℤ, 0 ≤ a → 0 ≤ b → ¬(a = r ∧ b = c) →
        tblGet g' a b = tblGet g a b) := by
  have hr : r.toNat < g.length := by omega
  obtain ⟨row, hrow⟩ : ∃ row, g.get? r.toNat = some row := by
    cases hg : g.get? r.toNat with
    | none =>
      rw [List.get?_eq_getElem?, List.getElem?_eq_none_iff] at hg
      omega
    | some row => exact ⟨row, rfl⟩
  have hrowlen : row.length = C := hrows row (List.get?_mem hrow)
  have hc : c < (row.length : ℤ) := by omega
  refine ⟨g.set r.toNat (row.set c.toNat v), tblSet_eq h0r h0c hrow hc, ?_, ?_,
    tblGet_set_same h0r h0c hrow hc, fun a b h0a h0b hne =>
      tblGet_set_other h0r h0c h0a h0b hrow hne⟩
  · rw [List.length_set, hlen]
  · intro row2 hmem
    rcases List.mem_or_eq_of_mem_set hmem with h | h
    · exact hrows row2 h
    · rw [h, List.length_set]
      exact hrowlen

theorem spanCheck_ok_facts {α : Type} [DecidableEq α]
    {cells : List (List (TableCell α))} {cl : Cell α} {r c : ℤ} :
    ∀ {ps tc tc' : List (ℤ × ℤ)}, spanCheck cells cl r c ps tc = .ok tc' →
      (∀ p ∈ ps, ¬(p.1 = r ∧ p.2 = c) →
        tblGet cells p.1 p.2 = some (.extended cl (p.1 - r) (p.2 - c)))
      ∧ tc' ⊆ tc
      ∧ (∀ p ∈ tc, p ∉ tc' → p ∈ ps ∧ ¬(p.1 = r ∧ p.2 = c)) := by
  intro ps
  induction ps with
  | nil =>
    intro tc tc' h
    rw [spanCheck] at h
    cases h
    exact ⟨by simp, fun p hp => hp, fun p hp hnp => absurd hp hnp⟩
  | cons q ps ih =>
    intro tc tc' h
    obtain ⟨er, ec⟩ := q
    rw [spanCheck] at h
    by_cases hq : er = r ∧ ec = c
    · rw [if_pos hq] at h
      obtain ⟨h1, h2, h3⟩ := ih h
      refine ⟨?_, h2, ?_⟩
      · intro p hp hnp
        rcases List.mem_cons.mp hp with hp | hp
        · subst hp; exact absurd hq hnp
        · exact h1 p hp hnp
      · intro p hp hnp
        obtain ⟨hm, hn⟩ := h3 p hp hnp
        exact ⟨List.mem_cons_of_mem _ hm, hn⟩
    · rw [if_neg hq] at h
      cases hget : tblGet cells er ec with
      | none => rw [hget] at h; cases h
      | some x =>
        rw [hget] at h
        cases x with
        | cell _ => cases h
        | extended ecl dr dc =>
          replace h : (if ecl ≠ cl then
              (Except.error TableError.extendedCellReference :
                Except TableError (List (ℤ × ℤ)))
            else if dr ≠ er - r ∨ dc ≠ ec - c then
              Except.error TableError.extendedCellCoordinate
            else if (er, ec) ∈ tc then
              spanCheck cells cl r c ps (tc.erase (er, ec))
            else Except.error TableError.valueError) = Except.ok tc' := h
          by_cases hne : ecl ≠ cl
          · rw [if_pos hne] at h; cases h
          · rw [if_neg hne] at h
            push_neg at hne
            subst hne
            by_cases hco : dr ≠ er - r ∨ dc ≠ ec - c
            · rw [if_pos hco] at h; cases h
            · rw [if_neg hco] at h
              push_neg at hco
              obtain ⟨hdr, hdc⟩ := hco
              subst hdr; subst hdc
              by_cases hmem : (er, ec) ∈ tc
              · rw [if_pos hmem] at h
                obtain ⟨h1, h2, h3⟩ := ih h
                refine ⟨?_, ?_, ?_⟩
                · intro p hp hnp
                  rcases List.mem_cons.mp hp with hp | hp
                  · subst hp; exact hget
                  · exact h1 p hp hnp
                · exact fun p hp => List.erase_subset _ _ (h2 hp)
                · intro p hp hnp
                  by_cases hpq : p = (er, ec)
                  · subst hpq
                    exact ⟨List.mem_cons_self _ _, hq⟩
                  · have hpe : p ∈ tc.erase (er, ec) :=
                      (List.mem_erase_of_ne hpq).mpr hp
                    obtain ⟨hm, hn⟩ := h3 p hpe hnp
                    exact ⟨List.mem_cons_of_mem _ hm, hn⟩
              · rw [if_neg hmem] at h; cases h

theorem checkLoop_ok_facts {α : Type} [DecidableEq α]
    {cells : List (List (TableCell α))} :
    ∀ {fuel : ℕ} {tc : List (ℤ × ℤ)}, checkLoop cells fuel tc = .ok () →
      ∀ p ∈ tc,
        (∃ cl, tblGet cells p.1 p.2 = some (.cell cl) ∧
          OkSpan cells p.1 p.2 cl)
        ∨ (∃ q cl, q ∈ tc ∧ tblGet cells q.1 q.2 = some (.cell cl) ∧
            OkSpan cells q.1 q.2 cl ∧
            p ∈ spanPositions q.1 q.2 cl.rows cl.columns ∧ p ≠ q) := by
  intro fuel
  induction fuel with
  | zero =>
    intro tc h p hp
    cases tc with
    | nil => cases hp
    | cons q rest => rw [checkLoop] at h; cases h
  | succ fuel ih =>
    intro tc h p hp
    cases tc with
    | nil => cases hp
    | cons q rest =>
      obtain ⟨r, c⟩ := q
      rw [checkLoop] at h
      cases hget : tblGet cells r c with
      | none => rw [hget] at h; cases h
      | some x =>
        rw [hget] at h
        cases x with
        | extended _ _ _ => cases h
        | cell cl =>
          replace h : (if cl.columns ≠ 1 ∨ cl.rows ≠ 1 then
              match spanCheck cells cl r c
                  (spanPositions r c cl.rows cl.columns) rest with
              | .error e => (.error e : Except TableError Unit)
              | .ok rest2 => checkLoop cells fuel rest2
            else checkLoop cells fuel rest) = .ok () := h
          by_cases hg : cl.columns ≠ 1 ∨ cl.rows ≠ 1
          · rw [if_pos hg] at h
            cases hs : spanCheck cells cl r c
                (spanPositions r c cl.rows cl.columns) rest with
            | error e => rw [hs] at h; cases h
            | ok rest2 =>
              rw [hs] at h
              obtain ⟨hec, hsub, hrem⟩ := spanCheck_ok_facts hs
              have hok : OkSpan cells r c cl := by
                intro er ec hmem hne
                have := hec (er, ec) hmem (by simpa using hne)
                simpa using this
              rcases List.mem_cons.mp hp with hp | hp
              · subst hp
                exact Or.inl ⟨cl, hget, hok⟩
              · by_cases hp2 : p ∈ rest2
                · rcases ih h p hp2 with h1 | ⟨q2, cl2, hq2, rest⟩
                  · exact Or.inl h1
                  · exact Or.inr ⟨q2, cl2,
                      List.mem_cons_of_mem _ (hsub hq2), rest⟩
                · obtain ⟨hmem, hne⟩ := hrem p hp hp2
                  refine Or.inr ⟨(r, c), cl, List.mem_cons_self _ _, hget,
                    hok, hmem, ?_⟩
                  intro hpq
                  rw [hpq] at hne
                  exact hne ⟨rfl, rfl⟩
          · rw [if_neg hg] at h
            push_neg at hg
            rcases List.mem_cons.mp hp with hp | hp
            · subst hp
              refine Or.inl ⟨cl, hget, ?_⟩
              intro er ec hmem hne
              rw [mem_spanPositions, hg.1, hg.2] at hmem
              exact absurd ⟨by omega, by omega⟩ hne
            · rcases ih h p hp with h1 | ⟨q2, cl2, hq2, rest2⟩
              · exact Or.inl h1
              · exact Or.inr ⟨q2, cl2, List.mem_cons_of_mem _ hq2, rest2⟩

theorem rowPositions_eq_colPositions {β : Type} {r : ℤ} :
    ∀ (row : List β) (c : ℤ), rowPositions r c row = colPositions r c row.length := by
  intro row
  induction row with
  | nil => intro c; rfl
  | cons x xs ih =>
    intro c
    rw [rowPositions, List.length_cons, colPositions, ih]

theorem colPositions_append {r : ℤ} :
    ∀ (m n : ℕ) (c : ℤ),
      colPositions r c (m + n) = colPositions r c m ++ colPositions r (c + m) n := by
  intro m
  induction m with
  | zero =>
    intro n c
    simp only [Nat.zero_add, colPositions, List.nil_append, Nat.cast_zero,
      add_zero]
  | succ k ih =>
    intro n c
    have hsucc : k + 1 + n = (k + n) + 1 := by omega
    rw [hsucc, colPositions, colPositions, ih, List.cons_append]
    have : c + 1 + (k : ℤ) = c + ((k : ℤ) + 1) := by ring
    rw [this]
    push_cast
    rfl

theorem mem_presentPositions_le {β : Type} :
    ∀ (l : List (List β)) (r : ℤ) (p : ℤ × ℤ),
      p ∈ presentPositions r l → r ≤ p.1 := by
  intro l
  induction l with
  | nil => intro r p h; cases h
  | cons row rest ih =>
    intro r p h
    rcases List.mem_append.mp h with h | h
    · rw [rowPositions_eq_colPositions] at h
      have := mem_colPositions.mp h
      omega
    · have := ih (r + 1) p h
      omega

theorem presentPositions_density {β : Type} :
    ∀ (l : List (List β)) (r : ℤ) (ncols : ℕ),
      presentPositions r l = gridPositions r ncols l.length →
      ∀ row ∈ l, row.length = ncols := by
  intro l
  induction l with
  | nil => intro r ncols h row hrow; cases hrow
  | cons row rest ih =>
    intro r ncols h row2 hrow2
    rw [List.length_cons, presentPositions, gridPositions,
      rowPositions_eq_colPositions] at h
    rcases Nat.lt_trichotomy row.length ncols with hlt | heq | hgt
    · exfalso
      obtain ⟨k, hk⟩ : ∃ k, ncols = row.length + (k + 1) := ⟨ncols - row.length - 1, by omega⟩
      rw [hk, colPositions_append, List.append_assoc] at h
      have h2 := List.append_cancel_left h
      have hmem : ((r, (0 : ℤ) + (row.length : ℤ))) ∈ presentPositions (r + 1) rest := by
        rw [h2, colPositions]
        exact List.mem_cons_self _ _
      have := mem_presentPositions_le rest (r + 1) _ hmem
      omega
    · rw [heq] at h
      have h2 := List.append_cancel_left h
      rcases List.mem_cons.mp hrow2 with hr | hr
      · rw [hr, heq]
      · exact ih (r + 1) ncols h2 row2 hr
    · exfalso
      obtain ⟨k, hk⟩ : ∃ k, row.length = ncols + (k + 1) := ⟨row.length - ncols - 1, by omega⟩
      rw [hk, colPositions_append, List.append_assoc] at h
      have h2 := List.append_cancel_left h
      have hmem : ((r, (0 : ℤ) + (ncols : ℤ))) ∈ gridPositions (r + 1) ncols rest.length := by
        rw [← h2, colPositions]
        exact List.mem_cons_self _ _
      have := mem_gridPositions.mp hmem
      omega

theorem mem_toDictRow {α : Type} {r : ℤ} {p : ℤ × ℤ} {cl : Cell α} :
    ∀ (row : List (TableCell α)) (c : ℤ),
      (p, cl) ∈ toDictRow r c row ↔
        p.1 = r ∧ ∃ k : ℕ, p.2 = c + k ∧ row.get? k = some (.cell cl) := by
  intro row
  induction row with
  | nil =>
    intro c
    simp [toDictRow]
  | cons x xs ih =>
    intro c
    cases x with
    | cell cl2 =>
      rw [toDictRow, List.mem_cons, ih]
      constructor
      · intro h
        rcases h with h | ⟨h1, k, h2, h3⟩
        · obtain ⟨h1, h2⟩ := Prod.mk.injEq .. ▸ h
          subst h2
          obtain ⟨ha, hb⟩ := Prod.mk.injEq .. ▸ h1
          exact ⟨ha, 0, by omega, rfl⟩
        · exact ⟨h1, k + 1, by push_cast; omega, h3⟩
      · intro ⟨h1, k, h2, h3⟩
        cases k with
        | zero =>
          left
          obtain ⟨a, b⟩ := p
          simp only at h1 h2
          simp only [List.get?_cons_zero, Option.some.injEq] at h3
          have hc : cl2 = cl := by injection h3
          rw [h1, h2, hc]
          push_cast
          rw [add_zero]
        | succ m =>
          right
          refine ⟨h1, m, by push_cast at h2 ⊢; omega, ?_⟩
          simpa using h3
    | extended ecl dr dc =>
      rw [toDictRow, ih]
      constructor
      · intro ⟨h1, k, h2, h3⟩
        exact ⟨h1, k + 1, by push_cast; omega, h3⟩
      · intro ⟨h1, k, h2, h3⟩
        cases k with
        | zero =>
          simp only [List.get?_cons_zero, Option.some.injEq] at h3
          cases h3
        | succ m =>
          refine ⟨h1, m, by push_cast at h2 ⊢; omega, ?_⟩
          simpa using h3

theorem mem_toDictFrom {α : Type} {p : ℤ × ℤ} {cl : Cell α} :
    ∀ (l : List (List (TableCell α))) (r : ℤ),
      (p, cl) ∈ toDictFrom r l ↔
        ∃ i : ℕ, p.1 = r + i ∧ ∃ row, l.get? i = some row ∧
          ∃ k : ℕ, p.2 = k ∧ row.get? k = some (.cell cl) := by
  intro l
  induction l with
  | nil =>
    intro r
    simp [toDictFrom]
  | cons row rest ih =>
    intro r
    rw [toDictFrom, List.mem_append, mem_toDictRow, ih]
    constructor
    · intro h
      rcases h with ⟨h1, k, h2, h3⟩ | ⟨i, h1, row2, h2, k, h3, h4⟩
      · exact ⟨0, by omega, row, rfl, k, by omega, h3⟩
      · exact ⟨i + 1, by push_cast; omega, row2, by simpa using h2, k, h3, h4⟩
    · intro ⟨i, h1, row2, h2, k, h3, h4⟩
      cases i with
      | zero =>
        left
        simp only [List.get?_cons_zero, Option.some.injEq] at h2
        subst h2
        exact ⟨by omega, k, by omega, h4⟩
      | succ m =>
        right
        refine ⟨m, by push_cast at h1 ⊢; omega, row2, by simpa using h2, k, h3, h4⟩

theorem mem_to_dict {α : Type} {cells : List (List (TableCell α))}
    {a b : ℤ} {cl : Cell α} :
    ((a, b), cl) ∈ to_dict cells ↔
      0 ≤ a ∧ 0 ≤ b ∧ tblGet cells a b = some (.cell cl) := by
  rw [to_dict, mem_toDictFrom]
  constructor
  · intro ⟨i, h1, row, h2, k, h3, h4⟩
    simp only at h1 h3
    have h0a : (0 : ℤ) ≤ a := by omega
    have h0b : (0 : ℤ) ≤ b := by omega
    refine ⟨h0a, h0b, ?_⟩
    rw [tblGet_nonneg h0a]
    have hia : a.toNat = i := by omega
    have hkb : b.toNat = k := by omega
    rw [hia, h2, Option.some_bind, pyGet_nonneg h0b, hkb, h4]
  · intro ⟨h0a, h0b, hget⟩
    obtain ⟨-, row, hrow, -, hentry⟩ := tblGet_some_bounds h0a h0b hget
    exact ⟨a.toNat, by simp; omega, row, hrow, b.toNat, by simp; omega, hentry⟩

theorem foldl_max_le {b : ℤ} :
    ∀ (xs : List ℤ) (a : ℤ), xs.foldl max a ≤ b ↔ a ≤ b ∧ ∀ x ∈ xs, x ≤ b := by
  intro xs
  induction xs with
  | nil => intro a; simp
  | cons x xs ih =>
    intro a
    rw [List.foldl_cons, ih]
    simp only [List.mem_cons, max_le_iff]
    constructor
    · intro ⟨⟨h1, h2⟩, h3⟩
      exact ⟨h1, fun y hy => hy.elim (fun h => h ▸ h2) (h3 y)⟩
    · intro ⟨h1, h2⟩
      exact ⟨⟨h1, h2 x (Or.inl rfl)⟩, fun y hy => h2 y (Or.inr hy)⟩

theorem le_maxZ_of_mem {l : List ℤ} {x : ℤ} (h : x ∈ l) : x ≤ maxZ l := by
  cases l with
  | nil => cases h
  | cons y ys =>
    rw [maxZ]
    have hrefl : ys.foldl max y ≤ ys.foldl max y := le_refl _
    obtain ⟨h1, h2⟩ := (foldl_max_le ys y).mp hrefl
    rcases List.mem_cons.mp h with h | h
    · exact h ▸ h1
    · exact h2 x h

theorem maxZ_le {l : List ℤ} {b : ℤ} (h1 : l ≠ []) (h2 : ∀ x ∈ l, x ≤ b) :
    maxZ l ≤ b := by
  cases l with
  | nil => exact absurd rfl h1
  | cons y ys =>
    rw [maxZ, foldl_max_le]
    exact ⟨h2 y (List.mem_cons_self _ _),
      fun x hx => h2 x (List.mem_cons_of_mem _ hx)⟩

theorem tableCheck_ok_parts {α : Type} [DecidableEq α]
    {cells : List (List (TableCell α))} (h : tableCheck cells = .ok ()) :
    1 ≤ cells.length ∧ 1 ≤ (cells.headD []).length
    ∧ presentPositions 0 cells =
        gridPositions 0 (cells.headD []).length cells.length
    ∧ checkLoop cells
        (gridPositions 0 (cells.headD []).length cells.length).length
        (gridPositions 0 (cells.headD []).length cells.length) = .ok () := by
  rw [tableCheck] at h
  by_cases h1 : cells.length = 0 ∨ (cells.headD []).length = 0
  · rw [if_pos h1] at h; cases h
  · rw [if_neg h1] at h
    push_neg at h1
    by_cases h2 : presentPositions 0 cells ≠
        gridPositions 0 (cells.headD []).length cells.length
    · rw [if_pos h2] at h; cases h
    · rw [if_neg h2] at h
      push_neg at h2
      exact ⟨by omega, by omega, h2, h⟩

theorem spansPos_of_get {α : Type} {cells : List (List (TableCell α))}
    (hpos : cells.all (fun row => row.all cellSpansPos) = true)
    {a b : ℤ} {cl : Cell α} (h0a : 0 ≤ a) (h0b : 0 ≤ b)
    (hget : tblGet cells a b = some (.cell cl)) :
    1 ≤ cl.rows ∧ 1 ≤ cl.columns := by
  obtain ⟨row, hrow, hmem⟩ := tblGet_mem h0a h0b hget
  rw [List.all_eq_true] at hpos
  have h1 := hpos row hrow
  rw [List.all_eq_true] at h1
  have h2 := h1 _ hmem
  rw [cellSpansPos, Bool.and_eq_true, decide_eq_true_eq, decide_eq_true_eq] at h2
  exact h2

theorem rows_length_of_check {α : Type} [DecidableEq α]
    {cells : List (List (TableCell α))} (hok : tableCheck cells = .ok ()) :
    ∀ row ∈ cells, row.length = (cells.headD []).length := by
  obtain ⟨-, -, hpres, -⟩ := tableCheck_ok_parts hok
  exact presentPositions_density cells 0 _ hpres

theorem mem_grid_of_bounds {α : Type} [DecidableEq α]
    {cells : List (List (TableCell α))} (hok : tableCheck cells = .ok ())
    {a b : ℤ} {x : TableCell α} (h0a : 0 ≤ a) (h0b : 0 ≤ b)
    (hget : tblGet cells a b = some x) :
    (a, b) ∈ gridPositions 0 (cells.headD []).length cells.length := by
  obtain ⟨ha, row, hrow, hb, -⟩ := tblGet_some_bounds h0a h0b hget
  have hlen := rows_length_of_check hok row (List.get?_mem hrow)
  rw [mem_gridPositions]
  refine ⟨h0a, by omega, h0b, by omega⟩

theorem cell_okSpan {α : Type} [DecidableEq α]
    {cells : List (List (TableCell α))} (hok : tableCheck cells = .ok ())
    {a b : ℤ} {cl : Cell α} (h0a : 0 ≤ a) (h0b : 0 ≤ b)
    (hget : tblGet cells a b = some (.cell cl)) :
    OkSpan cells a b cl := by
  obtain ⟨-, -, -, hloop⟩ := tableCheck_ok_parts hok
  have hmem := mem_grid_of_bounds hok h0a h0b hget
  rcases checkLoop_ok_facts hloop (a, b) hmem with ⟨cl2, hget2, hok2⟩ |
      ⟨q, cl2, -, -, hokq, hspan, hne⟩
  · rw [hget] at hget2
    have : TableCell.cell cl = TableCell.cell cl2 :=
      Option.some.inj hget2
    have hcl : cl = cl2 := by injection this
    exact hcl ▸ hok2
  · exfalso
    have hne2 : ¬(a = q.1 ∧ b = q.2) := by
      intro ⟨h1, h2⟩
      exact hne (Prod.ext h1 h2)
    have := hokq a b hspan hne2
    rw [hget] at this
    exact absurd (Option.some.inj this) (by simp)

theorem position_covered {α : Type} [DecidableEq α]
    {cells : List (List (TableCell α))} (hok : tableCheck cells = .ok ())
    (hpos : cells.all (fun row => row.all cellSpansPos) = true)
    {a b : ℤ} (h0a : 0 ≤ a) (ha : a < cells.length) (h0b : 0 ≤ b)
    (hb : b < (cells.headD []).length) :
    ∃ q : ℤ × ℤ, originCovers cells q a b := by
  obtain ⟨-, -, -, hloop⟩ := tableCheck_ok_parts hok
  have hmem : (a, b) ∈ gridPositions 0 (cells.headD []).length cells.length := by
    rw [mem_gridPositions]
    exact ⟨h0a, by omega, h0b, by omega⟩
  rcases checkLoop_ok_facts hloop (a, b) hmem with ⟨cl, hget, -⟩ |
      ⟨q, cl, hq, hget, -, hspan, -⟩
  · obtain ⟨hr, hc⟩ := spansPos_of_get hpos h0a h0b hget
    exact ⟨(a, b), h0a, h0b, cl, hget, by omega, by omega, by omega, by omega⟩
  · have hqmem := mem_gridPositions.mp hq
    have hs := mem_spanPositions.mp hspan
    exact ⟨q, by omega, by omega, cl, hget, by omega, by omega, by omega, by omega⟩

theorem covering_unique {α : Type} [DecidableEq α]
    {cells : List (List (TableCell α))} (hok : tableCheck cells = .ok ())
    {a b : ℤ} {q1 q2 : ℤ × ℤ}
    (h1 : originCovers cells q1 a b) (h2 : originCovers cells q2 a b) :
    q1 = q2 := by
  obtain ⟨h0r1, h0c1, cl1, hget1, hb1⟩ := h1
  obtain ⟨h0r2, h0c2, cl2, hget2, hb2⟩ := h2
  have hok1 := cell_okSpan hok h0r1 h0c1 hget1
  have hok2 := cell_okSpan hok h0r2 h0c2 hget2
  have hspan1 : (a, b) ∈ spanPositions q1.1 q1.2 cl1.rows cl1.columns := by
    rw [mem_spanPositions]
    exact ⟨⟨hb1.1, hb1.2.1⟩, hb1.2.2.1, hb1.2.2.2⟩
  have hspan2 : (a, b) ∈ spanPositions q2.1 q2.2 cl2.rows cl2.columns := by
    rw [mem_spanPositions]
    exact ⟨⟨hb2.1, hb2.2.1⟩, hb2.2.2.1, hb2.2.2.2⟩
  by_cases he1 : a = q1.1 ∧ b = q1.2
  · by_cases he2 : a = q2.1 ∧ b = q2.2
    · obtain ⟨x1, y1⟩ := he1
      obtain ⟨x2, y2⟩ := he2
      exact Prod.ext (by omega) (by omega)
    · exfalso
      have := hok2 a b hspan2 he2
      rw [← he1.1, ← he1.2] at hget1
      rw [this] at hget1
      exact absurd (Option.some.inj hget1) (by simp)
  · by_cases he2 : a = q2.1 ∧ b = q2.2
    · exfalso
      have := hok1 a b hspan1 he1
      rw [← he2.1, ← he2.2] at hget2
      rw [this] at hget2
      exact absurd (Option.some.inj hget2) (by simp)
    · have e1 := hok1 a b hspan1 he1
      have e2 := hok2 a b hspan2 he2
      rw [e1] at e2
      have := Option.some.inj e2
      have hd : a - q1.1 = a - q2.1 ∧ b - q1.2 = b - q2.2 := by
        constructor
        · injection this
        · injection this
      exact Prod.ext (by omega) (by omega)

/-- The partially filled `from_dict` grid `g` agrees with the table
`cells`: same dimensions, and every entry is either still `None` or the
entry of `cells` at that position. -/
def gridMatches {α : Type} (cells : List (List (TableCell α)))
    (g : List (List (Option (TableCell α)))) : Prop :=
  g.length = cells.length ∧
  (∀ row ∈ g, row.length = (cells.headD []).length) ∧
  ∀ a b : ℤ, 0 ≤ a → a < cells.length → 0 ≤ b →
    b < (cells.headD []).length →
    tblGet g a b = some Option.none ∨
      ∃ v, tblGet cells a b = some v ∧ tblGet g a b = some (some v)

/-- The grid position `p` has been filled in. -/
def gridHas {α : Type} (g : List (List (Option (TableCell α))))
    (p : ℤ × ℤ) : Prop :=
  0 ≤ p.1 ∧ 0 ≤ p.2 ∧ ∃ v : TableCell α, tblGet g p.1 p.2 = some (some v)

theorem gridWrite_facts {α : Type}
    {cells : List (List (TableCell α))}
    (hcols : ∀ row ∈ cells, row.length = (cells.headD []).length)
    {g : List (List (Option (TableCell α)))} (hm : gridMatches cells g)
    {r c : ℤ} {v : TableCell α} (h0r : 0 ≤ r) (h0c : 0 ≤ c)
    (htruth : tblGet cells r c = some v) :
    ∃ g', tblSet g r c (some v) = some g' ∧ gridMatches cells g' ∧
      (∀ p, gridHas g p → gridHas g' p) ∧ gridHas g' (r, c) := by
  obtain ⟨hlen, hrows, hpt⟩ := hm
  obtain ⟨hr, row, hrow, hcb, -⟩ := tblGet_some_bounds h0r h0c htruth
  have hrl : row.length = (cells.headD []).length :=
    hcols row (List.get?_mem hrow)
  obtain ⟨g', hset, hlen', hrows', hsame, hother⟩ :=
    tblSet_facts hlen hrows h0r (by omega) h0c (by omega) (some v)
  refine ⟨g', hset, ⟨hlen', hrows', ?_⟩, ?_, h0r, h0c, v, hsame⟩
  · intro a b h0a ha h0b hb
    by_cases he : a = r ∧ b = c
    · rw [he.1, he.2, hsame]
      exact Or.inr ⟨v, htruth, rfl⟩
    · rw [hother a b h0a h0b he]
      exact hpt a b h0a ha h0b hb
  · intro p hp
    obtain ⟨hp1, hp2, w, hw⟩ := hp
    by_cases he : p.1 = r ∧ p.2 = c
    · exact ⟨hp1, hp2, v, by rw [he.1, he.2, hsame]⟩
    · exact ⟨hp1, hp2, w, by rw [hother p.1 p.2 hp1 hp2 he, hw]⟩

theorem fillSpan_facts {α : Type}
    {cells : List (List (TableCell α))}
    (hcols : ∀ row ∈ cells, row.length = (cells.headD []).length)
    {r c : ℤ} {cl : Cell α} (h0r : 0 ≤ r) (h0c : 0 ≤ c)
    (hok : OkSpan cells r c cl) :
    ∀ (ds : List (ℤ × ℤ)) (g : List (List (Option (TableCell α)))),
      (∀ d ∈ ds, d ∈ spanPositions 0 0 cl.rows cl.columns) →
      gridMatches cells g →
      ∃ g', fillSpan r c cl g ds = some g' ∧ gridMatches cells g' ∧
        (∀ p, gridHas g p → gridHas g' p) ∧
        (∀ d ∈ ds, ¬(d.1 = 0 ∧ d.2 = 0) → gridHas g' (r + d.1, c + d.2)) := by
  intro ds
  induction ds with
  | nil =>
    intro g hmem hm
    exact ⟨g, rfl, hm, fun p hp => hp, by simp⟩
  | cons d rest ih =>
    intro g hmem hm
    obtain ⟨dr, dc⟩ := d
    by_cases hd : dr = 0 ∧ dc = 0
    · rw [fillSpan, if_pos hd]
      obtain ⟨g', hfill, hm', hmono, hcov⟩ :=
        ih g (fun x hx => hmem x (List.mem_cons_of_mem _ hx)) hm
      refine ⟨g', hfill, hm', hmono, ?_⟩
      intro x hx hnx
      rcases List.mem_cons.mp hx with hx | hx
      · rw [hx] at hnx; exact absurd hd hnx
      · exact hcov x hx hnx
    · have hdmem := hmem (dr, dc) (List.mem_cons_self _ _)
      have hspan : (r + dr, c + dc) ∈
          spanPositions r c cl.rows cl.columns := by
        rw [mem_spanPositions]
        have := mem_spanPositions.mp hdmem
        omega
      have hne : ¬(r + dr = r ∧ c + dc = c) := by omega
      have htruth := hok (r + dr) (c + dc) hspan hne
      have hr1 : r + dr - r = dr := by ring
      have hc1 : c + dc - c = dc := by ring
      rw [hr1, hc1] at htruth
      have hb := mem_spanPositions.mp hdmem
      obtain ⟨g1, hset, hm1, hmono1, hhas1⟩ :=
        gridWrite_facts hcols hm (by omega) (by omega) htruth
      rw [fillSpan, if_neg hd, hset]
      obtain ⟨g', hfill, hm', hmono, hcov⟩ :=
        ih g1 (fun x hx => hmem x (List.mem_cons_of_mem _ hx)) hm1
      refine ⟨g', hfill, hm', fun p hp => hmono p (hmono1 p hp), ?_⟩
      intro x hx hnx
      rcases List.mem_cons.mp hx with hx | hx
      · obtain ⟨h1, h2⟩ := Prod.mk.injEq .. ▸ hx
        subst h1; subst h2
        exact hmono _ hhas1
      · exact hcov x hx hnx

theorem fillEntry_facts {α : Type}
    {cells : List (List (TableCell α))}
    (hcols : ∀ row ∈ cells, row.length = (cells.headD []).length)
    {g : List (List (Option (TableCell α)))} (hm : gridMatches cells g)
    {r c : ℤ} {cl : Cell α} (h0r : 0 ≤ r) (h0c : 0 ≤ c)
    (hget : tblGet cells r c = some (.cell cl))
    (hok : OkSpan cells r c cl) :
    ∃ g', fillEntry g r c cl = some g' ∧ gridMatches cells g' ∧
      (∀ p, gridHas g p → gridHas g' p) ∧
      (∀ p ∈ spanPositions r c cl.rows cl.columns, gridHas g' p) := by
  obtain ⟨g1, hset, hm1, hmono1, hhas1⟩ :=
    gridWrite_facts hcols hm h0r h0c hget
  obtain ⟨g', hfill, hm', hmono, hcov⟩ :=
    fillSpan_facts hcols h0r h0c hok
      (spanPositions 0 0 cl.rows cl.columns) g1 (fun x hx => hx) hm1
  rw [fillEntry, hset]
  refine ⟨g', hfill, hm', fun p hp => hmono p (hmono1 p hp), ?_⟩
  intro p hp
  obtain ⟨er, ec⟩ := p
  have hb := mem_spanPositions.mp hp
  by_cases he : er = r ∧ ec = c
  · rw [he.1, he.2]
    exact hmono _ hhas1
  · have hd : (er - r, ec - c) ∈ spanPositions 0 0 cl.rows cl.columns := by
      rw [mem_spanPositions]
      omega
    have hnd : ¬(er - r = 0 ∧ ec - c = 0) := by omega
    have := hcov (er - r, ec - c) hd hnd
    have h1 : r + (er - r) = er := by ring
    have h2 : c + (ec - c) = ec := by ring
    rw [h1, h2] at this
    exact this

theorem fillAll_facts {α : Type}
    {cells : List (List (TableCell α))}
    (hcols : ∀ row ∈ cells, row.length = (cells.headD []).length) :
    ∀ (d : List ((ℤ × ℤ) × Cell α)) (g : List (List (Option (TableCell α)))),
      gridMatches cells g →
      (∀ e ∈ d, 0 ≤ e.1.1 ∧ 0 ≤ e.1.2 ∧
        tblGet cells e.1.1 e.1.2 = some (.cell e.2) ∧
        OkSpan cells e.1.1 e.1.2 e.2) →
      ∃ g', fillAll g d = some g' ∧ gridMatches cells g' ∧
        (∀ p, gridHas g p → gridHas g' p) ∧
        (∀ e ∈ d, ∀ p ∈ spanPositions e.1.1 e.1.2 e.2.rows e.2.columns,
          gridHas g' p) := by
  intro d
  induction d with
  | nil =>
    intro g hm he
    exact ⟨g, rfl, hm, fun p hp => hp, by simp⟩
  | cons e rest ih =>
    intro g hm he
    obtain ⟨⟨r, c⟩, cl⟩ := e
    obtain ⟨h0r, h0c, hget, hok⟩ := he _ (List.mem_cons_self _ _)
    obtain ⟨g1, hfe, hm1, hmono1, hcov1⟩ :=
      fillEntry_facts hcols hm h0r h0c hget hok
    obtain ⟨g', hfill, hm', hmono, hcov⟩ :=
      ih g1 hm1 (fun x hx => he x (List.mem_cons_of_mem _ hx))
    rw [fillAll, hfe]
    refine ⟨g', hfill, hm', fun p hp => hmono p (hmono1 p hp), ?_⟩
    intro x hx p hp
    rcases List.mem_cons.mp hx with hx | hx
    · subst hx
      exact hmono p (hcov1 p hp)
    · exact hcov x hx p hp

theorem tblGet_natCast {β : Type} (g : List (List β)) (n k : ℕ) :
    tblGet g (n : ℤ) (k : ℤ) =
      (g.get? n).bind (fun row => row.get? k) := by
  rw [tblGet_nonneg (by omega), Int.toNat_natCast]
  cases g.get? n with
  | none => rfl
  | some row =>
    simp only [Option.some_bind]
    rw [pyGet_nonneg (by omega), Int.toNat_natCast]

theorem grid_full_eq {α : Type}
    {cells : List (List (TableCell α))}
    (hcols : ∀ row ∈ cells, row.length = (cells.headD []).length)
    {g : List (List (Option (TableCell α)))} (hm : gridMatches cells g)
    (hfull : ∀ a b : ℤ, 0 ≤ a → a < cells.length → 0 ≤ b →
      b < (cells.headD []).length → gridHas g (a, b)) :
    g = cells.map (fun row => row.map some) := by
  obtain ⟨hlen, hrows, hpt⟩ := hm
  apply List.ext_get?
  intro n
  by_cases hn : n < cells.length
  · obtain ⟨rowg, hrowg⟩ : ∃ rowg, g.get? n = some rowg := by
      cases hg : g.get? n with
      | none =>
        rw [List.get?_eq_getElem?, List.getElem?_eq_none_iff] at hg
        omega
      | some rowg => exact ⟨rowg, rfl⟩
    obtain ⟨rowc, hrowc⟩ : ∃ rowc, cells.get? n = some rowc := by
      cases hg : cells.get? n with
      | none =>
        rw [List.get?_eq_getElem?, List.getElem?_eq_none_iff] at hg
        omega
      | some rowc => exact ⟨rowc, rfl⟩
    have hrowglen : rowg.length = (cells.headD []).length :=
      hrows rowg (List.get?_mem hrowg)
    have hrowclen : rowc.length = (cells.headD []).length :=
      hcols rowc (List.get?_mem hrowc)
    rw [hrowg, List.get?_map, hrowc]
    simp only [Option.map_some']
    congr 1
    apply List.ext_get?
    intro k
    by_cases hk : k < (cells.headD []).length
    · obtain ⟨h0a, h0b, v, hv⟩ := hfull n k (by omega) (by omega)
        (by omega) (by omega)
      rw [tblGet_natCast, hrowg, Option.some_bind] at hv
      rcases hpt n k (by omega) (by omega) (by omega) (by omega) with hnone |
          ⟨w, hw1, hw2⟩
      · rw [tblGet_natCast, hrowg, Option.some_bind] at hnone
        rw [hv] at hnone
        cases Option.some.inj hnone
      · rw [tblGet_natCast, hrowg, Option.some_bind] at hw2
        rw [tblGet_natCast, hrowc, Option.some_bind] at hw1
        rw [hw2, List.get?_map, hw1]
        rfl
    · rw [List.get?_eq_getElem?, List.getElem?_eq_none (by omega),
        List.get?_eq_getElem?, List.getElem?_eq_none
          (by rw [List.length_map]; omega)]
  · rw [List.get?_eq_getElem?, List.getElem?_eq_none (by omega),
      List.get?_eq_getElem?, List.getElem?_eq_none
        (by rw [List.length_map]; omega)]

theorem mapM_map_some {β : Type} :
    ∀ (row : List β), (row.map some).mapM id = some row := by
  intro row
  induction row with
  | nil => rfl
  | cons x xs ih =>
    rw [List.map_cons, List.mapM_cons, ih]
    rfl

theorem unwrapGrid_map_some {β : Type} :
    ∀ (l : List (List β)),
      unwrapGrid (l.map (fun row => row.map some)) = some l := by
  intro l
  induction l with
  | nil => rfl
  | cons row rest ih =>
    rw [unwrapGrid, List.map_cons, List.mapM_cons, mapM_map_some]
    rw [unwrapGrid] at ih
    rw [ih]
    rfl

theorem initial_gridMatches {α : Type}
    {cells : List (List (TableCell α))} :
    gridMatches cells (List.replicate cells.length
      (List.replicate (cells.headD []).length (Option.none : Option (TableCell α)))) := by
  refine ⟨List.length_replicate .., ?_, ?_⟩
  · intro row hrow
    rw [List.eq_of_mem_replicate hrow]
    exact List.length_replicate ..
  · intro a b h0a ha h0b hb
    left
    rw [tblGet_nonneg h0a]
    have h1 : (List.replicate cells.length
        (List.replicate (cells.headD []).length
          (Option.none : Option (TableCell α)))).get? a.toNat =
        some (List.replicate (cells.headD []).length Option.none) := by
      rw [List.get?_eq_getElem?, List.getElem?_replicate, if_pos (by omega)]
    rw [h1, Option.some_bind, pyGet_nonneg h0b, List.get?_eq_getElem?,
      List.getElem?_replicate, if_pos (by omega)]

theorem entry_row_bound {α : Type} [DecidableEq α]
    {cells : List (List (TableCell α))} (hok : tableCheck cells = .ok ())
    (hpos : cells.all (fun row => row.all cellSpansPos) = true)
    {a b : ℤ} {cl : Cell α} (hmem : ((a, b), cl) ∈ to_dict cells) :
    a + cl.rows ≤ cells.length := by
  obtain ⟨h0a, h0b, hget⟩ := mem_to_dict.mp hmem
  obtain ⟨hr, hc⟩ := spansPos_of_get hpos h0a h0b hget
  by_cases h1 : cl.rows = 1
  · obtain ⟨ha, -⟩ := tblGet_some_bounds h0a h0b hget
    omega
  · have hsp := cell_okSpan hok h0a h0b hget
    have hmem2 : (a + cl.rows - 1, b) ∈
        spanPositions a b cl.rows cl.columns := by
      rw [mem_spanPositions]
      omega
    have hne : ¬(a + cl.rows - 1 = a ∧ b = b) := by omega
    have := hsp (a + cl.rows - 1) b hmem2 hne
    obtain ⟨ha2, -⟩ := tblGet_some_bounds (by omega) h0b this
    omega

theorem entry_col_bound {α : Type} [DecidableEq α]
    {cells : List (List (TableCell α))} (hok : tableCheck cells = .ok ())
    (hpos : cells.all (fun row => row.all cellSpansPos) = true)
    {a b : ℤ} {cl : Cell α} (hmem : ((a, b), cl) ∈ to_dict cells) :
    b + cl.columns ≤ (cells.headD []).length := by
  obtain ⟨h0a, h0b, hget⟩ := mem_to_dict.mp hmem
  obtain ⟨hr, hc⟩ := spansPos_of_get hpos h0a h0b hget
  by_cases h1 : cl.columns = 1
  · obtain ⟨-, row, hrow, hb, -⟩ := tblGet_some_bounds h0a h0b hget
    have := rows_length_of_check hok row (List.get?_mem hrow)
    omega
  · have hsp := cell_okSpan hok h0a h0b hget
    have hmem2 : (a, b + cl.columns - 1) ∈
        spanPositions a b cl.rows cl.columns := by
      rw [mem_spanPositions]
      omega
    have hne : ¬(a = a ∧ b + cl.columns - 1 = b) := by omega
    have := hsp a (b + cl.columns - 1) hmem2 hne
    obtain ⟨-, row, hrow, hb2, -⟩ := tblGet_some_bounds h0a (by omega) this
    have := rows_length_of_check hok row (List.get?_mem hrow)
    omega

theorem maxZ_rows_eq {α : Type} [DecidableEq α]
    {cells : List (List (TableCell α))} (hok : tableCheck cells = .ok ())
    (hpos : cells.all (fun row => row.all cellSpansPos) = true) :
    maxZ ((to_dict cells).map (fun e => e.1.1 + e.2.rows)) =
      (cells.length : ℤ) := by
  obtain ⟨hr1, hc1, -, -⟩ := tableCheck_ok_parts hok
  obtain ⟨q, hq⟩ := position_covered hok hpos (a := (cells.length : ℤ) - 1)
    (b := 0) (by omega) (by omega) (by omega) (by omega)
  obtain ⟨h0r, h0c, cl, hget, hb1, hb2, hb3, hb4⟩ := hq
  have hqmem : ((q.1, q.2), cl) ∈ to_dict cells :=
    mem_to_dict.mpr ⟨h0r, h0c, hget⟩
  have hvmem : q.1 + cl.rows ∈
      (to_dict cells).map (fun e => e.1.1 + e.2.rows) :=
    List.mem_map.mpr ⟨((q.1, q.2), cl), hqmem, rfl⟩
  have hge := le_maxZ_of_mem hvmem
  have hle : maxZ ((to_dict cells).map (fun e => e.1.1 + e.2.rows)) ≤
      (cells.length : ℤ) := by
    apply maxZ_le
    · intro h
      rw [List.map_eq_nil_iff] at h
      rw [h] at hqmem
      cases hqmem
    · intro x hx
      obtain ⟨e, he, hxe⟩ := List.mem_map.mp hx
      obtain ⟨⟨a, b⟩, cl2⟩ := e
      rw [← hxe]
      exact entry_row_bound hok hpos he
  omega

theorem maxZ_cols_eq {α : Type} [DecidableEq α]
    {cells : List (List (TableCell α))} (hok : tableCheck cells = .ok ())
    (hpos : cells.all (fun row => row.all cellSpansPos) = true) :
    maxZ ((to_dict cells).map (fun e => e.1.2 + e.2.columns)) =
      ((cells.headD []).length : ℤ) := by
  obtain ⟨hr1, hc1, -, -⟩ := tableCheck_ok_parts hok
  obtain ⟨q, hq⟩ := position_covered hok hpos (a := 0)
    (b := ((cells.headD []).length : ℤ) - 1) (by omega) (by omega)
    (by omega) (by omega)
  obtain ⟨h0r, h0c, cl, hget, hb1, hb2, hb3, hb4⟩ := hq
  have hqmem : ((q.1, q.2), cl) ∈ to_dict cells :=
    mem_to_dict.mpr ⟨h0r, h0c, hget⟩
  have hvmem : q.2 + cl.columns ∈
      (to_dict cells).map (fun e => e.1.2 + e.2.columns) :=
    List.mem_map.mpr ⟨((q.1, q.2), cl), hqmem, rfl⟩
  have hge := le_maxZ_of_mem hvmem
  have hle : maxZ ((to_dict cells).map (fun e => e.1.2 + e.2.columns)) ≤
      ((cells.headD []).length : ℤ) := by
    apply maxZ_le
    · intro h
      rw [List.map_eq_nil_iff] at h
      rw [h] at hqmem
      cases hqmem
    · intro x hx
      obtain ⟨e, he, hxe⟩ := List.mem_map.mp hx
      obtain ⟨⟨a, b⟩, cl2⟩ := e
      rw [← hxe]
      exact entry_col_bound hok hpos he
  omega

theorem from_dict_eval {α : Type} [DecidableEq α]
    (d : List ((ℤ × ℤ) × Cell α)) (hne : d.isEmpty = false)
    {g : List (List (Option (TableCell α)))}
    {cells : List (List (TableCell α))}
    (hfill : fillAll (List.replicate
      (maxZ (d.map (fun e => e.1.1 + e.2.rows))).toNat
      (List.replicate (maxZ (d.map (fun e => e.1.2 + e.2.columns))).toNat
        Option.none)) d = some g)
    (hunwrap : unwrapGrid g = some cells) :
    from_dict d = mkTable cells := by
  simp only [from_dict, hne, Bool.false_eq_true, if_false, hfill, hunwrap]

theorem from_dict_roundtrip {α : Type} [DecidableEq α]
    {cells : List (List (TableCell α))} (hok : tableCheck cells = .ok ())
    (hpos : cells.all (fun row => row.all cellSpansPos) = true) :
    from_dict (to_dict cells) = .ok cells := by
  obtain ⟨hr1, hc1, -, -⟩ := tableCheck_ok_parts hok
  have hcols := rows_length_of_check hok
  have hefacts : ∀ e ∈ to_dict cells, 0 ≤ e.1.1 ∧ 0 ≤ e.1.2 ∧
      tblGet cells e.1.1 e.1.2 = some (.cell e.2) ∧
      OkSpan cells e.1.1 e.1.2 e.2 := by
    intro e he
    obtain ⟨⟨a, b⟩, cl⟩ := e
    obtain ⟨h0a, h0b, hget⟩ := mem_to_dict.mp he
    exact ⟨h0a, h0b, hget, cell_okSpan hok h0a h0b hget⟩
  obtain ⟨g', hfill, hm', hmono, hcov⟩ :=
    fillAll_facts hcols (to_dict cells) _ initial_gridMatches hefacts
  have hfull : ∀ a b : ℤ, 0 ≤ a → a < cells.length → 0 ≤ b →
      b < (cells.headD []).length → gridHas g' (a, b) := by
    intro a b h0a ha h0b hb
    obtain ⟨q, hq⟩ := position_covered hok hpos h0a ha h0b hb
    obtain ⟨h0r, h0c, cl, hget, hb1, hb2, hb3, hb4⟩ := hq
    have hqmem : ((q.1, q.2), cl) ∈ to_dict cells :=
      mem_to_dict.mpr ⟨h0r, h0c, hget⟩
    have hspan : (a, b) ∈ spanPositions q.1 q.2 cl.rows cl.columns := by
      rw [mem_spanPositions]
      exact ⟨⟨hb1, hb2⟩, hb3, hb4⟩
    exact hcov ((q.1, q.2), cl) hqmem (a, b) hspan
  have hgeq := grid_full_eq hcols hm' hfull
  have hunwrap : unwrapGrid g' = some cells := by
    rw [hgeq]
    exact unwrapGrid_map_some cells
  have hd_ne : to_dict cells ≠ [] := by
    obtain ⟨q, hq⟩ := position_covered hok hpos (a := 0) (b := 0)
      (by omega) (by omega) (by omega) (by omega)
    obtain ⟨h0r, h0c, cl, hget, -⟩ := hq
    exact List.ne_nil_of_mem (mem_to_dict.mpr ⟨h0r, h0c, hget⟩)
  have hisEmpty : (to_dict cells).isEmpty = false := by
    simpa using hd_ne
  have htn1 : (maxZ ((to_dict cells).map (fun e => e.1.1 + e.2.rows))).toNat =
      cells.length := by
    rw [maxZ_rows_eq hok hpos]
    exact Int.toNat_natCast _
  have htn2 : (maxZ ((to_dict cells).map
      (fun e => e.1.2 + e.2.columns))).toNat = (cells.headD []).length := by
    rw [maxZ_cols_eq hok hpos]
    exact Int.toNat_natCast _
  have hfill2 : fillAll (List.replicate
      (maxZ ((to_dict cells).map (fun e => e.1.1 + e.2.rows))).toNat
      (List.replicate
        (maxZ ((to_dict cells).map (fun e => e.1.2 + e.2.columns))).toNat
        Option.none)) (to_dict cells) = some g' := by
    rw [htn1, htn2]
    exact hfill
  rw [from_dict_eval (to_dict cells) hisEmpty hfill2 hunwrap, mkTable, hok]

/-- C4 (amended): for a cell array accepted by the `Table` constructor
in which every `Cell` spans at least one row and one column, the
distinct cells exactly tile the `rows × columns` grid — every grid
position is covered by exactly one cell footprint — and
`Table.from_dict(t.to_dict())` returns the table unchanged.  (Without
the positive-span hypothesis the claim is false, see the
counterexample.) -/
theorem claim_C4_amended {α : Type} [DecidableEq α]
    (cells : List (List (TableCell α)))
    (hok : tableCheck cells = .ok ())
    (hpos : cells.all (fun row => row.all cellSpansPos) = true) :
    (∀ r c : ℤ, 0 ≤ r → r < cells.length → 0 ≤ c →
      c < (cells.headD []).length →
      ∃! q : ℤ × ℤ, originCovers cells q r c)
    ∧ from_dict (to_dict cells) = .ok cells := by
  refine ⟨?_, from_dict_roundtrip hok hpos⟩
  intro r c h0r hr h0c hc
  obtain ⟨q, hq⟩ := position_covered hok hpos h0r hr h0c hc
  exact ⟨q, hq, fun q2 hq2 => covering_unique hok hq2 hq⟩

/-- A cell spanning one row and two columns. -/
def wideCell : Cell ℕ :=
  ⟨1, 1, 2, .normal, .normal, .normal, .normal⟩

/-- A 2×2 table: a two-column cell on the first row and two unit cells
on the second. -/
def spanTable : List (List (TableCell ℕ)) :=
  [[.cell wideCell, .extended wideCell 0 1],
   [.cell ⟨2, 1, 1, .normal, .normal, .normal, .normal⟩,
    .cell ⟨3, 1, 1, .normal, .normal, .normal, .normal⟩]]

/-- C4 witness: the amended theorem applied to the concrete 2×2 table
`spanTable`, whose cells all have positive spans. -/
theorem claim_C4_witness :
    tableCheck spanTable = .ok ()
    ∧ (spanTable.all (fun row => row.all cellSpansPos)) = true
    ∧ (∀ r c : ℤ, 0 ≤ r → r < spanTable.length → 0 ≤ c →
        c < (spanTable.headD []).length →
        ∃! q : ℤ × ℤ, originCovers spanTable q r c)
    ∧ from_dict (to_dict spanTable) = .ok spanTable :=
  ⟨by decide, by decide,
    (claim_C4_amended spanTable (by decide) (by decide)).1,
    (claim_C4_amended spanTable (by decide) (by decide)).2⟩
